import Mathlib

/-! The rotating access log of `pnwconference` (package `useful`), its shutdown hooks
(package `cleanup`) and the session text of package `auth`.

A shallow embedding of `UsefulHandler/logs.go`, `apache.go`, `log_format.go` and
`handler.go`, of `cleanup/cleanup.go`, of `helpers/helpers.go` and of `auth/json.go` and
`auth/helper_funcs.go`.

Conventions of the embedding:

* A Go `string` is a sequence of bytes.  It is modelled by a Lean `String` whose characters
  stand for the bytes, so `len(s)` is `s.length`, and indexing, slicing and comparison act on
  `s.data` element by element.
* `int`, `int64` and `time.Duration` values are integers (`Int`); where the source does
  arithmetic on them the result is wrapped to 64 bits with `wrap64`.
* A Go `panic` is the error case of `Except`.
* The pieces of the Go standard library the source calls (`strings`, `strconv`, `fmt`, `time`,
  `path/filepath`, `os`, `net/http`, `reflect`, `unicode/utf8`, `bytes`, `compress/gzip`) are
  modelled after their documentation, in their own namespaces.
* An inner `http.Handler` is given by the calls it makes on its writer, in order.
-/

deriving instance DecidableEq for Except

/-- Conversion of an integer to `uint32`: its residue modulo `2^32`. -/
def uint32 (x : Int) : Nat := (x % 2 ^ 32).toNat

/-- Two's-complement wrap of an integer to the `int64` range. -/
def wrap64 (x : Int) : Int := (2 ^ 63 + x) % 2 ^ 64 - 2 ^ 63

/-! ## `strings` -/

namespace strings

/-- `strings.HasSuffix(s, suffix)`:
`len(s) >= len(suffix) && s[len(s)-len(suffix):] == suffix`. -/
def HasSuffix (s suffix : String) : Bool :=
  decide (s.length ≥ suffix.length) && (s.data.drop (s.length - suffix.length) == suffix.data)

/-- Scan for the last `i < k` at which `sep` occurs in `s`; `-1` when there is none. -/
def lastIndexBelow (s sep : List Char) : Nat → Int
  | 0 => -1
  | k + 1 => if sep.isPrefixOf (s.drop k) then (k : Int) else lastIndexBelow s sep k

/-- `strings.LastIndex(s, sep)`: the index of the last instance of `sep` in `s`, or `-1`. -/
def LastIndex (s sep : String) : Int :=
  lastIndexBelow s.data sep.data (s.length + 1 - sep.length)

/-- The slice expression `s[lo:hi]`; `none` stands for the run-time panic
"slice bounds out of range". -/
def slice (s : String) (lo hi : Int) : Option String :=
  if 0 ≤ lo ∧ lo ≤ hi ∧ hi ≤ s.length then
    some ⟨(s.data.take hi.toNat).drop lo.toNat⟩
  else none

/-- `strings.Join(elems, sep)`. -/
def Join (elems : List String) (sep : String) : String :=
  String.intercalate sep elems

end strings

/-! ## `strconv` -/

namespace strconv

/-- Value of a decimal digit byte, if it is one. -/
def digitVal (c : Char) : Option Nat :=
  if '0' ≤ c ∧ c ≤ '9' then some (c.toNat - 48) else none

/-- Value of a non-empty string of decimal digits read left to right, starting from `acc`. -/
def parseDigits : List Char → Nat → Option Nat
  | [], acc => some acc
  | c :: cs, acc =>
    match digitVal c with
    | some d => parseDigits cs (10 * acc + d)
    | none => none

/-- `strconv.ParseInt(s, 10, 64)`: an optional sign followed by one or more decimal digits,
with a value in the `int64` range; `none` stands for a non-nil error
(`ErrSyntax` or `ErrRange`). -/
def ParseInt (s : String) : Option Int :=
  let body (neg : Bool) (ds : List Char) : Option Int :=
    if ds.isEmpty then none else
    match parseDigits ds 0 with
    | none => none
    | some v =>
      if neg then (if v ≤ 2 ^ 63 then some (-(v : Int)) else none)
      else (if v < 2 ^ 63 then some (v : Int) else none)
  match s.data with
  | '-' :: ds => body true ds
  | '+' :: ds => body false ds
  | ds => body false ds

/-- `strconv.Itoa` / the text of `%d`: decimal digits of the magnitude, with a leading `-`
for a negative value. -/
def Itoa (n : Int) : String :=
  if n < 0 then "-" ++ Nat.repr n.natAbs else Nat.repr n.natAbs

end strconv

/-! ## `float64`

The only floating-point value of the program is `Duration.Seconds()`, which is printed.
Finite binary64 values are kept exactly, as a sign, a mantissa and a binary exponent, and
every operation rounds its exact result to nearest, ties to even. -/

/-- A finite binary64 value, `(-1)^neg * mant * 2^exp`; non-zero values produced by `ofRat`
have `2^52 ≤ mant < 2^53`. -/
structure Float64 where
  neg : Bool
  mant : Nat
  exp : Int
deriving DecidableEq, Repr

namespace Float64

/-- The quotient `n / d` rounded to the nearest natural number, ties to even. -/
def roundQuot (n d : Nat) : Nat :=
  let q := n / d
  let r := n % d
  if 2 * r > d ∨ (2 * r = d ∧ q % 2 = 1) then q + 1 else q

/-- Auxiliary of `log2`, recursive on the fuel. -/
def log2Fuel : Nat → Nat → Nat
  | 0, _ => 0
  | f + 1, n => if n < 2 then 0 else log2Fuel f (n / 2) + 1

/-- The position of the highest set bit, `⌊log₂ n⌋` (and `0` for `n = 0`). -/
def log2 (n : Nat) : Nat := log2Fuel n n

/-- Numerator of `p * 2^k / q`. -/
def scaleNum (p : Nat) (k : Int) : Nat := if 0 ≤ k then p * 2 ^ k.toNat else p

/-- Denominator of `p * 2^k / q`. -/
def scaleDen (q : Nat) (k : Int) : Nat := if 0 ≤ k then q else q * 2 ^ (-k).toNat

/-- The binary64 nearest to the rational `± p / q` (exponent range ignored: the values of
this program are far from the subnormal and the overflow range). -/
def ofRat (neg : Bool) (p q : Nat) : Float64 :=
  if p = 0 ∨ q = 0 then ⟨neg, 0, 0⟩ else
    let k0 : Int := 52 + (log2 q : Int) - (log2 p : Int)
    let k : Int := if scaleNum p k0 < 2 ^ 52 * scaleDen q k0 then k0 + 1 else k0
    let m := roundQuot (scaleNum p k) (scaleDen q k)
    if m = 2 ^ 53 then ⟨neg, 2 ^ 52, 1 - k⟩ else ⟨neg, m, -k⟩

/-- Numerator of the magnitude as a fraction. -/
def num (x : Float64) : Nat := if 0 ≤ x.exp then x.mant * 2 ^ x.exp.toNat else x.mant

/-- Denominator of the magnitude as a fraction. -/
def den (x : Float64) : Nat := if 0 ≤ x.exp then 1 else 2 ^ (-x.exp).toNat

/-- `strconv.FormatFloat(x, 'f', 6, 64)`, the text of `%f`: the value rounded to six
decimals (to nearest, ties to even), with a `-` for a negative value. -/
def fmtF6 (x : Float64) : String :=
  let u := roundQuot (x.num * 1000000) x.den
  let frac := Nat.repr (u % 1000000)
  (if x.neg then "-" else "") ++ Nat.repr (u / 1000000) ++ "." ++
    String.mk (List.replicate (6 - frac.length) '0') ++ frac

/-- The decimal point position `dp` of the positive fraction `n / d`:
`10^(dp-1) ≤ n / d < 10^dp`. -/
def decPoint (n d : Nat) : Int :=
  if d ≤ n then ((Nat.repr (n / d)).length : Int)
  else 1 - (((List.range 400).find? (fun j => decide (d ≤ n * 10 ^ j))).getD 0 : Nat)

/-- Does the decimal `c * 10^e` convert back to `x`? -/
def roundTrips (x : Float64) (c : Nat) (e : Int) : Bool :=
  if 0 ≤ e then ofRat x.neg (c * 10 ^ e.toNat) 1 == x
  else ofRat x.neg c (10 ^ (-e).toNat) == x

/-- The candidate with `nd` significant digits for the shortest decimal that converts back
to `x` (whose magnitude is `n / d`, with decimal point position `dp`): the digits of the
value rounded down or up, whichever converts back, the nearer one when both do. -/
def shortestAt (x : Float64) (dp : Int) (nd : Nat) : Option Nat :=
  let e : Int := dp - nd
  let sn := if 0 ≤ e then x.num else x.num * 10 ^ (-e).toNat
  let sd := if 0 ≤ e then x.den * 10 ^ e.toNat else x.den
  let down := sn / sd
  if sn % sd = 0 then some down else
  let okdown := roundTrips x down e
  let okup := roundTrips x (down + 1) e
  if okdown && okup then some (roundQuot sn sd)
  else if okdown then some down
  else if okup then some (down + 1)
  else none

/-- Drop the trailing zeros of a digit string. -/
def trimZeros (ds : List Char) : List Char :=
  (ds.reverse.dropWhile (fun c => c == '0')).reverse

/-- The shortest decimal digits that identify the non-zero value `x`, with the position of
the decimal point (`strconv`'s shortest formatting): value `= 0.d₁d₂… * 10^dp`. -/
def shortest (x : Float64) : List Char × Int :=
  let dp := decPoint x.num x.den
  match (List.range 17).findSome? (fun i => (shortestAt x dp (i + 1)).map (fun c => (c, i + 1))) with
  | some (c, nd) =>
    let ds := (Nat.repr c).data
    (trimZeros ds, dp + ((ds.length : Int) - nd))
  | none => ([], 0)

/-- `strconv.FormatFloat(x, 'g', -1, 64)`, the text of `%v`: the shortest digits, in
exponent form when the decimal exponent is below `-4` or at least `6`. -/
def fmtG (x : Float64) : String :=
  let sign := if x.neg then "-" else ""
  if x.mant = 0 then sign ++ "0" else
  let (ds, dp) := shortest x
  let ex := dp - 1
  if ex < -4 ∨ 6 ≤ ex then
    let es := Nat.repr ex.natAbs
    sign ++ String.mk (ds.take 1) ++ (if 1 < ds.length then "." ++ String.mk (ds.drop 1) else "") ++
      "e" ++ (if ex < 0 then "-" else "+") ++ (if es.length < 2 then "0" ++ es else es)
  else if 0 < dp then
    let ip := ds.take dp.toNat
    sign ++ String.mk (ip ++ List.replicate (dp.toNat - ip.length) '0') ++
      (if dp.toNat < ds.length then "." ++ String.mk (ds.drop dp.toNat) else "")
  else
    sign ++ "0." ++ String.mk (List.replicate (-dp).toNat '0' ++ ds)

end Float64

/-! ## `time` -/

namespace time

/-- `time.Second` in nanoseconds, the unit of `time.Duration`. -/
def Second : Int := 1000000000

/-- `Duration.Seconds`:
`sec := d / Second; nsec := d % Second; return float64(sec) + float64(nsec)/1e9`
(integer division truncates toward zero, so both parts carry the sign of `d`). -/
def Duration.Seconds (d : Int) : Float64 :=
  let a := d.natAbs
  let sec := Float64.ofRat false (a / 1000000000) 1
  let frac := Float64.ofRat false (a % 1000000000) 1000000000
  Float64.ofRat (decide (d < 0)) (sec.num * frac.den + frac.num * sec.den) (sec.den * frac.den)

/-- A `time.Time` in UTC, by its calendar and clock fields (what `Time.Date` and
`Time.Clock` return). -/
structure Time where
  Year : Int := 1
  Month : Nat := 1
  Day : Nat := 1
  Hour : Nat := 0
  Minute : Nat := 0
  Second : Nat := 0
deriving DecidableEq, Repr

/-- `time.appendInt`: the decimal digits of `x`, zero-padded on the left to `width` digits,
after a `-` when `x` is negative. -/
def appendInt (x : Int) (width : Nat) : String :=
  let ds := Nat.repr x.natAbs
  (if x < 0 then "-" else "") ++ String.mk (List.replicate (width - ds.length) '0') ++ ds

/-- The English month names of package `time`. -/
def longMonthNames : List String :=
  ["January", "February", "March", "April", "May", "June", "July", "August", "September",
    "October", "November", "December"]

/-- The chunks of a layout string (`time.nextStdChunk`), restricted to the reference-time
fields that are numbers or month names. -/
inductive Chunk where
  | lit (c : Char)
  | stdLongMonth | stdMonth | stdZeroMonth | stdZeroDay
  | stdNumMonth | stdDay | stdHour | stdHour12 | stdZeroHour12
  | stdMinute | stdZeroMinute | stdSecond | stdZeroSecond
  | stdLongYear | stdYear
deriving DecidableEq, Repr

/-- Split a layout into chunks, left to right, as `nextStdChunk` recognises them:
`January`, `Jan`, `01` to `06`, `15`, `2006`, and the single digits `1` to `5`. -/
def chunks : List Char → List Chunk
  | [] => []
  | 'J' :: 'a' :: 'n' :: 'u' :: 'a' :: 'r' :: 'y' :: rest => .stdLongMonth :: chunks rest
  | 'J' :: 'a' :: 'n' :: rest => .stdMonth :: chunks rest
  | '0' :: '1' :: rest => .stdZeroMonth :: chunks rest
  | '0' :: '2' :: rest => .stdZeroDay :: chunks rest
  | '0' :: '3' :: rest => .stdZeroHour12 :: chunks rest
  | '0' :: '4' :: rest => .stdZeroMinute :: chunks rest
  | '0' :: '5' :: rest => .stdZeroSecond :: chunks rest
  | '0' :: '6' :: rest => .stdYear :: chunks rest
  | '1' :: '5' :: rest => .stdHour :: chunks rest
  | '2' :: '0' :: '0' :: '6' :: rest => .stdLongYear :: chunks rest
  | '1' :: rest => .stdNumMonth :: chunks rest
  | '2' :: rest => .stdDay :: chunks rest
  | '3' :: rest => .stdHour12 :: chunks rest
  | '4' :: rest => .stdMinute :: chunks rest
  | '5' :: rest => .stdSecond :: chunks rest
  | c :: rest => .lit c :: chunks rest

/-- The text `Time.Format` writes for one chunk. -/
def formatChunk (t : Time) : Chunk → String
  | .lit c => String.singleton c
  | .stdLongMonth => longMonthNames.getD (t.Month - 1) ""
  | .stdMonth => String.mk ((longMonthNames.getD (t.Month - 1) "").data.take 3)
  | .stdZeroMonth => appendInt t.Month 2
  | .stdNumMonth => appendInt t.Month 0
  | .stdDay => appendInt t.Day 0
  | .stdHour12 => appendInt (if t.Hour % 12 = 0 then 12 else t.Hour % 12 : Nat) 0
  | .stdMinute => appendInt t.Minute 0
  | .stdSecond => appendInt t.Second 0
  | .stdZeroDay => appendInt t.Day 2
  | .stdHour => appendInt t.Hour 2
  | .stdZeroHour12 => appendInt (if t.Hour % 12 = 0 then 12 else t.Hour % 12 : Nat) 2
  | .stdZeroMinute => appendInt t.Minute 2
  | .stdZeroSecond => appendInt t.Second 2
  | .stdLongYear => appendInt t.Year 4
  | .stdYear => appendInt (t.Year % 100) 2

/-- `Time.Format(layout)`. -/
def Time.Format (t : Time) (layout : String) : String :=
  String.join ((chunks layout.data).map (formatChunk t))

end time

/-! ## `fmt` -/

namespace fmt

/-- An operand of `Sprintf`, with its dynamic type. -/
inductive Arg where
  | string (s : String)
  | int (n : Int)
  | int64 (n : Int)
  | float64 (x : Float64)
deriving DecidableEq, Repr

/-- `reflect.TypeOf(arg).String()`. -/
def Arg.typeName : Arg → String
  | .string _ => "string"
  | .int _ => "int"
  | .int64 _ => "int64"
  | .float64 _ => "float64"

/-- The operand under `%v`. -/
def Arg.verbV : Arg → String
  | .string s => s
  | .int n => strconv.Itoa n
  | .int64 n => strconv.Itoa n
  | .float64 x => x.fmtG

/-- Pad `s` on the left with `c` up to `width` bytes. -/
def padLeft (c : Char) (width : Nat) (s : String) : String :=
  String.mk (List.replicate (width - s.length) c) ++ s

/-- Pad a number: with the `0` flag the zeros go between the sign and the digits
(`fmtInteger`: `prec = wid`, one less when there is a sign), otherwise blanks go in front. -/
def padNumber (zero : Bool) (width : Nat) (neg : Bool) (digits : String) : String :=
  if zero then (if neg then "-" ++ padLeft '0' (width - 1) digits else padLeft '0' width digits)
  else padLeft ' ' width ((if neg then "-" else "") ++ digits)

/-- `badVerb`: `%!verb(type=value)`. -/
def badVerb (verb : Char) (a : Arg) : String :=
  "%!" ++ String.singleton verb ++ "(" ++ a.typeName ++ "=" ++ a.verbV ++ ")"

/-- `printArg`: one operand under one verb, with the `0` flag and the width of the verb. -/
def printArg (zero : Bool) (width : Nat) (verb : Char) (a : Arg) : String :=
  match verb, a with
  | 's', .string s => padLeft (if zero then '0' else ' ') width s
  | 'v', .string s => padLeft (if zero then '0' else ' ') width s
  | 'd', .int n => padNumber zero width (decide (n < 0)) (Nat.repr n.natAbs)
  | 'v', .int n => padNumber zero width (decide (n < 0)) (Nat.repr n.natAbs)
  | 'd', .int64 n => padNumber zero width (decide (n < 0)) (Nat.repr n.natAbs)
  | 'v', .int64 n => padNumber zero width (decide (n < 0)) (Nat.repr n.natAbs)
  | 'f', .float64 x => padNumber zero width x.neg (Float64.fmtF6 { x with neg := false })
  | 'v', .float64 x => padNumber zero width x.neg (Float64.fmtG { x with neg := false })
  | _, _ => badVerb verb a

/-- The operands left over when the format is used up: `%!(EXTRA type=value, ...)`. -/
def extra (args : List Arg) : String :=
  if args.isEmpty then "" else
    "%!(EXTRA " ++ String.intercalate ", " (args.map (fun a => a.typeName ++ "=" ++ a.verbV)) ++ ")"

/-- The decimal width of a verb: the leading digits of the rest of the format. -/
def parseWidth : List Char → Nat → Nat × List Char
  | c :: cs, acc =>
    if '0' ≤ c ∧ c ≤ '9' then parseWidth cs (10 * acc + (c.toNat - 48)) else (acc, c :: cs)
  | [], acc => (acc, [])

/-- The verb that starts at `cs`, just after a `%`: the `0` flag, a width and the verb
character.  `none` when the format ends first. -/
def parseVerb (cs : List Char) : Option (Bool × Nat × Char × List Char) :=
  let zero := cs.head? == some '0'
  let cs1 := if zero then cs.dropWhile (fun c => c == '0') else cs
  match parseWidth cs1 0 with
  | (w, v :: rest) => some (zero, w, v, rest)
  | (_, []) => none

/-- `doPrintf`, recursive on `fuel ≥` the length of the format.  Text is copied; `%%` is a
percent sign; a verb takes the next operand, or prints `%!verb(MISSING)` when none is left;
a format that ends inside a verb prints `%!(NOVERB)`.  Of the verb syntax, the flag `0`, a
decimal width and the verbs `s`, `d`, `f` and `v` are modelled (what the formats of this
package use); any other verb character is answered with `badVerb`. -/
def doPrintf : Nat → List Char → List Arg → String
  | 0, _, args => extra args
  | _ + 1, [], args => extra args
  | fuel + 1, '%' :: cs, args =>
    match parseVerb cs with
    | none => "%!(NOVERB)" ++ extra args
    | some (zero, w, v, rest) =>
      if v = '%' then "%" ++ doPrintf fuel rest args
      else match args with
        | [] => "%!" ++ String.singleton v ++ "(MISSING)" ++ doPrintf fuel rest []
        | a :: as => printArg zero w v a ++ doPrintf fuel rest as
  | fuel + 1, c :: cs, args => String.singleton c ++ doPrintf fuel cs args

/-- `fmt.Sprintf(format, args...)`. -/
def Sprintf (format : String) (args : List Arg) : String :=
  doPrintf (format.length + 1) format.data args

end fmt

/-! ## `path/filepath` (Unix) -/

namespace filepath

/-- Split at every `/`. -/
def splitSlash : List Char → List (List Char)
  | [] => [[]]
  | c :: cs =>
    if c = '/' then [] :: splitSlash cs
    else match splitSlash cs with
      | [] => [[c]]
      | h :: t => (c :: h) :: t

/-- One step of `Clean` on the stack of kept elements (top first): `..` removes the
element before it, unless that is itself `..` or there is none; at the root `..` is dropped. -/
def cleanStep (rooted : Bool) (stack : List (List Char)) (c : List Char) : List (List Char) :=
  if c = ['.', '.'] then
    match stack with
    | top :: rest => if top = ['.', '.'] then c :: stack else rest
    | [] => if rooted then [] else [c]
  else c :: stack

/-- `filepath.Clean`: the shortest equivalent path by lexical processing (multiple
separators collapse, `.` elements go, inner `..` elements go with the element before them,
`/..` at the root becomes `/`; the empty result is `.`). -/
def Clean (path : String) : String :=
  let rooted := path.data.head? == some '/'
  let elems := (splitSlash path.data).filter (fun c => !(c.isEmpty || c == ['.']))
  let kept := (elems.foldl (cleanStep rooted) []).reverse
  let out := (if rooted then "/" else "") ++ String.intercalate "/" (kept.map String.mk)
  if out = "" then "." else out

/-- `filepath.Join`: the elements from the first non-empty one on, joined with `/`, then
cleaned; the empty string when all are empty. -/
def Join (elem : List String) : String :=
  match elem.dropWhile (fun e => e == "") with
  | [] => ""
  | rest => Clean (strings.Join rest "/")

/-- `filepath.Base`: the last element of the path, trailing slashes removed first. -/
def Base (path : String) : String :=
  if path = "" then "." else
    let trimmed := (path.data.reverse.dropWhile (fun c => c == '/')).reverse
    let last := (trimmed.reverse.takeWhile (fun c => c != '/')).reverse
    if last.isEmpty then "/" else String.mk last

/-- `filepath.Dir`: all but the last element of the path, cleaned. -/
def Dir (path : String) : String :=
  Clean (String.mk (path.data.reverse.dropWhile (fun c => c != '/')).reverse)

end filepath

/-! ## `os`: the file system

Paths are resolved lexically (`filepath.Clean`), relative to one working directory.  A
regular file is a directory entry that points to an inode; an open file keeps its inode, so
it stays writable after the entry was renamed or removed. -/

namespace os

/-- The errors of the system calls that matter here. -/
inductive Errno where
  | ENOENT | EEXIST | EISDIR | ENOTDIR | EBADF | EACCES | ENOSPC | EDQUOT
deriving DecidableEq, Repr

/-- `os.IsExist(err)`: whether `err` reports that a file or directory already exists;
`false` for a nil error. -/
def IsExist (err : Option Errno) : Bool := err == some Errno.EEXIST

/-- An `*os.File`: a standard stream, an open regular file (by inode) or an open directory. -/
inductive File where
  | Stdout
  | Stderr
  | reg (ino : Nat)
  | dir (path : String)
deriving DecidableEq, Repr

/-- The state of the file system and of the standard streams. -/
structure FileSys where
  /-- the directories that exist, by clean path -/
  dirs : List String := ["."]
  /-- the regular files: clean path and inode number -/
  links : List (String × Nat) := []
  /-- the content of every inode, by number -/
  inodes : List String := []
  stdout : String := ""
  stderr : String := ""
deriving DecidableEq, Repr

/-- The inode a path names, if it names a regular file. -/
def FileSys.find (fs : FileSys) (name : String) : Option Nat :=
  fs.links.lookup (filepath.Clean name)

/-- The bytes of an inode. -/
def FileSys.content (fs : FileSys) (ino : Nat) : String := fs.inodes.getD ino ""

/-- The bytes of the regular file a path names. -/
def FileSys.read (fs : FileSys) (name : String) : Option String :=
  (fs.find name).map fs.content

/-- `open(2)`.  A directory opens read-only; a regular file opens, emptied under `trunc`;
a missing file is made under `create` when its directory exists. -/
def openFile (fs : FileSys) (name : String) (write create trunc : Bool) :
    Except Errno (FileSys × File) :=
  let p := filepath.Clean name
  if fs.dirs.contains p then
    if write then .error .EISDIR else .ok (fs, .dir p)
  else
    match fs.links.lookup p with
    | some ino =>
      .ok (if trunc then { fs with inodes := fs.inodes.set ino "" } else fs, .reg ino)
    | none =>
      if create && fs.dirs.contains (filepath.Dir p) then
        .ok ({ fs with links := (p, fs.inodes.length) :: fs.links, inodes := fs.inodes ++ [""] },
          .reg fs.inodes.length)
      else .error .ENOENT

/-- `os.OpenFile(name, os.O_RDWR|os.O_APPEND|os.O_CREATE, 0644)`. -/
def OpenFileAppend (fs : FileSys) (name : String) : Except Errno (FileSys × File) :=
  openFile fs name true true false

/-- `os.Create(name)`: `OpenFile(name, O_RDWR|O_CREATE|O_TRUNC, 0666)`. -/
def Create (fs : FileSys) (name : String) : Except Errno (FileSys × File) :=
  openFile fs name true true true

/-- `os.Open(name)`: `OpenFile(name, O_RDONLY, 0)`. -/
def Open (fs : FileSys) (name : String) : Except Errno (FileSys × File) :=
  openFile fs name false false false

/-- `os.Rename(oldpath, newpath)` of a regular file; an existing regular file at `newpath`
is replaced. -/
def Rename (fs : FileSys) (oldpath newpath : String) : Except Errno FileSys :=
  let po := filepath.Clean oldpath
  let pn := filepath.Clean newpath
  match fs.links.lookup po with
  | none => .error .ENOENT
  | some ino =>
    if fs.dirs.contains pn then .error .EISDIR
    else if !fs.dirs.contains (filepath.Dir pn) then .error .ENOENT
    else .ok { fs with links := (pn, ino) :: fs.links.filter (fun e => e.1 != po && e.1 != pn) }

/-- `os.Remove(name)` of a regular file. -/
def Remove (fs : FileSys) (name : String) : Except Errno FileSys :=
  let p := filepath.Clean name
  match fs.links.lookup p with
  | none => .error .ENOENT
  | some _ => .ok { fs with links := fs.links.filter (fun e => e.1 != p) }

/-- The error of `os.Stat(name)`: nil when the path names a file or a directory. -/
def Stat (fs : FileSys) (name : String) : Option Errno :=
  let p := filepath.Clean name
  if fs.dirs.contains p || (fs.links.lookup p).isSome then none else some .ENOENT

/-- `File.Stat().Size()` of an open regular file. -/
def File.Size (fs : FileSys) : File → Option Int
  | .reg ino => some (fs.content ino).length
  | _ => none

/-- `File.Readdirnames(-1)`: the names of the entries of an open directory (in directory
order), and no name at all for a file that is not a directory. -/
def File.Readdirnames (fs : FileSys) : File → List String
  | .dir p =>
    ((fs.links.map Prod.fst ++ fs.dirs).filter
      (fun e => e != p && filepath.Dir e == p)).map filepath.Base
  | _ => []

/-- `File.Write(p)`: the bytes go to the end of the file; the result is the new state, the
number of bytes written and the error. -/
def File.Write (fs : FileSys) (f : File) (p : String) : FileSys × Nat × Option Errno :=
  match f with
  | .Stdout => ({ fs with stdout := fs.stdout ++ p }, p.length, none)
  | .Stderr => ({ fs with stderr := fs.stderr ++ p }, p.length, none)
  | .reg ino =>
    if ino < fs.inodes.length then
      ({ fs with inodes := fs.inodes.set ino (fs.content ino ++ p) }, p.length, none)
    else (fs, 0, some .EBADF)
  | .dir _ => (fs, 0, some .EBADF)

end os

/-! ## `io` and `sort` -/

namespace io

/-- The `io.Writer` values of this program: an `*os.File`, or `io.MultiWriter(files...)`. -/
inductive Writer where
  | file (f : os.File)
  | multi (ws : List os.File)
deriving DecidableEq, Repr

/-- `multiWriter.Write`: write to each writer in turn, stop at the first error or short
write; without one the count is `len(p)`. -/
def writeAll (fs : os.FileSys) (p : String) : List os.File → os.FileSys × Nat
  | [] => (fs, p.length)
  | f :: rest =>
    match os.File.Write fs f p with
    | (fs1, n, none) => if n = p.length then writeAll fs1 p rest else (fs1, n)
    | (fs1, n, some _) => (fs1, n)

/-- `Writer.Write(p)`: the new state and the number of bytes written. -/
def Writer.Write (fs : os.FileSys) (w : Writer) (p : String) : os.FileSys × Nat :=
  match w with
  | .file f => let r := os.File.Write fs f p; (r.1, r.2.1)
  | .multi ws => writeAll fs p ws

end io

namespace fmt

/-- `fmt.Fprintf(w, format, args...)`: format, write the text to `w`, return the number
of bytes written. -/
def Fprintf (fs : os.FileSys) (w : io.Writer) (format : String) (args : List Arg) :
    os.FileSys × Int :=
  let r := w.Write fs (Sprintf format args)
  (r.1, (r.2 : Int))

end fmt

namespace sort

/-- `sort.Strings`: the strings in increasing (byte-wise lexicographic) order. -/
def Strings (a : List String) : List String := a.insertionSort (fun x y => x.data ≤ y.data)

end sort

/-! ## `net/http` -/

namespace http

/-- `http.StatusOK`. -/
def StatusOK : Int := 200

/-- What a `Hijack` method returns: the connection and the buffer (each by an identity,
`none` for nil) and the error (by its message, `none` for nil). -/
structure Hijacked where
  rwc : Option Nat := none
  buf : Option Nat := none
  err : Option String := none
deriving DecidableEq, Repr

/-- The value behind an `http.ResponseWriter`, as the server makes it: the status of the
header once it is written, the body written so far, and, when the dynamic type has a
`Hijack` method (implements `http.Hijacker`), what that method returns. -/
structure ResponseWriter where
  status : Option Int := none
  body : String := ""
  hijacker : Option Hijacked := none
deriving DecidableEq, Repr

/-- `ResponseWriter.WriteHeader(status)` of the server's writer: the first call sends the
header, a later call is superfluous and changes nothing. -/
def ResponseWriter.WriteHeader (w : ResponseWriter) (status : Int) : ResponseWriter :=
  if w.status.isSome then w else { w with status := some status }

/-- `ResponseWriter.Write(p)` of the server's writer: the header goes first, with
`StatusOK` if `WriteHeader` was not called; the result is the writer, the number of bytes
written and the error. -/
def ResponseWriter.Write (w : ResponseWriter) (p : String) :
    ResponseWriter × Int × Option String :=
  let w := w.WriteHeader StatusOK
  ({ w with body := w.body ++ p }, (p.length : Int), none)

/-- The fields and headers of an `http.Request` that the log uses; `Referer` and
`UserAgent` stand for the results of the methods of these names. -/
structure Request where
  Method : String := "GET"
  RequestURI : String := "/"
  Proto : String := "HTTP/1.1"
  RemoteAddr : String := ""
  Referer : String := ""
  UserAgent : String := ""
deriving DecidableEq, Repr

end http

/-! ## Package `useful`: formats and records (`apache.go`, `log_format.go`) -/

namespace useful

/-- `commonLogFmt`. -/
def commonLogFmt : String := "%s - - [%s] \"%s %d %d\" %f\n"

/-- `commonLogWithVHostFmt`. -/
def commonLogWithVHostFmt : String := "%s %s - - [%s] \"%s %d %d\" %f\n"

/-- `ncsaLogFmt`. -/
def ncsaLogFmt : String := "%s - - [%s] \"%s %d %d\" %f\n \"%s\" \"%s\""

/-- `refererLogFmt`. -/
def refererLogFmt : String := "%s -> %s"

/-- `agentLogFmt`. -/
def agentLogFmt : String := "%s"

/-- `timeFormat`. -/
def timeFormat : String := "02/Jan/2006 03:04:05"

/-- `requestFormat`. -/
def requestFormat : String := "%s %s %s"

/-- The implementations of the interface `LogFmt`: five struct types with a `Format`
field. -/
inductive LogFmt where
  | commonLog (Format : String)
  | commonLogWithVHost (Format : String)
  | ncsaLog (Format : String)
  | refererLog (Format : String)
  | agentLog (Format : String)
deriving DecidableEq, Repr

/-- The field `Format`. -/
def LogFmt.Format : LogFmt → String
  | .commonLog f => f
  | .commonLogWithVHost f => f
  | .ncsaLog f => f
  | .refererLog f => f
  | .agentLog f => f

/-- `CommonLog`. -/
def CommonLog : LogFmt := .commonLog commonLogFmt

/-- `CommonLogWithVHost`. -/
def CommonLogWithVHost : LogFmt := .commonLogWithVHost commonLogWithVHostFmt

/-- `NCSALog`. -/
def NCSALog : LogFmt := .ncsaLog ncsaLogFmt

/-- `RefererLog`. -/
def RefererLog : LogFmt := .refererLog refererLogFmt

/-- `AgentLog`. -/
def AgentLog : LogFmt := .agentLog agentLogFmt

/-- `ApacheLogRecord`: the embedded `http.ResponseWriter` and the fields of one log
entry. -/
structure ApacheLogRecord where
  ResponseWriter : http.ResponseWriter := {}
  LogFmt : LogFmt := CommonLog
  ip : String := ""
  time : time.Time := {}
  method : String := ""
  uri : String := ""
  protocol : String := ""
  status : Int := 200
  responseBytes : Int := 0
  elapsedTime : Int := 0
  referer : String := ""
  agent : String := ""
deriving DecidableEq, Repr

/-- `formattedTimeRequest`: the formatted time of the request and the request line. -/
def ApacheLogRecord.formattedTimeRequest (r : ApacheLogRecord) : String × String :=
  (r.time.Format timeFormat,
    fmt.Sprintf requestFormat [.string r.method, .string r.uri, .string r.protocol])

/-- The operands each `Print` method passes to `fmt.Fprintf` after the format. -/
def LogFmt.operands (l : LogFmt) (r : ApacheLogRecord) : List fmt.Arg :=
  let (timeFormatted, requestLine) := r.formattedTimeRequest
  match l with
  | .commonLog _ =>
    [.string r.ip, .string timeFormatted, .string requestLine, .int r.status,
      .int64 r.responseBytes, .float64 (time.Duration.Seconds r.elapsedTime)]
  | .commonLogWithVHost _ =>
    [.string r.ip, .string timeFormatted, .string requestLine, .int r.status,
      .int64 r.responseBytes, .float64 (time.Duration.Seconds r.elapsedTime)]
  | .ncsaLog _ =>
    [.string r.ip, .string timeFormatted, .string requestLine, .int r.status,
      .int64 r.responseBytes, .float64 (time.Duration.Seconds r.elapsedTime),
      .string r.referer, .string r.agent]
  | .refererLog _ => [.string r.referer, .string r.uri]
  | .agentLog _ => [.string r.agent]

/-- The text a `Print` method formats: `l.Format` applied to its operands. -/
def LogFmt.line (l : LogFmt) (r : ApacheLogRecord) : String :=
  fmt.Sprintf l.Format (l.operands r)

/-- `Print(w, r)`: `n, _ := fmt.Fprintf(w, l.Format, operands...); return n`. -/
def LogFmt.Print (l : LogFmt) (fs : os.FileSys) (w : io.Writer) (r : ApacheLogRecord) :
    os.FileSys × Int :=
  fmt.Fprintf fs w l.Format (l.operands r)

end useful

/-! ## `compress/gzip` -/

namespace compress.gzip

/-- `gzip.BestCompression`. -/
def BestCompression : Int := 9

/-- `gzip.HuffmanOnly`, the lowest level. -/
def HuffmanOnly : Int := -2

/-- The error of `gzip.NewWriterLevel(w, level)`, by its message: nil unless the level is
outside `HuffmanOnly..BestCompression`. -/
def NewWriterLevel (level : Int) : Option String :=
  if level < HuffmanOnly ∨ BestCompression < level then
    some (fmt.Sprintf "gzip: invalid compression level: %d" [.int level])
  else none

end compress.gzip

/-! ## Package `useful`: the log and its rotation (`logs.go`, `apache.go`) -/

namespace useful

/-- `dest`: the locations for log writing. -/
inductive dest where
  | Stdout | Stderr | File | Both
deriving DecidableEq, Repr

/-- `archPrefix`. -/
def archPrefix : String := "._archive"

/-- `Gigabyte`. -/
def Gigabyte : Int := 1024 * (1024 * (1024 * 1))

/-- `Options`. -/
structure Options where
  LogFormat : LogFmt := CommonLog
  LogDestination : dest := .Both
  LogName : String := "access.log"
  ArchiveDir : String := "archives"
  MaxFileSize : Int := 1 * Gigabyte
deriving DecidableEq, Repr

/-- `DefaultOptions()`. -/
def DefaultOptions : Options :=
  { LogFormat := CommonLog, LogDestination := .Both, LogName := "access.log",
    ArchiveDir := "archives", MaxFileSize := 1 * Gigabyte }

/-- `randPool`: the buffered channel `c`, by its queued names (oldest first) and its
capacity. -/
structure randPool where
  c : List String := []
  cap : Nat := 0
deriving DecidableEq, Repr

/-- `Log` (the mutex is not modelled: calls run one at a time). -/
structure Log where
  Opts : Options
  file : os.File
  size : Int
  out : io.Writer
  pool : randPool
deriving DecidableEq, Repr

/-- The state of the process apart from `LogFile`: the file system, the package variables
`cur` and `rand`, the clock readings `time.Now().UnixNano() + int64(os.Getpid())` that
`reseed` takes (`now k` is the `k`-th one), and the arguments of the `doRotate` goroutines
started so far, oldest first. -/
structure Sys where
  fs : os.FileSys := {}
  cur : Int := 0
  rand : Nat := 0
  now : Nat → Int := fun _ => 0
  reseeds : Nat := 0
  spawned : List String := []

/-- The state of the process: `Sys` and the package variable `LogFile`.  The receiver of
every `*Log` method is `LogFile`, as `Init` and `ApacheLogRecord.Log` have it. -/
structure World extends Sys where
  LogFile : Log

/-- What a `panic` carries. -/
inductive Panic where
  | errno (e : os.Errno)
  | message (s : String)
  | numError
  | sliceBounds
deriving DecidableEq, Repr

/-- `reseed()`: `uint32(time.Now().UnixNano() + int64(os.Getpid()))`. -/
def reseed (s : Sys) : Nat × Sys :=
  (uint32 (s.now s.reseeds), { s with reseeds := s.reseeds + 1 })

/-- The generator step of `nextSuffix`, in `uint32` arithmetic:
`r = r*1664525 + 1013904223` (the sum is written with the constant first, which keeps
unification from counting the constant down). -/
def lcg (r : Nat) : Nat := (1013904223 + r * 1664525) % 2 ^ 32

/-- The result of `nextSuffix` for the new generator state `r`:
`strconv.Itoa(int(1e9 + r%1e9))[1:]`, the sum in `uint32` arithmetic. -/
def suffixOf (r : Nat) : String :=
  String.mk ((strconv.Itoa ((1000000000 + r % 1000000000) % 2 ^ 32 : Nat)).data.drop 1)

/-- The generator state `nextSuffix` starts from: `rand`, reseeded if it is zero. -/
def seeded (s : Sys) : Nat × Sys := if s.rand = 0 then reseed s else (s.rand, s)

/-- `nextSuffix()`. -/
def nextSuffix (s : Sys) : String × Sys :=
  let r := lcg (seeded s).1
  (suffixOf r, { (seeded s).2 with rand := r })

/-- The loop of `randName`, `fuel` iterations left, with the locals `nconflict` and `name`. -/
def randNameLoop (pre : String) : Nat → Nat → String → Sys → String × Sys
  | 0, _, name, s => (name, s)
  | fuel + 1, nconflict, _, s =>
    let (suffix, s) := nextSuffix s
    let name := pre ++ suffix
    if os.IsExist (os.Stat s.fs name) then
      let nconflict := nconflict + 1
      let s := if nconflict > 10 then { (reseed s).2 with rand := (reseed s).1 } else s
      randNameLoop pre fuel nconflict name s
    else (name, s)

/-- `randName(prefix)`. -/
def randName (pre : String) (s : Sys) : String × Sys :=
  randNameLoop pre 10000 0 "" s

/-- `randPool.put(s)`: queue the name, or discard it if the pool is full. -/
def randPool.put (p : randPool) (name : String) : randPool :=
  if p.c.length < p.cap then { p with c := p.c ++ [name] } else p

/-- `randPool.get()`: the oldest queued name, or a new name if none is queued. -/
def randPool.get (p : randPool) (s : Sys) : String × randPool × Sys :=
  match p.c with
  | name :: rest => (name, { p with c := rest }, s)
  | [] => let (name, s) := randName archPrefix s; (name, p, s)

/-- The loop of `newRandPool`. -/
def newRandPoolLoop : Nat → randPool → Sys → randPool × Sys
  | 0, p, s => (p, s)
  | k + 1, p, s =>
    let (name, s) := randName archPrefix s
    newRandPoolLoop k (p.put name) s

/-- `newRandPool(n)`. -/
def newRandPool (n : Nat) (s : Sys) : randPool × Sys :=
  newRandPoolLoop n { c := [], cap := n } s

/-- The entry of `logMap` for a destination. -/
def logMap (file : os.File) : dest → io.Writer
  | .Stdout => .file .Stdout
  | .Stderr => .file .Stderr
  | .File => .file file
  | .Both => .multi [.Stdout, file]

/-- `Log.SetWriter()`. -/
def Log.SetWriter (l : Log) : Log :=
  { l with out := logMap l.file l.Opts.LogDestination }

/-- `Log.newFile()`. -/
def Log.newFile (opts : Options) (fs : os.FileSys) : Except os.Errno (os.FileSys × os.File) :=
  os.OpenFileAppend fs opts.LogName

/-- `NewLog(opts)`; `none` is the nil `*Options`. -/
def NewLog (opts : Option Options) (s : Sys) : Except os.Errno (Log × Sys) :=
  let opts := opts.getD DefaultOptions
  match Log.newFile opts s.fs with
  | .error err => .error err
  | .ok (fs, file) =>
    let size := (os.File.Size fs file).getD 0
    let (pool, s) := newRandPool 25 { s with fs := fs }
    .ok ({ Opts := opts, file := file, size := size,
           out := logMap file opts.LogDestination, pool := pool }, s)

/-- `Log.findCur()`. -/
def findCur (w : World) : Except Panic World :=
  match os.Open w.fs w.LogFile.Opts.ArchiveDir with
  | .error err => .error (.errno err)
  | .ok (_, dir) =>
    let names := os.File.Readdirnames w.fs dir
    if names.length = 0 then .ok { w with cur := 0 } else
    let names := sort.Strings names
    let highest := names.getD (names.length - 1) ""
    if !strings.HasSuffix highest "_.gz" then .ok { w with cur := 0 } else
    let h := strings.LastIndex highest "#"
    if h = -1 then .error (.message "Could not find current file number.") else
    let u := strings.LastIndex highest "_"
    if u = -1 then .error (.message "Could not find current file number.") else
    match strings.slice highest (h + 1) (u - 1) with
    | none => .error .sliceBounds
    | some digits =>
      match strconv.ParseInt digits with
      | none => .error .numError
      | some v => .ok { w with cur := v }

/-- `Log.Init(opts)`, for the nil receiver (`none`) or a given log. -/
def Init (l : Option Log) (opts : Option Options) (s : Sys) : Except Panic World :=
  match l with
  | some l => findCur { toSys := s, LogFile := l }
  | none =>
    match NewLog opts s with
    | .error err => .error (.errno err)
    | .ok (l, s) => findCur { toSys := s, LogFile := l }

/-- `Log.Rotate()`.  The goroutine `go l.doRotate(randName)` is recorded in `spawned`. -/
def Rotate (w : World) : Except Panic World :=
  let (randName, pool, s) := w.LogFile.pool.get w.toSys
  let fs := match os.Rename s.fs w.LogFile.Opts.LogName randName with
    | .ok fs => fs
    | .error _ => s.fs
  match Log.newFile w.LogFile.Opts fs with
  | .error err => .error (.errno err)
  | .ok (fs, file) =>
    let l : Log := { w.LogFile with file := file, pool := pool }
    let l := { l with size := 0 }
    let l := l.SetWriter
    let l := { l with pool := l.pool.put randName }
    .ok { toSys := { s with fs := fs, spawned := s.spawned ++ [randName] }, LogFile := l }

/-- The local `archiveName` of `doRotate`. -/
def archiveName (opts : Options) (cur : Int) : String :=
  let path := filepath.Join [opts.ArchiveDir, opts.LogName]
  fmt.Sprintf "%s#%010d_.gz" [.string path, .int64 cur]

/-- `Log.doRotate(randName)` on a device that reports no error (`doRotateIn` below is the
general run); `gzip` is the compressed stream that the gzip writer (level
`BestCompression`) produces for a content.  Every error ends in `panic(err)`; `io.Copy`
fails when `randName` names a directory (`EISDIR`). -/
def doRotate (gzip : String → String) (w : World) (randName : String) : Except Panic World :=
  let name := archiveName w.LogFile.Opts w.cur
  let cur := wrap64 (w.cur + 1)
  match os.Create w.fs name with
  | .error err => .error (.errno err)
  | .ok (fs, archive) =>
    match os.Open fs randName with
    | .error err => .error (.errno err)
    | .ok (fs, .reg ino) =>
      let fs := (os.File.Write fs archive (gzip (fs.content ino))).1
      match os.Remove fs randName with
      | .error err => .error (.errno err)
      | .ok fs => .ok { w with fs := fs, cur := cur }
    | .ok (_, _) => .error (.errno .EISDIR)

/-- What the device and other processes do to one run of `doRotate`, beyond what the state
of the file system determines: the error of `io.Copy`, of `os.Remove` and of each deferred
`Close`, `none` for no error.  `written` is the number of bytes of the compressed stream
that have reached the archive when `io.Copy` returns; the gzip writer holds the rest until
`gzw.Close()`. -/
structure Faults where
  written : Nat := 0
  copy : Option os.Errno := none
  remove : Option os.Errno := none
  gzwClose : Option os.Errno := none
  oldLogClose : Option os.Errno := none
  archiveClose : Option os.Errno := none
deriving DecidableEq, Repr

/-- `io.Copy(gzw, oldLog)` in `doRotate`: the content of `oldLog` goes to the gzip writer,
which passes the first `written` bytes of the compressed stream on to the archive.  The
result is the new state and the bytes the gzip writer holds, or the error: `EISDIR` when
`oldLog` is a directory, and the error of the device. -/
def copyToGzip (f : Faults) (gzip : String → String) (fs : os.FileSys)
    (archive oldLog : os.File) : Except os.Errno (os.FileSys × String) :=
  match oldLog with
  | .reg ino =>
    match f.copy with
    | some err => .error err
    | none =>
      let stream := gzip (fs.content ino)
      .ok ((os.File.Write fs archive (String.mk (stream.data.take f.written))).1,
        String.mk (stream.data.drop f.written))
  | _ => .error .EISDIR

/-- The deferred calls of `doRotate`, in the order they run: `gzw.Close()`, which writes
the bytes the gzip writer holds to the archive, then `oldLog.Close()` and
`archive.Close()`.  The result is the new state and the errors the three calls return. -/
def deferred (f : Faults) (fs : os.FileSys) (archive : os.File) (held : String) :
    os.FileSys × List (Option os.Errno) :=
  let fs := match f.gzwClose with
    | some _ => fs
    | none => (os.File.Write fs archive held).1
  (fs, [f.gzwClose, f.oldLogClose, f.archiveClose])

/-- `Log.doRotate(randName)` on a device that can fail.  The calls whose error is checked
end in `panic(err)`; the errors of the deferred calls have no receiver
(`defer gzw.Close()`), so only the state they leave is kept. -/
def doRotateIn (f : Faults) (gzip : String → String) (w : World) (randName : String) :
    Except Panic World :=
  let name := archiveName w.LogFile.Opts w.cur
  let cur := wrap64 (w.cur + 1)
  match os.Create w.fs name with
  | .error err => .error (.errno err)
  | .ok (fs, archive) =>
    match os.Open fs randName with
    | .error err => .error (.errno err)
    | .ok (fs, oldLog) =>
      match compress.gzip.NewWriterLevel compress.gzip.BestCompression with
      | some msg => .error (.message msg)
      | none =>
        match copyToGzip f gzip fs archive oldLog with
        | .error err => .error (.errno err)
        | .ok (fs, held) =>
          let removed : Except os.Errno os.FileSys :=
            match f.remove with
            | some err => .error err
            | none => os.Remove fs randName
          match removed with
          | .error err => .error (.errno err)
          | .ok fs => .ok { w with fs := (deferred f fs archive held).1, cur := cur }

/-- `ApacheLogRecord.Log(out)`. -/
def ApacheLogRecord.Log (r : ApacheLogRecord) (out : io.Writer) (w : World) :
    Except Panic World :=
  let (fs, n) := r.LogFmt.Print w.fs out r
  let w : World := { w with fs := fs }
  let rotated : Except Panic World :=
    if wrap64 (w.LogFile.size + n) ≥ w.LogFile.Opts.MaxFileSize then Rotate w else .ok w
  match rotated with
  | .error p => .error p
  | .ok w => .ok { w with LogFile := { w.LogFile with size := wrap64 (w.LogFile.size + n) } }

/-- The end of `Handler.ServeHTTP`: `record.Log(LogFile.out)`. -/
def logRecord (w : World) (r : ApacheLogRecord) : Except Panic World :=
  r.Log w.LogFile.out w

/-- The records of a sequence of requests logged one after another; a panic ends the
process. -/
def logAll : World → List ApacheLogRecord → Except Panic World
  | w, [] => .ok w
  | w, r :: rs =>
    match logRecord w r with
    | .error p => .error p
    | .ok w => logAll w rs

end useful

/-! ## Package `useful`: the capture wrapper and the handler (`apache.go`, `handler.go`) -/

namespace useful

/-- `ErrUnHijackable`, by its message. -/
def ErrUnHijackable : String :=
  "A(n) underlying ResponseWriter doesn't support the http.Hijacker interface"

/-- `ApacheLogRecord.Hijack()`: the type assertion `a.ResponseWriter.(http.Hijacker)`
holds when the dynamic type of the writer has a `Hijack` method; then the result is what
`hj.Hijack()` returns. -/
def ApacheLogRecord.Hijack (a : ApacheLogRecord) : http.Hijacked :=
  match a.ResponseWriter.hijacker with
  | none => { rwc := none, buf := none, err := some ErrUnHijackable }
  | some hj => hj

/-- `ApacheLogRecord.Write(p)`. -/
def ApacheLogRecord.Write (r : ApacheLogRecord) (p : String) :
    ApacheLogRecord × Int × Option String :=
  let (rw, n, err) := r.ResponseWriter.Write p
  ({ r with ResponseWriter := rw, responseBytes := wrap64 (r.responseBytes + n) }, n, err)

/-- `ApacheLogRecord.WriteHeader(status)`. -/
def ApacheLogRecord.WriteHeader (r : ApacheLogRecord) (status : Int) : ApacheLogRecord :=
  let r := { r with status := status }
  { r with ResponseWriter := r.ResponseWriter.WriteHeader status }

/-- One call that a handler makes on the `http.ResponseWriter` it is given. -/
inductive Call where
  | Write (p : String)
  | WriteHeader (status : Int)
deriving DecidableEq, Repr

/-- `Handler`: the field `handler` is the inner `http.Handler`, given by the calls its
`ServeHTTP` makes on its writer for the request at hand, in order. -/
structure Handler where
  handler : List Call := []
deriving DecidableEq, Repr

/-- `h.handler.ServeHTTP(record, r)`: the calls of the inner handler, made on the record. -/
def ApacheLogRecord.serve (record : ApacheLogRecord) : List Call → ApacheLogRecord
  | [] => record
  | .Write p :: rest => ApacheLogRecord.serve (record.Write p).1 rest
  | .WriteHeader status :: rest => ApacheLogRecord.serve (record.WriteHeader status) rest

/-- The local `clientIP` of `ServeHTTP`: `r.RemoteAddr`, cut before its last colon if it
has one. -/
def clientIP (remoteAddr : String) : Except Panic String :=
  let colon := strings.LastIndex remoteAddr ":"
  if colon ≠ -1 then
    match strings.slice remoteAddr 0 colon with
    | some s => .ok s
    | none => .error .sliceBounds
  else .ok remoteAddr

/-- The local `record` of `ServeHTTP` at the call `record.Log(LogFile.out)`.
`finishTime` is `finishTime.UTC()` and `elapsed` is `finishTime.Sub(startTime)`, for the
two readings of `time.Now()`. -/
def Handler.record (h : Handler) (l : Log) (rw : http.ResponseWriter) (r : http.Request)
    (finishTime : time.Time) (elapsed : Int) : Except Panic ApacheLogRecord :=
  match clientIP r.RemoteAddr with
  | .error p => .error p
  | .ok clientIP =>
    let record : ApacheLogRecord :=
      { ResponseWriter := rw, LogFmt := l.Opts.LogFormat, ip := clientIP, time := {},
        method := r.Method, uri := r.RequestURI, protocol := r.Proto,
        status := http.StatusOK, elapsedTime := 0, referer := r.Referer,
        agent := r.UserAgent }
    let record := record.serve h.handler
    let record := { record with time := finishTime }
    .ok { record with elapsedTime := elapsed }

/-- `Handler.ServeHTTP(rw, r)`. -/
def Handler.ServeHTTP (h : Handler) (rw : http.ResponseWriter) (r : http.Request)
    (finishTime : time.Time) (elapsed : Int) (w : World) : Except Panic World :=
  match h.record w.LogFile rw r finishTime elapsed with
  | .error p => .error p
  | .ok record => record.Log w.LogFile.out w

end useful

/-! ## `reflect` and package `cleanup` (`cleanup/cleanup.go`) -/

namespace reflect

/-- `reflect.Kind`, the kinds that occur here. -/
inductive Kind where
  | Int | String | Interface | Slice | Ptr | Func
deriving DecidableEq, Repr

/-- `reflect.Type`, for the types of parameters and arguments: `int`, `string`, the empty
interface `interface{}`, slices and pointers. -/
inductive Typ where
  | int
  | string
  | iface
  | slice (elem : Typ)
  | ptr (elem : Typ)
deriving DecidableEq, Repr

/-- `Type.Kind()`. -/
def Typ.Kind : Typ → Kind
  | .int => .Int
  | .string => .String
  | .iface => .Interface
  | .slice _ => .Slice
  | .ptr _ => .Ptr

/-- `Type.Elem()`; `none` stands for the panic on a type that has no element type. -/
def Typ.Elem : Typ → Option Typ
  | .slice elem => some elem
  | .ptr elem => some elem
  | _ => none

/-- `Type.AssignableTo(u)`: the types are identical, or `u` is the empty interface, which
every type implements. -/
def Typ.AssignableTo (t u : Typ) : Bool := t == u || u == .iface

/-- What an `interface{}` holds when it holds no slice and no function: nil, an `int` or a
`string`. -/
inductive Plain where
  | nil
  | int (n : Int)
  | string (s : String)
deriving DecidableEq, Repr

/-- What an `interface{}` argument holds: a plain value, or a `[]interface{}` of plain
values. -/
inductive Any where
  | plain (p : Plain)
  | slice (elems : List Plain)
deriving DecidableEq, Repr

/-- A function: its identity, the types of its parameters (`Type.In`, `Type.NumIn`) and
whether it is variadic (`Type.IsVariadic`; the last parameter type is then a slice). -/
structure Func where
  name : String
  ins : List Typ := []
  variadic : Bool := false
deriving DecidableEq, Repr

/-- `reflect.Value`: the value of an `interface{}` (`reflect.ValueOf`), or the zero value
of a type (`reflect.Zero`). -/
inductive Value where
  | of (a : Any)
  | zero (t : Typ)
deriving DecidableEq, Repr

/-- `reflect.ValueOf(i)`. -/
def ValueOf (i : Any) : Value := .of i

/-- `Value.IsValid()`: false for the `Value` of a nil interface. -/
def Value.IsValid : Value → Bool
  | .of (.plain .nil) => false
  | _ => true

/-- `Value.Type()`; `none` stands for the panic on an invalid `Value`. -/
def Value.Type : Value → Option Typ
  | .of (.plain .nil) => none
  | .of (.plain (.int _)) => some .int
  | .of (.plain (.string _)) => some .string
  | .of (.slice _) => some (.slice .iface)
  | .zero t => some t

end reflect

namespace cleanup

open reflect

/-- What is registered as `fn`: a function, or a value that is no function. -/
inductive Fn where
  | func (f : Func)
  | value (a : Any)
deriving DecidableEq, Repr

/-- The package variables `funcMap` and `funcArgs`, each map by its entries in the order
of registration. -/
structure Registry where
  funcMap : List (String × Fn) := []
  funcArgs : List (String × List Plain) := []
deriving DecidableEq, Repr

/-- `Register(name, fn, args...)`; `none` stands for the exit of the process in
`glog.Fatalf`, when the name is taken. -/
def Register (r : Registry) (name : String) (fn : Fn) (args : List Plain) : Option Registry :=
  if (r.funcMap.lookup name).isSome then none
  else some { funcMap := r.funcMap ++ [(name, fn)], funcArgs := r.funcArgs ++ [(name, args)] }

/-- The errors that `call` returns. -/
inductive Error where
  | nonFunction
  | wrongNumber (got want : Nat)
  | wrongNumberVariadic (got atLeast : Nat)
  | wrongType (i : Nat) (has should : Typ)
deriving DecidableEq, Repr

/-- How `call` ends: it reaches `v.Call(argv)` for the function of this name, it returns an
error, or it panics. -/
inductive Result where
  | called (name : String) (argv : List Value)
  | failed (err : Error)
  | panicked
deriving DecidableEq, Repr

/-- `canBeNil(typ)`. -/
def canBeNil (typ : Typ) : Bool :=
  match typ.Kind with
  | .Func | .Interface | .Ptr | .Slice => true
  | _ => false

/-- The loop of `call` that fills `argv`, at index `i`; the outcome is `argv` from `i` on,
or the way the loop ends early. -/
def argvLoop (f : Func) (dddType : Option Typ) : Nat → List Any → Except Result (List Value)
  | _, [] => .ok []
  | i, arg :: rest =>
    let value := ValueOf arg
    let argType := if !f.variadic || i < f.ins.length - 1 then f.ins.get? i else dddType
    match argType with
    | none => .error .panicked
    | some argType =>
      let value := if !value.IsValid && canBeNil argType then Value.zero argType else value
      match value.Type with
      | none => .error .panicked
      | some t =>
        if !t.AssignableTo argType then .error (.failed (.wrongType i t argType))
        else
          match argvLoop f dddType (i + 1) rest with
          | .error e => .error e
          | .ok argv => .ok (value :: argv)

/-- `call(fn, args...)`. -/
def call (fn : Fn) (args : List Any) : Result :=
  match fn with
  | .value (.plain .nil) => .panicked
  | .value _ => .failed .nonFunction
  | .func f =>
    let numIn := f.ins.length
    if f.variadic && decide (args.length < numIn - 1) then
      .failed (.wrongNumberVariadic args.length (numIn - 1))
    else if !f.variadic && decide (args.length ≠ numIn) then
      .failed (.wrongNumber args.length numIn)
    else
      let dddType := if f.variadic then (f.ins.get? (numIn - 1)).bind Typ.Elem else none
      match argvLoop f dddType 0 args with
      | .error e => e
      | .ok argv => .called f.name argv

/-- The loop of `Run` over the entries of `funcMap` (in the order of registration; Go
leaves the order open): `args := funcArgs[key]; call(val, args)`.  The slice `args` is
the one operand of `call`; what `call` returns is dropped.  The result is the calls
`v.Call(argv)` made, and whether the loop ended in a panic. -/
def RunLoop (r : Registry) : List (String × Fn) → List (String × List Value) × Bool
  | [] => ([], false)
  | (key, val) :: rest =>
    let args := (r.funcArgs.lookup key).getD []
    match call val [.slice args] with
    | .panicked => ([], true)
    | .failed _ => RunLoop r rest
    | .called name argv => ((name, argv) :: (RunLoop r rest).1, (RunLoop r rest).2)

/-- `Run()`. -/
def Run (r : Registry) : List (String × List Value) × Bool := RunLoop r r.funcMap

end cleanup

/-! ## `unicode/utf8` and `bytes` -/

namespace utf8

/-- The number of bytes and the range of the second byte that the first byte of an
encoding of more than one byte calls for (the table `first` with `acceptRanges`); `none`
for a byte that starts no such encoding. -/
def lead (b : Nat) : Option (Nat × Nat × Nat) :=
  if 0xC2 ≤ b ∧ b ≤ 0xDF then some (2, 0x80, 0xBF)
  else if b = 0xE0 then some (3, 0xA0, 0xBF)
  else if b = 0xED then some (3, 0x80, 0x9F)
  else if 0xE1 ≤ b ∧ b ≤ 0xEF then some (3, 0x80, 0xBF)
  else if b = 0xF0 then some (4, 0x90, 0xBF)
  else if 0xF1 ≤ b ∧ b ≤ 0xF3 then some (4, 0x80, 0xBF)
  else if b = 0xF4 then some (4, 0x80, 0x8F)
  else none

/-- Whether a byte is a continuation byte, `0x80` to `0xBF`. -/
def isCont (b : Nat) : Bool := decide (0x80 ≤ b ∧ b ≤ 0xBF)

/-- The width in bytes of the rune at the start of a non-empty string; an erroneous or
short encoding is a rune of width 1. -/
def width : List Char → Nat
  | [] => 1
  | c :: rest =>
    match lead c.toNat with
    | none => 1
    | some (size, lo, hi) =>
      if rest.length + 1 < size then 1
      else match rest with
        | c1 :: rest1 =>
          if c1.toNat < lo ∨ hi < c1.toNat then 1
          else if size = 2 then 2
          else match rest1 with
            | c2 :: rest2 =>
              if !isCont c2.toNat then 1
              else if size = 3 then 3
              else match rest2 with
                | c3 :: _ => if !isCont c3.toNat then 1 else 4
                | [] => 1
            | [] => 1
        | [] => 1

/-- The loop of `RuneCountInString`, `fuel` iterations left. -/
def countLoop : Nat → List Char → Nat
  | 0, _ => 0
  | _ + 1, [] => 0
  | fuel + 1, c :: rest => countLoop fuel ((c :: rest).drop (width (c :: rest))) + 1

/-- `utf8.RuneCountInString(s)`: the number of runes in `s`. -/
def RuneCountInString (s : String) : Nat := countLoop s.length s.data

end utf8

namespace bytes

/-- `bytes.Split(s, sep)` for a separator of one byte: the pieces of `s` between the
occurrences of the separator, in order. -/
def Split (s : List Char) (sep : Char) : List (List Char) :=
  match s with
  | [] => [[]]
  | c :: cs =>
    if c = sep then [] :: Split cs sep
    else match Split cs sep with
      | [] => [[c]]
      | h :: t => (c :: h) :: t

/-- The index of the first `c` in `b`, if there is one. -/
def find (b : List Char) (c : Char) : Option Nat :=
  match b with
  | [] => none
  | x :: xs => if x = c then some 0 else (find xs c).map (fun i => i + 1)

/-- `bytes.IndexByte(b, c)`: the index of the first `c` in `b`, or `-1`. -/
def IndexByte (b : List Char) (c : Char) : Int :=
  match find b c with
  | some i => (i : Int)
  | none => -1

end bytes

/-! ## Package `helpers` (`helpers/helpers.go`) -/

namespace helpers

/-- `digits`. -/
def digits : String := "0123456789abcdefghijklmnopqrstuvwxyz"

/-- `digits01`. -/
def digits01 : String :=
  "0123456789012345678901234567890123456789012345678901234567890123456789012345678901234567890123456789"

/-- `digits10`. -/
def digits10 : String :=
  "0000000000111111111122222222223333333333444444444455555555556666666666777777777788888888889999999999"

/-- The statement `a[i] = c`; `none` stands for the panic on an index out of range. -/
def setAt (a : List Char) (i : Nat) (c : Char) : Option (List Char) :=
  if i < a.length then some (a.set i c) else none

/-- The loop `for u >= 100` of `FormatInt`, `fuel` iterations left, with the locals `u`,
`i` and `a`.  `none` stands for a panic: an index out of range (`i -= 2` below 0 is
one), or no iterations left. -/
def formatLoop : Nat → Nat → Nat → List Char → Option (Nat × Nat × List Char)
  | 0, u, i, a => if u ≥ 100 then none else some (u, i, a)
  | fuel + 1, u, i, a =>
    if u ≥ 100 then
      if i < 2 then none else
      let i := i - 2
      let q := u / 100
      let j := u - q * 100
      match digits01.data.get? j, digits10.data.get? j with
      | some c01, some c10 =>
        match setAt a (i + 1) c01 with
        | none => none
        | some a =>
          match setAt a (i + 0) c10 with
          | none => none
          | some a => formatLoop fuel q i a
      | _, _ => none
    else some (u, i, a)

/-- `FormatInt(n)`, for an `int64` value `n`; `none` stands for a panic. -/
def FormatInt (n : Int) : Option String :=
  let u := (n % 2 ^ 64).toNat
  let a := List.replicate (64 + 1) (Char.ofNat 0)
  let i := a.length
  let neg := decide (n < 0)
  let u := if n < 0 then (2 ^ 64 - u) % 2 ^ 64 else u
  match formatLoop 64 u i a with
  | none => none
  | some (u, i, a) =>
    let r : Option (Nat × Nat × List Char) :=
      if u ≥ 10 then
        if i < 1 then none else
        let i := i - 1
        let q := u / 10
        match digits.data.get? (u - q * 10) with
        | none => none
        | some c => (setAt a i c).map (fun a => (q, i, a))
      else some (u, i, a)
    match r with
    | none => none
    | some (u, i, a) =>
      if i < 1 then none else
      let i := i - 1
      match digits.data.get? u with
      | none => none
      | some c =>
        match setAt a i c with
        | none => none
        | some a =>
          if neg then
            if i < 1 then none else
            let i := i - 1
            (setAt a i '-').map (fun a => String.mk (a.drop i))
          else some (String.mk (a.drop i))

/-- The loop of `NumWidth`, `for ; 10 < n; n /= 10 \x7b width++ \x7d`, `fuel` iterations
left. -/
def numWidthLoop : Nat → Int → Nat → Nat
  | 0, _, width => width
  | fuel + 1, n, width => if 10 < n then numWidthLoop fuel (n / 10) (width + 1) else width

/-- `NumWidth(n)`, for an `int64` value `n` (64 iterations are more than the loop makes). -/
def NumWidth (n : Int) : Nat :=
  let width := numWidthLoop 64 n 0
  let minWidth := 1
  if width < minWidth then minWidth else width

end helpers

/-! ## Package `auth` (`auth/helper_funcs.go`, `auth/json.go`, `auth/session_funcs.go`) -/

namespace auth

/-- `validLoginInput(id)`. -/
def validLoginInput (id : String) : Bool × Bool :=
  let n := utf8.RuneCountInString id
  (n != 0, decide (n > 0) && decide (n ≤ 255))

/-- `ServerSession`; a `[]byte` is a string of bytes. -/
structure ServerSession where
  ID : String := ""
  AuthToken : String := ""
  CSRFToken : String := ""
  Email : String := ""
  School : String := ""
  Date : Int := 0
deriving DecidableEq, Repr

set_option linter.dupNamespace false in
/-- `auth`. -/
def auth : String := "auth_token"

/-- `csrf`. -/
def csrf : String := "csrf_token"

/-- `email`. -/
def email : String := "email"

/-- `school`. -/
def school : String := "school"

/-- `date`. -/
def date : String := "expiry"

/-- How a call ends other than well: with one of the errors of the package, with the error
of `strconv.ParseInt`, or in a panic of the run time that nothing recovers. -/
inductive Error where
  | ErrCantMarshal
  | ErrCantUnmarshal
  | NumError
  | panicked
deriving DecidableEq, Repr

/-- The slice `buf` with the index `n` of `MarshalJSON`. -/
structure Cursor where
  buf : List Char
  n : Nat
deriving DecidableEq, Repr

/-- The statement `buf[n] = c`; `none` stands for the panic on an index out of range. -/
def Cursor.set (k : Cursor) (c : Char) : Option Cursor :=
  if k.n < k.buf.length then some { k with buf := k.buf.set k.n c } else none

/-- The statements `buf[n] = c; n++`. -/
def Cursor.byte (k : Cursor) (c : Char) : Option Cursor :=
  (k.set c).map (fun k => { k with n := k.n + 1 })

/-- The statement `n += copy(buf[n:], src)`: `copy` writes as many bytes of `src` as
`buf[n:]` has room for and returns their number; `none` stands for the panic of `buf[n:]`
when `n` is beyond the length. -/
def Cursor.copy (k : Cursor) (src : List Char) : Option Cursor :=
  if k.n ≤ k.buf.length then
    let m := min src.length (k.buf.length - k.n)
    some { buf := k.buf.take k.n ++ src.take m ++ k.buf.drop (k.n + m), n := k.n + m }
  else none

/-- A statement of `MarshalJSON` between the making of the buffer and the test for null
bytes: `buf[n] = c; n++` (`byte`), `n += copy(buf[n:], src)` (`copy`), or `buf[n] = c`
(`set`). -/
inductive Stmt where
  | byte (c : Char)
  | copy (src : List Char)
  | set (c : Char)
deriving DecidableEq, Repr

/-- The effect of one statement; `none` stands for a panic. -/
def Stmt.run (k : Cursor) : Stmt → Option Cursor
  | .byte c => k.byte c
  | .copy src => k.copy src
  | .set c => k.set c

/-- The statements of `MarshalJSON` from `buf[0] = '\x7b'` to `buf[n] = '\x7d'`, in order
(the first three are `buf[0] = '\x7b'`, `buf[1] = '"'` and `n := copy(buf[2:], auth) + 2`);
`d` is the result of `helpers.FormatInt(s.Date)`. -/
def statements (s : ServerSession) (d : String) : List Stmt :=
  [.byte '\x7b', .byte '"', .copy auth.data, .byte '"', .byte ':', .byte '"',
    .copy s.AuthToken.data, .byte '"', .byte ',', .byte '"',
    .copy csrf.data, .byte '"', .byte ':', .byte '"',
    .copy s.CSRFToken.data, .byte '"', .byte ',', .byte '"',
    .copy email.data, .byte '"', .byte ':', .byte '"',
    .copy s.Email.data, .byte '"', .byte ',', .byte '"',
    .copy school.data, .byte '"', .byte ':', .byte '"',
    .copy s.School.data, .byte '"', .byte ',', .byte '"',
    .copy date.data, .byte '"', .byte ':',
    .copy d.data, .set '\x7d']

/-- A sequence of statements, run from a cursor; `none` stands for a panic. -/
def runAll : List Stmt → Cursor → Option Cursor
  | [], k => some k
  | st :: rest, k =>
    match st.run k with
    | none => none
    | some k => runAll rest k

/-- The bytes a statement is to write. -/
def Stmt.text : Stmt → List Char
  | .byte c => [c]
  | .copy src => src
  | .set c => [c]

/-- The cursor of a buffer of `size` bytes after the bytes `w` were written from the start
on, one after another: null bytes follow them. -/
def Cursor.fresh (size : Nat) (w : List Char) : Cursor :=
  { buf := w ++ List.replicate (size - w.length) (Char.ofNat 0), n := w.length }

/-- The statements of `MarshalJSON` run on the new buffer; `none` stands for a panic. -/
def fill (s : ServerSession) (buf : List Char) : Option (List Char) :=
  match helpers.FormatInt s.Date with
  | none => none
  | some d => (runAll (statements s d) { buf := buf, n := 0 }).map (fun k => k.buf)

/-- The JSON text of a session up to the colon before the date: the five keys in order, the
four byte or string values in quotes, each as it is. -/
def ServerSession.head (s : ServerSession) : List Char :=
  List.flatten
    ["\x7b\"auth_token\":\"".data, s.AuthToken.data, "\",\"csrf_token\":\"".data,
      s.CSRFToken.data, "\",\"email\":\"".data, s.Email.data, "\",\"school\":\"".data,
      s.School.data, "\",\"expiry\":".data]

/-- The JSON text of a session: the head, the date in decimal, the closing brace. -/
def ServerSession.text (s : ServerSession) : String :=
  String.mk (s.head ++ (strconv.Itoa s.Date).data ++ "\x7d".data)

/-- `ServerSession.MarshalJSON()`.  A panic is recovered by the deferred function, which
sets the error to `ErrCantMarshal`. -/
def ServerSession.MarshalJSON (s : ServerSession) : Except Error String :=
  let buf := List.replicate
    (2 + 18 + 5 + 4 + 1 + auth.length + csrf.length + email.length + school.length +
      date.length + s.AuthToken.length + s.CSRFToken.length + s.Email.length +
      s.School.length + helpers.NumWidth s.Date) (Char.ofNat 0)
  match fill s buf with
  | none => .error .ErrCantMarshal
  | some buf =>
    let i := bytes.IndexByte buf (Char.ofNat 0)
    if i ≠ -1 then .ok (String.mk (buf.take i.toNat)) else .ok (String.mk buf)

/-- The expression `parts[k][lo : len(parts[k])-1]`; `none` stands for the panic on an
index or a slice bound out of range. -/
def part (parts : List (List Char)) (k : Nat) (lo : Nat) : Option String :=
  match parts.get? k with
  | none => none
  | some p => strings.slice (String.mk p) lo ((p.length : Int) - 1)

/-- `ServerSession.UnmarshalJSON(b)`: the session afterwards when the error returned is
nil. -/
def ServerSession.UnmarshalJSON (s : ServerSession) (b : String) : Except Error ServerSession :=
  let parts := bytes.Split b.data ','
  match parts.get? 0 with
  | none => .error .panicked
  | some p0 =>
    if p0.length = 0 then .error .ErrCantUnmarshal else
    match part parts 0 (2 + auth.length + 3) with
    | none => .error .panicked
    | some a =>
    match part parts 1 (1 + csrf.length + 3) with
    | none => .error .panicked
    | some c =>
    match part parts 2 (1 + email.length + 3) with
    | none => .error .panicked
    | some e =>
    match part parts 3 (1 + school.length + 3) with
    | none => .error .panicked
    | some sc =>
    match part parts 4 (1 + date.length + 2) with
    | none => .error .panicked
    | some d =>
    match strconv.ParseInt d with
    | none => .error .NumError
    | some v =>
      .ok { s with AuthToken := a, CSRFToken := c, Email := e, School := sc, Date := v }

end auth

/-! ## Well-formed states -/

namespace os

/-- An open file that accepts writes: a standard stream or a regular file of the system. -/
def File.valid (fs : FileSys) : File → Prop
  | .Stdout => True
  | .Stderr => True
  | .reg ino => ino < fs.inodes.length
  | .dir _ => False

instance (fs : FileSys) (f : File) : Decidable (f.valid fs) := by
  cases f <;> unfold File.valid <;> infer_instance

end os

namespace io

/-- A writer all of whose files accept writes. -/
def Writer.valid (fs : os.FileSys) : Writer → Prop
  | .file f => f.valid fs
  | .multi ws => ∀ f ∈ ws, f.valid fs

instance (fs : os.FileSys) (w : Writer) : Decidable (w.valid fs) := by
  cases w <;> unfold Writer.valid <;> infer_instance

end io

namespace useful

/-- The bytes of the active log file, the one `LogFile.file` has open. -/
def World.active (w : World) : String :=
  match w.LogFile.file with
  | .reg ino => w.fs.content ino
  | _ => ""

/-- A state as `NewLog` and `Rotate` leave it: the log path names a regular file and
`LogFile.file` is that file, open; every directory entry points to an inode; the writer is
the one `SetWriter` selects; the directory of the log path exists; the pool holds a name, no
more names than its capacity, and each of them is a file name in an existing directory that
is neither a directory nor the log path. -/
def World.Sane (w : World) : Prop :=
  (w.fs.find w.LogFile.Opts.LogName).map os.File.reg = some w.LogFile.file ∧
  (∀ e ∈ w.fs.links, e.2 < w.fs.inodes.length) ∧
  w.LogFile.out = logMap w.LogFile.file w.LogFile.Opts.LogDestination ∧
  filepath.Clean w.LogFile.Opts.LogName ∉ w.fs.dirs ∧
  filepath.Dir (filepath.Clean w.LogFile.Opts.LogName) ∈ w.fs.dirs ∧
  w.LogFile.pool.c ≠ [] ∧
  w.LogFile.pool.c.length ≤ w.LogFile.pool.cap ∧
  ∀ x ∈ w.LogFile.pool.c,
    filepath.Clean x ∉ w.fs.dirs ∧ filepath.Dir (filepath.Clean x) ∈ w.fs.dirs ∧
      filepath.Clean x ≠ filepath.Clean w.LogFile.Opts.LogName

instance (w : World) : Decidable w.Sane := by
  unfold World.Sane
  infer_instance

/-- The state after `Print` wrote the whole of `line` to `out`, nothing else done yet. -/
def World.written (w : World) (out : io.Writer) (line : String) : World :=
  { w with fs := (out.Write w.fs line).1 }

/-- The state with the byte counter set to `n`. -/
def World.withSize (w : World) (n : Int) : World :=
  { w with LogFile := { w.LogFile with size := n } }

/-- What one step retired: when the step started an archival goroutine, the bytes (right
after the step) of the file that goroutine was given. -/
def retiredBy (w w1 : World) : List String :=
  if w1.spawned.length = w.spawned.length then []
  else match w1.spawned.getLast? with
    | some name => ((w1.fs.read name).map (fun c => [c])).getD []
    | none => []

/-- `logAll`, collecting what every step retired, in order. -/
def logAllRetired : World → List ApacheLogRecord → Except Panic (World × List String)
  | w, [] => .ok (w, [])
  | w, r :: rs =>
    match logRecord w r with
    | .error p => .error p
    | .ok w1 =>
      match logAllRetired w1 rs with
      | .error p => .error p
      | .ok (w2, ret) => .ok (w2, retiredBy w w1 ++ ret)

/-- `logAll`, collecting the byte count every `Print` call returned, in order. -/
def logAllCounts : World → List ApacheLogRecord → Except Panic (World × List Int)
  | w, [] => .ok (w, [])
  | w, r :: rs =>
    match logRecord w r with
    | .error p => .error p
    | .ok w1 =>
      match logAllCounts w1 rs with
      | .error p => .error p
      | .ok (w2, ns) => .ok (w2, (r.LogFmt.Print w.fs w.LogFile.out r).2 :: ns)

/-- The rendered lines of a sequence of records, in order. -/
def lines (rs : List ApacheLogRecord) : List String := rs.map (fun r => r.LogFmt.line r)

/-- The total number of bytes of the rendered lines of a sequence of records. -/
def totalBytes (rs : List ApacheLogRecord) : Int := ((lines rs).map (fun l => (l.length : Int))).sum

end useful

/-! ## Example states -/

namespace useful

/-- Options of a small log: destination `File`, a limit of 100 bytes, the `Agent` format. -/
def demoOpts : Options :=
  { LogFormat := AgentLog, LogDestination := .File, LogName := "access.log",
    ArchiveDir := "archives", MaxFileSize := 100 }

/-- A state with an empty log file `access.log`, an empty directory `archives` and a pool of
two names. -/
def demoWorld : World :=
  { fs := { dirs := [".", "archives"], links := [("access.log", 0)], inodes := [""] },
    LogFile :=
      { Opts := demoOpts, file := .reg 0, size := 0, out := .file (.reg 0),
        pool := { c := ["._archive000000001", "._archive000000002"], cap := 25 } } }

/-- A record whose `Agent` line has 40 bytes. -/
def demoRecord : ApacheLogRecord :=
  { LogFmt := AgentLog, agent := "Mozilla/5.0 (X11; Linux x86_64) Gecko/41" }

/-- A state at start-up whose archive directory holds one archive, of index 3, next to a
retired log file that waits for archival. -/
def recoveryWorld : World :=
  { fs := { dirs := [".", "archives"],
            links := [("access.log", 0), ("archives/access.log#0000000003_.gz", 1),
              ("._archive000000001", 2)],
            inodes := ["", "gz", "old lines"] },
    cur := 7,
    LogFile :=
      { Opts := { DefaultOptions with LogDestination := .File }, file := .reg 0, size := 0,
        out := .file (.reg 0),
        pool := { c := ["._archive000000002"], cap := 25 } } }

/-- A state at start-up whose archive directory holds no archive, only `notes.txt`; the
counter is 7. -/
def notesWorld : World :=
  { recoveryWorld with
    fs := { dirs := [".", "archives"],
            links := [("access.log", 0), ("archives/notes.txt", 1)],
            inodes := ["", "to do"] } }

/-- A state with an empty archive directory, the counter at 0, and two retired log
files that wait for archival. -/
def archiveWorld : World :=
  { fs := { dirs := [".", "archives"],
            links := [("access.log", 0), ("._archive000000001", 1), ("._archive000000002", 2)],
            inodes := ["", "first lines", "next lines"] },
    cur := 0,
    LogFile :=
      { Opts := { DefaultOptions with LogDestination := .File }, file := .reg 0, size := 0,
        out := .file (.reg 0),
        pool := { c := ["._archive000000003"], cap := 25 } } }

/-- The options `app.go` sets in `init`: destination `File`, `log/access.log`,
`log/archives`. -/
def appOpts : Options :=
  { DefaultOptions with
    LogDestination := .File,
    LogName := filepath.Join ["log", "access.log"],
    ArchiveDir := filepath.Join ["log", "archives"] }

/-- A state of the application: the directories `log` and `log/archives` exist, the log
file is open and a retired log file waits for archival. -/
def appWorld : World :=
  { fs := { dirs := [".", "log", "log/archives"],
            links := [("log/access.log", 0), ("._archive000000001", 1)],
            inodes := ["", "old lines"] },
    LogFile :=
      { Opts := appOpts, file := .reg 0, size := 0, out := .file (.reg 0),
        pool := { c := ["._archive000000002"], cap := 25 } } }

/-- A request record: `GET / HTTP/1.1` from `1.2.3.4`, answered with status 200 and 5 bytes
in 1.5 ms, at 13:05:09 UTC on 4 July 2015. -/
def getRecord : ApacheLogRecord :=
  { LogFmt := CommonLog, ip := "1.2.3.4", time := ⟨2015, 7, 4, 13, 5, 9⟩, method := "GET",
    uri := "/", protocol := "HTTP/1.1", status := 200, responseBytes := 5,
    elapsedTime := 1500000, referer := "http://example.com/", agent := "curl/7.43.0" }

/-- A state whose log file was unlinked while it is open: its inode holds ten bytes, the
counter is 10, and no directory entry names it any more. -/
def unlinkedWorld : World :=
  { demoWorld with
    fs := { dirs := [".", "archives"], links := [], inodes := ["old lines\n"] },
    LogFile := { demoWorld.LogFile with size := 10 } }

/-- The status codes of the `WriteHeader` calls among the calls of a handler, in order. -/
def statuses : List Call → List Int
  | [] => []
  | .Write _ :: rest => statuses rest
  | .WriteHeader status :: rest => status :: statuses rest

/-- One call that a client makes on the pool. -/
inductive PoolOp where
  | get
  | put (name : String)
deriving DecidableEq, Repr

/-- The pool with its clients: the pool, the rest of the state of the process, the names
that `get` handed out and that were not put back since (`held`, latest first), and the
names the pool got from `randName` (`made`, oldest first): those `newRandPool` pooled and
those `get` made when the pool was empty. -/
structure PoolRun where
  pool : randPool
  sys : Sys
  held : List String := []
  made : List String := []

/-- The pool as `newRandPool(n)` builds it, nothing handed out yet. -/
def PoolRun.start (n : Nat) (s : Sys) : PoolRun :=
  { pool := (newRandPool n s).1, sys := (newRandPool n s).2, held := [],
    made := (newRandPool n s).1.c }

/-- One call of a client.  `put` is for a name that the client holds (`none` otherwise). -/
def PoolRun.step (st : PoolRun) : PoolOp → Option PoolRun
  | .get =>
    let r := st.pool.get st.sys
    some { pool := r.2.1, sys := r.2.2, held := r.1 :: st.held,
           made := if st.pool.c.isEmpty then st.made ++ [r.1] else st.made }
  | .put name =>
    if name ∈ st.held then
      some { st with pool := st.pool.put name, held := st.held.erase name }
    else none

/-- The calls of the clients, one after another. -/
def PoolRun.run : PoolRun → List PoolOp → Option PoolRun
  | st, [] => some st
  | st, op :: rest =>
    match st.step op with
    | none => none
    | some st1 => PoolRun.run st1 rest

/-- The names in the pool and the names held are pairwise distinct, and each of them is
one of the names made. -/
def PoolRun.Inv (st : PoolRun) : Prop :=
  (st.pool.c ++ st.held).Nodup ∧ ∀ x ∈ st.pool.c ++ st.held, x ∈ st.made

/-- A clock whose readings, taken 2^32 ns apart, all have the low 32 bits 634785765, the
generator state that the step of `nextSuffix` sends to 0. -/
def stuckClock : Sys :=
  { fs := { dirs := [".", "archives"] },
    now := fun k => 1446638401466273765 + 4294967296 * (k : Int) }

/-- A state of the process at start-up, with a clock reading of November 2015. -/
def freshSys : Sys :=
  { fs := { dirs := [".", "archives"] }, now := fun _ => 1446638400000012345 }

end useful

namespace cleanup

/-- The method value `useful.LogFile.Close`, a function of no parameters. -/
def logClose : Fn := .func { name := "useful.LogFile.Close" }

/-- The function `glog.Flush`, of no parameters. -/
def glogFlush : Fn := .func { name := "glog.Flush" }

/-- The registry after `init` of `app.go`: `Register("glog", glog.Flush)` and
`Register("useful", useful.LogFile.Close)`. -/
def appRegistry : Registry :=
  { funcMap := [("glog", glogFlush), ("useful", logClose)],
    funcArgs := [("glog", []), ("useful", [])] }

/-- A function `func(code int)`, registered with the argument 3. -/
def exitRegistry : Registry :=
  { funcMap := [("exit", .func { name := "exit", ins := [.int] })],
    funcArgs := [("exit", [.int 3])] }

end cleanup

namespace useful

/-- One call on the pool, `put` with any name: the pool and the state afterwards. -/
def randPool.call (p : randPool) (s : Sys) : PoolOp → randPool × Sys
  | .get => ((p.get s).2.1, (p.get s).2.2)
  | .put name => (p.put name, s)

/-- A sequence of calls on the pool, one after another. -/
def randPool.calls (p : randPool) (s : Sys) : List PoolOp → randPool × Sys
  | [] => (p, s)
  | op :: rest => randPool.calls (p.call s op).1 (p.call s op).2 rest

/-- The state of `freshSys` with a file at `._archive555695684`, the first name that
`randName` makes there. -/
def clashSys : Sys :=
  { freshSys with
    fs := { dirs := [".", "archives"], links := [("._archive555695684", 0)],
            inodes := ["kept"] } }

/-- A state whose generator is at 0, with clock readings of 5. -/
def zeroSeedSys : Sys := { rand := 0, now := fun _ => 5 }

/-- A state at start-up whose archive directory holds one archive, of index 12. -/
def twelveWorld : World :=
  { recoveryWorld with
    fs := { dirs := [".", "archives"],
            links := [("access.log", 0), ("archives/access.log#0000000012_.gz", 1)],
            inodes := ["", "gz"] } }

/-- A state at start-up whose archive directory holds one archive with the one-digit
index 7. -/
def sevenWorld : World :=
  { recoveryWorld with
    fs := { dirs := [".", "archives"],
            links := [("access.log", 0), ("archives/access.log#7_.gz", 1)],
            inodes := ["", "gz"] } }

end useful

namespace auth

/-- A session like those of `types_test.go`, with a school. -/
def testSession : ServerSession :=
  { AuthToken := "6e2963fa0c3b2d2baaa695f963a9081e91f26e7bd25623989655ada3ab3e76a5",
    CSRFToken := "TuTRM6NreQb0UJ442Z2TaUFVqfhTWX/e45WqlVCYu+w=",
    Email := "eric@sermodigital.com", School := "PNW", Date := 1433284583204993508 }

/-- The session `testSession` with a comma in the school. -/
def commaSession : ServerSession := { testSession with School := "PNW, Seattle" }

/-- The session `testSession` with a school whose text after the comma is as long as the key
of the date and ends in digits. -/
def silentSession : ServerSession := { testSession with School := "x,yyyyyyyyy12345" }

end auth

namespace useful

/-- A system at start-up in whose working directory a directory has the name that the pool
hands out first under this clock, `._archive555695684`. -/
def blockedSys : Sys :=
  { fs := { dirs := [".", "archives", "._archive555695684"] },
    now := fun _ => 1446638400000012345 }

/-- The options `demoOpts` with a limit of one byte: every write rotates. -/
def tinyOpts : Options := { demoOpts with MaxFileSize := 1 }

/-- Twenty-six records whose `Agent` lines are the letters `A` to `Z`. -/
def letterRecords : List ApacheLogRecord :=
  "ABCDEFGHIJKLMNOPQRSTUVWXYZ".data.map
    (fun c => { LogFmt := AgentLog, agent := String.singleton c })

/-- The bytes found, in a given state, under the names that the rotations so far handed to
archival, in rotation order; nothing for a name that is no regular file. -/
def World.retired (w : World) : List String :=
  w.spawned.map (fun name => (w.fs.read name).getD "")

/-- The archival goroutines run one after another, each to its end, in the order given. -/
def doRotateAll (gzip : String → String) : World → List String → Except Panic World
  | w, [] => .ok w
  | w, name :: rest =>
    match doRotate gzip w name with
    | .error p => .error p
    | .ok w1 => doRotateAll gzip w1 rest

/-- The number `n` written in decimal with exactly `width` digits, zeros in front (the last
`width` digits of `n`). -/
def decimalPadded : Nat → Nat → List Char
  | 0, _ => []
  | width + 1, n => decimalPadded width (n / 10) ++ [Nat.digitChar (n % 10)]

end useful

/-! ## Lemmas: integers, writes, temporary names -/

theorem wrap64_of_range (x : Int) (h0 : -2 ^ 63 ≤ x) (h1 : x < 2 ^ 63) : wrap64 x = x := by
  unfold wrap64
  have h : (2 ^ 63 + x) % 2 ^ 64 = 2 ^ 63 + x := Int.emod_eq_of_lt (by omega) (by omega)
  omega

namespace os

theorem File.Write_inodes_length (fs : FileSys) (f : File) (p : String) :
    (File.Write fs f p).1.inodes.length = fs.inodes.length := by
  cases f <;> simp [File.Write]
  split <;> simp

theorem File.Write_valid (fs : FileSys) (f : File) (p : String) (h : f.valid fs) :
    (File.Write fs f p).2 = (p.length, none) := by
  cases f <;> simp_all [File.Write, File.valid]

theorem File.valid_of_length {fs fs1 : FileSys} (h : fs1.inodes.length = fs.inodes.length)
    (f : File) (hf : f.valid fs) : f.valid fs1 := by
  cases f <;> simp_all [File.valid]

end os

namespace io

theorem writeAll_count (p : String) (ws : List os.File) :
    ∀ fs : os.FileSys, (∀ f ∈ ws, f.valid fs) → (writeAll fs p ws).2 = p.length := by
  induction ws with
  | nil => intro fs _; rfl
  | cons f rest ih =>
    intro fs h
    have hf := os.File.Write_valid fs f p (h f (List.mem_cons_self _ _))
    have hlen := os.File.Write_inodes_length fs f p
    unfold writeAll
    rcases hw : os.File.Write fs f p with ⟨fs1, n, e⟩
    rw [hw] at hf hlen
    simp only [Prod.mk.injEq] at hf
    obtain ⟨rfl, rfl⟩ := hf
    simp only [if_true]
    exact ih fs1 (fun g hg =>
      os.File.valid_of_length hlen g (h g (List.mem_cons_of_mem _ hg)))

theorem Writer.Write_count (fs : os.FileSys) (w : Writer) (p : String) (h : w.valid fs) :
    (w.Write fs p).2 = p.length := by
  cases w with
  | file f =>
    have := os.File.Write_valid fs f p h
    simp [Writer.Write, this]
  | multi ws => exact writeAll_count p ws fs h

end io

namespace useful

theorem Print_eq (l : LogFmt) (fs : os.FileSys) (out : io.Writer) (r : ApacheLogRecord)
    (h : out.valid fs) :
    l.Print fs out r = ((out.Write fs (l.line r)).1, ((l.line r).length : Int)) := by
  simp [LogFmt.Print, fmt.Fprintf, LogFmt.line, io.Writer.Write_count fs out _ h]

theorem seeded_frame (s : Sys) :
    (seeded s).2.fs = s.fs ∧ (seeded s).2.spawned = s.spawned ∧ (seeded s).2.cur = s.cur := by
  unfold seeded
  by_cases h : s.rand = 0
  · rw [if_pos h]; exact ⟨rfl, rfl, rfl⟩
  · rw [if_neg h]; exact ⟨rfl, rfl, rfl⟩

theorem nextSuffix_frame (s : Sys) :
    (nextSuffix s).2.fs = s.fs ∧ (nextSuffix s).2.spawned = s.spawned ∧
      (nextSuffix s).2.cur = s.cur :=
  seeded_frame s

theorem randNameLoop_frame (pre : String) (fuel : Nat) :
    ∀ (nconflict : Nat) (name : String) (s : Sys),
      (randNameLoop pre fuel nconflict name s).2.fs = s.fs ∧
      (randNameLoop pre fuel nconflict name s).2.spawned = s.spawned ∧
      (randNameLoop pre fuel nconflict name s).2.cur = s.cur := by
  induction fuel with
  | zero => intro _ _ s; exact ⟨rfl, rfl, rfl⟩
  | succ k ih =>
    intro nconflict name s
    have hn := nextSuffix_frame s
    unfold randNameLoop
    rcases hs : nextSuffix s with ⟨suffix, s1⟩
    rw [hs] at hn
    simp only at hn ⊢
    split
    · split
      · have := ih (nconflict + 1) (pre ++ suffix) { (reseed s1).2 with rand := (reseed s1).1 }
        rw [this.1, this.2.1, this.2.2]
        exact hn
      · have := ih (nconflict + 1) (pre ++ suffix) s1
        rw [this.1, this.2.1, this.2.2]
        exact hn
    · exact hn

theorem randName_frame (pre : String) (s : Sys) :
    (randName pre s).2.fs = s.fs ∧ (randName pre s).2.spawned = s.spawned ∧
      (randName pre s).2.cur = s.cur :=
  randNameLoop_frame pre 10000 0 "" s

theorem get_frame (p : randPool) (s : Sys) :
    (p.get s).2.2.fs = s.fs ∧ (p.get s).2.2.spawned = s.spawned ∧ (p.get s).2.2.cur = s.cur := by
  unfold randPool.get
  split
  · exact ⟨rfl, rfl, rfl⟩
  · exact randName_frame archPrefix s

theorem Rotate_size {w w1 : World} (h : Rotate w = .ok w1) : w1.LogFile.size = 0 := by
  unfold Rotate at h
  simp only at h
  split at h
  · cases h
  · cases h; rfl

theorem Rotate_spawned {w w1 : World} (h : Rotate w = .ok w1) :
    w1.spawned.length = w.spawned.length + 1 := by
  unfold Rotate at h
  simp only at h
  split at h
  · cases h
  · cases h
    simp [(get_frame w.LogFile.pool w.toSys).2.1]

end useful
theorem lookup_filter_self (k k2 : String) (l : List (String × Nat)) :
    (l.filter (fun e => e.1 != k && e.1 != k2)).lookup k = none := by
  induction l with
  | nil => rfl
  | cons a t ih =>
    rw [List.filter_cons]
    by_cases h : a.1 = k
    · have : (a.1 != k && a.1 != k2) = false := by
        rw [h]; simp
      rw [this]; exact ih
    · by_cases h2 : a.1 = k2
      · have : (a.1 != k && a.1 != k2) = false := by
          rw [h2]; simp
        rw [this]; exact ih
      · have : (a.1 != k && a.1 != k2) = true := by
          simp [h, h2]
        rw [this]
        simp only [if_true]
        rw [List.lookup_cons]
        have hk : (k == a.1) = false := by
          rw [beq_eq_false_iff_ne]; exact fun e => h e.symm
        rw [hk]; exact ih

namespace os

theorem Rename_ok (fs : FileSys) (o n : String) (ino : Nat)
    (hl : fs.links.lookup (filepath.Clean o) = some ino)
    (hcx : filepath.Clean n ∉ fs.dirs) (hdx : filepath.Dir (filepath.Clean n) ∈ fs.dirs) :
    Rename fs o n = .ok
      { fs with
        links := (filepath.Clean n, ino) ::
          fs.links.filter (fun e => e.1 != filepath.Clean o && e.1 != filepath.Clean n) } := by
  unfold Rename
  simp only [hl]
  rw [if_neg (by simpa using hcx), if_neg (by simpa using hdx)]

theorem OpenFileAppend_new (fs : FileSys) (name : String)
    (hl : fs.links.lookup (filepath.Clean name) = none)
    (hcx : filepath.Clean name ∉ fs.dirs) (hdx : filepath.Dir (filepath.Clean name) ∈ fs.dirs) :
    OpenFileAppend fs name = .ok
      ({ fs with
          links := (filepath.Clean name, fs.inodes.length) :: fs.links,
          inodes := fs.inodes ++ [""] }, .reg fs.inodes.length) := by
  unfold OpenFileAppend openFile
  simp only [hl]
  rw [if_neg (by simpa using hcx)]
  simp [hdx]

end os

namespace useful

theorem Rotate_of_Sane (w : World) (h : w.Sane) :
    ∃ x rest ino, w.LogFile.pool.c = x :: rest ∧ w.LogFile.file = .reg ino ∧
      ino < w.fs.inodes.length ∧
      Rotate w = .ok
        { toSys := { w.toSys with
            fs := { w.fs with
              links := (filepath.Clean w.LogFile.Opts.LogName, w.fs.inodes.length) ::
                (filepath.Clean x, ino) ::
                  w.fs.links.filter (fun e => e.1 != filepath.Clean w.LogFile.Opts.LogName &&
                    e.1 != filepath.Clean x),
              inodes := w.fs.inodes ++ [""] },
            spawned := w.spawned ++ [x] },
          LogFile := { w.LogFile with
            file := .reg w.fs.inodes.length, size := 0,
            out := logMap (.reg w.fs.inodes.length) w.LogFile.Opts.LogDestination,
            pool := { w.LogFile.pool with c := rest ++ [x] } } } := by
  obtain ⟨hfile, hlinks, hout, hnd, hdir, hne, hcap, hpool⟩ := h
  rcases hc : w.LogFile.pool.c with _ | ⟨x, rest⟩
  · exact absurd hc hne
  have hx := hpool x (by rw [hc]; exact List.mem_cons_self _ _)
  unfold os.FileSys.find at hfile
  rcases hl : w.fs.links.lookup (filepath.Clean w.LogFile.Opts.LogName) with _ | ino
  · rw [hl] at hfile; simp at hfile
  rw [hl] at hfile
  simp only [Option.map_some', Option.some.injEq] at hfile
  have hino : ino < w.fs.inodes.length := by
    have := List.lookup_eq_some_iff.mp hl
    obtain ⟨l1, l2, h1, _⟩ := this
    exact hlinks (filepath.Clean w.LogFile.Opts.LogName, ino) (by rw [h1]; simp)
  refine ⟨x, rest, ino, rfl, hfile.symm, hino, ?_⟩
  have hren := os.Rename_ok w.fs w.LogFile.Opts.LogName x ino hl hx.1 hx.2.1
  have hlk : ((filepath.Clean x, ino) ::
      w.fs.links.filter (fun e => e.1 != filepath.Clean w.LogFile.Opts.LogName &&
        e.1 != filepath.Clean x)).lookup (filepath.Clean w.LogFile.Opts.LogName) = none := by
    rw [List.lookup_cons]
    have : (filepath.Clean w.LogFile.Opts.LogName == filepath.Clean x) = false := by
      rw [beq_eq_false_iff_ne]; exact fun e => hx.2.2 e.symm
    rw [this]
    exact lookup_filter_self _ _ _
  have hopen := os.OpenFileAppend_new
    { w.fs with
      links := (filepath.Clean x, ino) ::
        w.fs.links.filter (fun e => e.1 != filepath.Clean w.LogFile.Opts.LogName &&
          e.1 != filepath.Clean x) }
    w.LogFile.Opts.LogName hlk hnd hdir
  have hput : rest.length < w.LogFile.pool.cap := by
    rw [hc] at hcap; simp at hcap; omega
  unfold Rotate
  simp only [randPool.get, hc, hren, Log.newFile, hopen, Log.SetWriter, randPool.put, hput,
    if_true]

/-- C1: logging a record whose line has `n` bytes, on a counter `s` and limit `M`, first
writes the whole line, then calls `Rotate` exactly when `s + n ≥ M` (on the state that
already holds the whole line), then adds `n` to the counter. -/
theorem C1_rotate_iff_counter_reaches_max (w : World) (r : ApacheLogRecord) (out : io.Writer)
    (hout : out.valid w.fs) (h0 : 0 ≤ w.LogFile.size)
    (hrange : w.LogFile.size + ((r.LogFmt.line r).length : Int) < 2 ^ 63) :
    (w.LogFile.size + ((r.LogFmt.line r).length : Int) ≥ w.LogFile.Opts.MaxFileSize →
      r.Log out w = (Rotate (w.written out (r.LogFmt.line r))).map
        (fun w2 => w2.withSize ((r.LogFmt.line r).length : Int))) ∧
    (w.LogFile.size + ((r.LogFmt.line r).length : Int) < w.LogFile.Opts.MaxFileSize →
      r.Log out w = .ok ((w.written out (r.LogFmt.line r)).withSize
        (w.LogFile.size + ((r.LogFmt.line r).length : Int)))) ∧
    (∀ w2, r.Log out w = .ok w2 →
      (w2.spawned.length = w.spawned.length + 1 ↔
        w.LogFile.size + ((r.LogFmt.line r).length : Int) ≥ w.LogFile.Opts.MaxFileSize)) ∧
    (∀ p, r.Log out w = .error p →
      w.LogFile.size + ((r.LogFmt.line r).length : Int) ≥ w.LogFile.Opts.MaxFileSize) := by
  have hn : (0 : Int) ≤ ((r.LogFmt.line r).length : Int) := Int.ofNat_nonneg _
  have hw : wrap64 (w.LogFile.size + ((r.LogFmt.line r).length : Int)) =
      w.LogFile.size + ((r.LogFmt.line r).length : Int) :=
    wrap64_of_range _ (by omega) hrange
  have hw0 : wrap64 (0 + ((r.LogFmt.line r).length : Int)) = ((r.LogFmt.line r).length : Int) := by
    rw [wrap64_of_range _ (by omega) (by omega)]; omega
  have hlog : r.Log out w =
      match (if w.LogFile.size + ((r.LogFmt.line r).length : Int) ≥ w.LogFile.Opts.MaxFileSize
        then Rotate (w.written out (r.LogFmt.line r))
        else .ok (w.written out (r.LogFmt.line r))) with
      | .error p => .error p
      | .ok w2 => .ok (w2.withSize (wrap64 (w2.LogFile.size + ((r.LogFmt.line r).length : Int)))) := by
    unfold ApacheLogRecord.Log
    rw [Print_eq _ _ _ _ hout]
    simp only [World.written, World.withSize, hw]
  refine ⟨?_, ?_, ?_, ?_⟩
  · intro hge
    rw [hlog, if_pos hge]
    rcases hR : Rotate (w.written out (r.LogFmt.line r)) with p | w2
    · rfl
    · simp only [Except.map]
      rw [Rotate_size hR, hw0]
  · intro hlt
    rw [hlog, if_neg (by omega)]
    simp only [World.written, hw]
  · intro w2 h2
    rw [hlog] at h2
    by_cases hge : w.LogFile.size + ((r.LogFmt.line r).length : Int) ≥ w.LogFile.Opts.MaxFileSize
    · rw [if_pos hge] at h2
      rcases hR : Rotate (w.written out (r.LogFmt.line r)) with p | w3
      · rw [hR] at h2; cases h2
      · rw [hR] at h2
        simp only [Except.ok.injEq] at h2
        subst h2
        have := Rotate_spawned hR
        simp only [World.withSize, World.written] at this ⊢
        exact ⟨fun _ => hge, fun _ => this⟩
    · rw [if_neg hge] at h2
      simp only [Except.ok.injEq] at h2
      subst h2
      simp only [World.withSize, World.written]
      constructor
      · intro h; omega
      · intro h; exact absurd h hge
  · intro p hp
    rw [hlog] at hp
    by_cases hge : w.LogFile.size + ((r.LogFmt.line r).length : Int) ≥ w.LogFile.Opts.MaxFileSize
    · exact hge
    · rw [if_neg hge] at hp
      cases hp

end useful

namespace os

theorem File.Write_frame (fs : FileSys) (f : File) (p : String) :
    (File.Write fs f p).1.dirs = fs.dirs ∧ (File.Write fs f p).1.links = fs.links := by
  cases f <;> simp [File.Write]
  split <;> simp

theorem content_set_same (fs : FileSys) (ino : Nat) (h : ino < fs.inodes.length) (c : String) :
    ({ fs with inodes := fs.inodes.set ino c } : FileSys).content ino = c := by
  simp [FileSys.content, List.getD_eq_getElem?_getD, h]

theorem File.Write_reg_content (fs : FileSys) (ino : Nat) (h : ino < fs.inodes.length)
    (p : String) :
    (File.Write fs (.reg ino) p).1.content ino = fs.content ino ++ p := by
  simp only [File.Write, if_pos h]
  exact content_set_same fs ino h _

theorem File.Write_std_content (fs : FileSys) (ino : Nat) (p : String) :
    (File.Write fs .Stdout p).1.content ino = fs.content ino ∧
    (File.Write fs .Stderr p).1.content ino = fs.content ino := by
  simp [File.Write, FileSys.content]

end os

namespace io

theorem writeAll_frame (p : String) (ws : List os.File) :
    ∀ fs : os.FileSys, (writeAll fs p ws).1.dirs = fs.dirs ∧ (writeAll fs p ws).1.links = fs.links ∧
      (writeAll fs p ws).1.inodes.length = fs.inodes.length := by
  induction ws with
  | nil => intro fs; exact ⟨rfl, rfl, rfl⟩
  | cons f rest ih =>
    intro fs
    have hf := os.File.Write_frame fs f p
    have hlen := os.File.Write_inodes_length fs f p
    unfold writeAll
    rcases hw : os.File.Write fs f p with ⟨fs1, n, e⟩
    rw [hw] at hf hlen
    simp only at hf hlen
    cases e with
    | none =>
      simp only
      split
      · have := ih fs1
        rw [this.1, this.2.1, this.2.2]
        exact ⟨hf.1, hf.2, hlen⟩
      · exact ⟨hf.1, hf.2, hlen⟩
    | some e => exact ⟨hf.1, hf.2, hlen⟩

theorem Writer.Write_keeps (fs : os.FileSys) (w : Writer) (p : String) :
    (w.Write fs p).1.dirs = fs.dirs ∧ (w.Write fs p).1.links = fs.links ∧
      (w.Write fs p).1.inodes.length = fs.inodes.length := by
  cases w with
  | file f =>
    have hf := os.File.Write_frame fs f p
    have hlen := os.File.Write_inodes_length fs f p
    exact ⟨hf.1, hf.2, hlen⟩
  | multi ws => exact writeAll_frame p ws fs

end io

namespace useful

theorem logMap_valid (fs : os.FileSys) (ino : Nat) (h : ino < fs.inodes.length) (d : dest) :
    (logMap (.reg ino) d).valid fs := by
  cases d <;> simp [logMap, io.Writer.valid, os.File.valid, h]

theorem logMap_content (fs : os.FileSys) (ino : Nat) (h : ino < fs.inodes.length) (d : dest)
    (p : String) :
    (((logMap (.reg ino) d).Write fs p).1.content ino =
      if d = .File ∨ d = .Both then fs.content ino ++ p else fs.content ino) := by
  cases d
  · simp [logMap, io.Writer.Write, (os.File.Write_std_content fs ino p).1]
  · simp [logMap, io.Writer.Write, (os.File.Write_std_content fs ino p).2]
  · simp [logMap, io.Writer.Write, os.File.Write_reg_content fs ino h p]
  · simp [logMap, io.Writer.Write, io.writeAll, os.File.Write, h]
    simp [os.FileSys.content, List.getD_eq_getElem?_getD, h]

theorem Rotate_Sane (w : World) (h : w.Sane) :
    ∃ w2 x, Rotate w = .ok w2 ∧ w2.Sane ∧ w2.active = "" ∧ w2.LogFile.size = 0 ∧
      w2.LogFile.Opts = w.LogFile.Opts ∧ w2.spawned = w.spawned ++ [x] ∧
      w2.fs.read x = some w.active ∧ w2.cur = w.cur := by
  obtain ⟨x, rest, ino, hc, hfile, hino, hR⟩ := Rotate_of_Sane w h
  obtain ⟨_, hlinks, hout, hnd, hdir, hne, hcap, hpool⟩ := h
  have hx := hpool x (by rw [hc]; exact List.mem_cons_self _ _)
  refine ⟨_, x, hR, ?_, ?_, rfl, rfl, rfl, ?_, rfl⟩
  · refine ⟨?_, ?_, rfl, hnd, hdir, ?_, ?_, ?_⟩
    · simp [os.FileSys.find]
    · intro e he
      simp only [List.mem_cons, List.mem_filter] at he
      simp only [List.length_append, List.length_singleton]
      rcases he with rfl | rfl | he
      · simp
      · simp; omega
      · have := hlinks e he.1; omega
    · simp
    · simp only [List.length_append, List.length_singleton]
      rw [hc] at hcap
      simpa using hcap
    · intro y hy
      simp only [List.mem_append, List.mem_singleton] at hy
      apply hpool y
      rw [hc]
      rcases hy with hy | rfl
      · exact List.mem_cons_of_mem _ hy
      · exact List.mem_cons_self _ _
  · simp [World.active, os.FileSys.content, List.getD_eq_getElem?_getD]
  · have hne2 : (filepath.Clean x == filepath.Clean w.LogFile.Opts.LogName) = false := by
      rw [beq_eq_false_iff_ne]; exact hx.2.2
    simp only [os.FileSys.read, os.FileSys.find, List.lookup_cons, hne2, beq_self_eq_true,
      Option.map_some', World.active, hfile, os.FileSys.content]
    simp [List.getD_eq_getElem?_getD, List.getElem?_append_left hino]

theorem written_Sane (w : World) (h : w.Sane) (p : String) :
    (w.written w.LogFile.out p).Sane ∧
    (w.written w.LogFile.out p).active =
      (if w.LogFile.Opts.LogDestination = .File ∨ w.LogFile.Opts.LogDestination = .Both
        then w.active ++ p else w.active) ∧
    w.LogFile.out.valid w.fs := by
  obtain ⟨hfile, hlinks, hout, hnd, hdir, hne, hcap, hpool⟩ := h
  have hfr := io.Writer.Write_keeps w.fs w.LogFile.out p
  unfold os.FileSys.find at hfile
  rcases hl : w.fs.links.lookup (filepath.Clean w.LogFile.Opts.LogName) with _ | ino
  · rw [hl] at hfile; simp at hfile
  rw [hl] at hfile
  simp only [Option.map_some', Option.some.injEq] at hfile
  have hino : ino < w.fs.inodes.length := by
    obtain ⟨l1, l2, h1, _⟩ := List.lookup_eq_some_iff.mp hl
    exact hlinks (filepath.Clean w.LogFile.Opts.LogName, ino) (by rw [h1]; simp)
  refine ⟨⟨?_, ?_, hout, ?_, ?_, hne, hcap, ?_⟩, ?_, ?_⟩
  · simp only [World.written, os.FileSys.find, hfr.2.1, hl, Option.map_some', hfile]
  · simp only [World.written, hfr.2.1, hfr.2.2]; exact hlinks
  · simp only [World.written, hfr.1]; exact hnd
  · simp only [World.written, hfr.1]; exact hdir
  · simp only [World.written, hfr.1]; exact hpool
  · simp only [World.written, World.active, ← hfile]
    rw [hout, ← hfile]
    exact logMap_content w.fs ino hino _ p
  · rw [hout, ← hfile]
    exact logMap_valid w.fs ino hino _

theorem logRecord_step (w : World) (r : ApacheLogRecord) (hs : w.Sane)
    (h0 : 0 ≤ w.LogFile.size)
    (hrange : w.LogFile.size + ((r.LogFmt.line r).length : Int) < 2 ^ 63) :
    ∃ w1, logRecord w r = .ok w1 ∧ w1.Sane ∧ w1.LogFile.Opts = w.LogFile.Opts ∧
      (w.LogFile.size + ((r.LogFmt.line r).length : Int) < w.LogFile.Opts.MaxFileSize →
        w1.LogFile.size = w.LogFile.size + ((r.LogFmt.line r).length : Int) ∧
        w1.active = (w.written w.LogFile.out (r.LogFmt.line r)).active ∧
        retiredBy w w1 = [] ∧ w1.spawned = w.spawned) ∧
      (w.LogFile.size + ((r.LogFmt.line r).length : Int) ≥ w.LogFile.Opts.MaxFileSize →
        w1.LogFile.size = ((r.LogFmt.line r).length : Int) ∧
        w1.active = "" ∧
        retiredBy w w1 = [(w.written w.LogFile.out (r.LogFmt.line r)).active] ∧
        w1.spawned.length = w.spawned.length + 1) := by
  obtain ⟨hsw, _, hvalid⟩ := written_Sane w hs (r.LogFmt.line r)
  obtain ⟨hge, hlt, _, _⟩ := C1_rotate_iff_counter_reaches_max w r w.LogFile.out hvalid h0 hrange
  by_cases hc : w.LogFile.size + ((r.LogFmt.line r).length : Int) ≥ w.LogFile.Opts.MaxFileSize
  · obtain ⟨w2, x, hR, hS2, hact, hsize, hopts, hsp, hread, _⟩ :=
      Rotate_Sane (w.written w.LogFile.out (r.LogFmt.line r)) hsw
    refine ⟨w2.withSize ((r.LogFmt.line r).length : Int), ?_, hS2, hopts, ?_, ?_⟩
    · unfold logRecord
      rw [hge hc, hR]; rfl
    · intro h; omega
    · intro _
      refine ⟨rfl, hact, ?_, ?_⟩
      · have hsp2 : (w2.withSize ((r.LogFmt.line r).length : Int)).spawned = w.spawned ++ [x] := hsp
        have hrd : (w2.withSize ((r.LogFmt.line r).length : Int)).fs.read x =
            some (w.written w.LogFile.out (r.LogFmt.line r)).active := hread
        unfold retiredBy
        rw [hsp2]
        simp [hrd]
      · have hsp2 : (w2.withSize ((r.LogFmt.line r).length : Int)).spawned = w.spawned ++ [x] := hsp
        rw [hsp2]; simp
  · have hlt2 : w.LogFile.size + ((r.LogFmt.line r).length : Int) < w.LogFile.Opts.MaxFileSize := by
      omega
    refine ⟨(w.written w.LogFile.out (r.LogFmt.line r)).withSize
      (w.LogFile.size + ((r.LogFmt.line r).length : Int)), ?_, hsw, rfl, ?_, ?_⟩
    · unfold logRecord
      exact hlt hlt2
    · intro _
      refine ⟨rfl, rfl, ?_, rfl⟩
      unfold retiredBy
      simp [World.withSize, World.written]
    · intro h; exact absurd h hc

end useful
theorem strings.foldl_append_init (l : List String) :
    ∀ init : String, List.foldl (fun r s => r ++ s) init l = init ++ List.foldl (fun r s => r ++ s) "" l := by
  induction l with
  | nil => intro init; simp
  | cons a t ih =>
    intro init
    simp only [List.foldl_cons]
    rw [ih (init ++ a), ih ("" ++ a)]
    simp [String.append_assoc]

theorem strings.join_nil : String.join [] = "" := rfl

theorem strings.join_cons (a : String) (l : List String) :
    String.join (a :: l) = a ++ String.join l := by
  unfold String.join
  simp only [List.foldl_cons]
  rw [strings.foldl_append_init]
  simp

theorem strings.join_append (l1 l2 : List String) :
    String.join (l1 ++ l2) = String.join l1 ++ String.join l2 := by
  induction l1 with
  | nil => simp [strings.join_nil]
  | cons a t ih => simp [strings.join_cons, ih, String.append_assoc]

namespace useful

theorem totalBytes_nil : totalBytes [] = 0 := rfl

theorem totalBytes_cons (r : ApacheLogRecord) (rs : List ApacheLogRecord) :
    totalBytes (r :: rs) = ((r.LogFmt.line r).length : Int) + totalBytes rs := by
  simp [totalBytes, lines]

theorem totalBytes_nonneg (rs : List ApacheLogRecord) : 0 ≤ totalBytes rs := by
  induction rs with
  | nil => simp [totalBytes_nil]
  | cons r rs ih => rw [totalBytes_cons]; omega

/-- The active file after a run, with what the run retired, is the active file before it
followed by the lines (destination `File` or `Both`); the counter never falls below the
size of the active file; and the active file stays below the limit after a write. -/
theorem logAll_invariant (rs : List ApacheLogRecord) :
    ∀ w : World, w.Sane → 0 ≤ w.LogFile.size →
      w.LogFile.size + totalBytes rs < 2 ^ 63 →
      ∃ w1 ret, logAllRetired w rs = .ok (w1, ret) ∧ logAll w rs = .ok w1 ∧ w1.Sane ∧
        w1.LogFile.Opts = w.LogFile.Opts ∧ 0 ≤ w1.LogFile.size ∧
        w1.LogFile.size ≤ w.LogFile.size + totalBytes rs ∧
        (w.LogFile.Opts.LogDestination = .File ∨ w.LogFile.Opts.LogDestination = .Both →
          String.join ret ++ w1.active = w.active ++ String.join (lines rs)) ∧
        ((w.active.length : Int) ≤ w.LogFile.size →
          (w1.active.length : Int) ≤ w1.LogFile.size ∧
          (rs ≠ [] → 0 < w.LogFile.Opts.MaxFileSize →
            (w1.active.length : Int) < w.LogFile.Opts.MaxFileSize)) := by
  induction rs with
  | nil =>
    intro w hs h0 _
    refine ⟨w, [], rfl, rfl, hs, rfl, h0, by simp [totalBytes_nil], ?_, ?_⟩
    · intro _; simp [lines, strings.join_nil]
    · intro h; exact ⟨h, fun h => absurd rfl h⟩
  | cons r rs ih =>
    intro w hs h0 hr
    rw [totalBytes_cons] at hr
    have hnn := totalBytes_nonneg rs
    obtain ⟨w1, hlog, hs1, hopts1, hno, hyes⟩ := logRecord_step w r hs h0 (by omega)
    obtain ⟨_, hact, _⟩ := written_Sane w hs (r.LogFmt.line r)
    have hsize1 : 0 ≤ w1.LogFile.size ∧
        w1.LogFile.size ≤ w.LogFile.size + ((r.LogFmt.line r).length : Int) := by
      by_cases hc : w.LogFile.size + ((r.LogFmt.line r).length : Int) ≥ w.LogFile.Opts.MaxFileSize
      · rw [(hyes hc).1]; omega
      · rw [(hno (by omega)).1]; omega
    obtain ⟨w2, ret, hrun, hall, hs2, hopts2, h02, hle2, hcat, hbound⟩ :=
      ih w1 hs1 hsize1.1 (by omega)
    refine ⟨w2, retiredBy w w1 ++ ret, ?_, ?_, hs2, hopts2.trans hopts1, h02, ?_, ?_, ?_⟩
    · simp only [logAllRetired, hlog, hrun]
    · simp only [logAll, hlog, hall]
    · rw [totalBytes_cons]; omega
    · intro hd
      have hcat2 := hcat (by rw [hopts1]; exact hd)
      rw [if_pos hd] at hact
      simp only [lines, List.map_cons, strings.join_cons] at hcat2 ⊢
      by_cases hc : w.LogFile.size + ((r.LogFmt.line r).length : Int) ≥ w.LogFile.Opts.MaxFileSize
      · obtain ⟨_, ha1, hret, _⟩ := hyes hc
        rw [hret, hact]
        rw [ha1] at hcat2
        simp only [List.cons_append, List.nil_append, strings.join_cons, String.append_assoc]
        rw [hcat2]; simp
      · obtain ⟨_, ha1, hret, _⟩ := hno (by omega)
        rw [hret]
        rw [ha1, hact] at hcat2
        simp only [List.nil_append]
        rw [hcat2, String.append_assoc]
    · intro hle
      have hle1 : (w1.active.length : Int) ≤ w1.LogFile.size ∧
          (w1.active.length : Int) < max w.LogFile.Opts.MaxFileSize 1 := by
        by_cases hc : w.LogFile.size + ((r.LogFmt.line r).length : Int) ≥ w.LogFile.Opts.MaxFileSize
        · obtain ⟨hsz, ha1, _, _⟩ := hyes hc
          rw [ha1, hsz]; simp
        · obtain ⟨hsz, ha1, _, _⟩ := hno (by omega)
          rw [ha1, hsz, hact]
          have : ((if w.LogFile.Opts.LogDestination = dest.File ∨
              w.LogFile.Opts.LogDestination = dest.Both then w.active ++ r.LogFmt.line r
              else w.active).length : Int) ≤ w.active.length + (r.LogFmt.line r).length := by
            split <;> simp [String.length_append]
          constructor
          · omega
          · have : w.LogFile.size + ((r.LogFmt.line r).length : Int) < w.LogFile.Opts.MaxFileSize := by
              omega
            have := le_max_left w.LogFile.Opts.MaxFileSize 1
            omega
      obtain ⟨hb1, hb2⟩ := hbound hle1.1
      refine ⟨hb1, fun _ hM => ?_⟩
      by_cases hrs : rs = []
      · subst hrs
        simp only [logAll, Except.ok.injEq] at hall
        subst hall
        have := hle1.2
        rw [max_eq_left (by omega)] at this
        exact this
      · rw [← hopts1]
        exact hb2 hrs (by rw [hopts1]; exact hM)

/-- C2 (what the code does): three 40-byte writes to an empty log with limit 100 rotate on
the third write, and when that write returns the byte counter is 40, the length of the
line that went to the retired file, while the new active file is empty. -/
theorem C2_counter_after_rotation_is_line_length :
    (logAll demoWorld [demoRecord, demoRecord, demoRecord]).map
      (fun w => (w.LogFile.size, w.active, w.spawned.length)) = .ok (40, "", 1) := by
  decide

/-- Where every rename succeeds no write is lost.  From a well-formed state (`World.Sane`),
for a log with destination `File`: what each rotation of a run retired, read right after
that rotation, followed by the active file, is the active file before the run followed by
every rendered line in write order; and with a limit of 100 bytes, three 40-byte writes to
an empty log rotate once, on the third write: the first two writes start no archival, the
retired file holds the 120 bytes and the active file is empty.  The states that `NewLog`
leaves need not be well-formed (`blockedSys`), and a retired file can be replaced later
(`letterRecords`). -/
theorem writes_kept_while_renames_succeed (w : World) (rs : List ApacheLogRecord)
    (r1 r2 r3 : ApacheLogRecord) (hs : w.Sane)
    (hd : w.LogFile.Opts.LogDestination = .File) (h0 : 0 ≤ w.LogFile.size)
    (hrange : w.LogFile.size + totalBytes rs < 2 ^ 63) :
    (∃ w1 ret, logAllRetired w rs = .ok (w1, ret) ∧ logAll w rs = .ok w1 ∧
      String.join ret ++ w1.active = w.active ++ String.join (lines rs)) ∧
    (w.LogFile.Opts.MaxFileSize = 100 → w.LogFile.size = 0 → w.active = "" →
      (r1.LogFmt.line r1).length = 40 → (r2.LogFmt.line r2).length = 40 →
      (r3.LogFmt.line r3).length = 40 →
      ∃ w2 w3, logAllRetired w [r1, r2] = .ok (w2, []) ∧ w2.spawned = w.spawned ∧
        logAllRetired w [r1, r2, r3] =
          .ok (w3, [r1.LogFmt.line r1 ++ r2.LogFmt.line r2 ++ r3.LogFmt.line r3]) ∧
        w3.active = "" ∧ w3.spawned.length = w.spawned.length + 1) := by
  constructor
  · obtain ⟨w1, ret, h1, h2, _, _, _, _, hcat, _⟩ := logAll_invariant rs w hs h0 hrange
    exact ⟨w1, ret, h1, h2, hcat (Or.inl hd)⟩
  · intro hM hsz hact hl1 hl2 hl3
    have hdd : w.LogFile.Opts.LogDestination = .File ∨ w.LogFile.Opts.LogDestination = .Both :=
      Or.inl hd
    obtain ⟨wa, hlog1, hsa, hoa, hno1, _⟩ := logRecord_step w r1 hs h0 (by rw [hsz, hl1]; norm_num)
    obtain ⟨hsza, hacta, hreta, hspa⟩ := hno1 (by rw [hsz, hl1, hM]; norm_num)
    obtain ⟨_, hw1, _⟩ := written_Sane w hs (r1.LogFmt.line r1)
    rw [if_pos hdd] at hw1
    rw [hsz, hl1] at hsza
    obtain ⟨wb, hlog2, hsb, hob, hno2, _⟩ :=
      logRecord_step wa r2 hsa (by rw [hsza]; norm_num) (by rw [hsza, hl2]; norm_num)
    obtain ⟨hszb, hactb, hretb, hspb⟩ := hno2 (by rw [hsza, hl2, hoa, hM]; norm_num)
    obtain ⟨_, hw2, _⟩ := written_Sane wa hsa (r2.LogFmt.line r2)
    rw [if_pos (by rw [hoa]; exact hdd)] at hw2
    rw [hsza, hl2] at hszb
    obtain ⟨wc, hlog3, hsc, hoc, _, hyes3⟩ :=
      logRecord_step wb r3 hsb (by rw [hszb]; norm_num) (by rw [hszb, hl3]; norm_num)
    obtain ⟨hszc, hactc, hretc, hspc⟩ := hyes3 (by rw [hszb, hl3, hob, hoa, hM]; norm_num)
    obtain ⟨_, hw3, _⟩ := written_Sane wb hsb (r3.LogFmt.line r3)
    rw [if_pos (by rw [hob, hoa]; exact hdd)] at hw3
    refine ⟨wb, wc, ?_, hspb.trans hspa, ?_, hactc, ?_⟩
    · simp only [logAllRetired, hlog1, hlog2, hreta, hretb, List.append_nil]
    · simp only [logAllRetired, hlog1, hlog2, hlog3, hreta, hretb, hretc, List.nil_append,
        List.append_nil]
      rw [hw3, hactb, hw2, hacta, hw1, hact]
      simp
    · rw [hspc, hspb, hspa]

/-- The lemma `writes_kept_while_renames_succeed` at a concrete input: the three 40-byte
records of `demoRecord` on `demoWorld`. -/
theorem writes_kept_demoWorld :
    demoWorld.Sane ∧ demoWorld.LogFile.Opts.LogDestination = .File ∧
    (0 : Int) ≤ demoWorld.LogFile.size ∧
    demoWorld.LogFile.size + totalBytes [demoRecord, demoRecord, demoRecord] < 2 ^ 63 ∧
    (∃ w1 ret, logAllRetired demoWorld [demoRecord, demoRecord, demoRecord] = .ok (w1, ret) ∧
      logAll demoWorld [demoRecord, demoRecord, demoRecord] = .ok w1 ∧
      String.join ret ++ w1.active =
        demoWorld.active ++ String.join (lines [demoRecord, demoRecord, demoRecord])) ∧
    (∃ w2 w3, logAllRetired demoWorld [demoRecord, demoRecord] = .ok (w2, []) ∧
      w2.spawned = demoWorld.spawned ∧
      logAllRetired demoWorld [demoRecord, demoRecord, demoRecord] =
        .ok (w3, [demoRecord.LogFmt.line demoRecord ++ demoRecord.LogFmt.line demoRecord ++
          demoRecord.LogFmt.line demoRecord]) ∧
      w3.active = "" ∧ w3.spawned.length = demoWorld.spawned.length + 1) :=
  ⟨by decide, by decide, by decide, by decide,
    (writes_kept_while_renames_succeed demoWorld [demoRecord, demoRecord, demoRecord]
      demoRecord demoRecord demoRecord (by decide) (by decide) (by decide) (by decide)).1,
    (writes_kept_while_renames_succeed demoWorld [demoRecord, demoRecord, demoRecord]
      demoRecord demoRecord demoRecord (by decide) (by decide) (by decide) (by decide)).2
      (by decide) (by decide) (by decide) (by decide) (by decide) (by decide)⟩

/-- C1 at a concrete input: a 40-byte line on a counter of 80 and a limit of 100 rotates. -/
theorem C1_witness :
    (demoWorld.withSize 80).LogFile.out.valid (demoWorld.withSize 80).fs ∧
    (0 : Int) ≤ (demoWorld.withSize 80).LogFile.size ∧
    (demoWorld.withSize 80).LogFile.size + ((demoRecord.LogFmt.line demoRecord).length : Int)
      < 2 ^ 63 ∧
    demoRecord.Log (demoWorld.withSize 80).LogFile.out (demoWorld.withSize 80) =
      (Rotate ((demoWorld.withSize 80).written (demoWorld.withSize 80).LogFile.out
        (demoRecord.LogFmt.line demoRecord))).map
        (fun w2 => w2.withSize ((demoRecord.LogFmt.line demoRecord).length : Int)) :=
  ⟨by decide, by decide, by decide,
    (C1_rotate_iff_counter_reaches_max (demoWorld.withSize 80) demoRecord
      (demoWorld.withSize 80).LogFile.out (by decide) (by decide) (by decide)).1 (by decide)⟩

/-- C4: on a log whose counter starts at `s0`, after `N` writes none of which brings the
counter to the limit (so none rotates), the counter is `s0` plus the sum of the byte counts
that the `Print` calls returned, each of which is the exact length of the line rendered;
no archival was started. -/
theorem C4_counter_is_sum_of_print_counts (rs : List ApacheLogRecord) :
    ∀ w : World, w.LogFile.out.valid w.fs → 0 ≤ w.LogFile.size →
      w.LogFile.Opts.MaxFileSize ≤ 2 ^ 63 - 1 →
      (∀ k, k < rs.length →
        w.LogFile.size + totalBytes (rs.take (k + 1)) < w.LogFile.Opts.MaxFileSize) →
      ∃ w1 ns, logAllCounts w rs = .ok (w1, ns) ∧ logAll w rs = .ok w1 ∧
        w1.LogFile.size = w.LogFile.size + ns.sum ∧
        ns = (lines rs).map (fun l => (l.length : Int)) ∧
        w1.spawned = w.spawned := by
  induction rs with
  | nil =>
    intro w _ _ _ _
    exact ⟨w, [], rfl, rfl, by simp, rfl, rfl⟩
  | cons r rs ih =>
    intro w hv h0 hM hno
    have h1 := hno 0 (by simp)
    simp only [List.take_succ_cons, List.take_zero, totalBytes_cons, totalBytes_nil] at h1
    have hn : (0 : Int) ≤ ((r.LogFmt.line r).length : Int) := Int.ofNat_nonneg _
    obtain ⟨_, hlt, _, _⟩ :=
      C1_rotate_iff_counter_reaches_max w r w.LogFile.out hv h0 (by omega)
    have hlog := hlt (by omega)
    have hfr := io.Writer.Write_keeps w.fs w.LogFile.out (r.LogFmt.line r)
    have hv1 : ((w.written w.LogFile.out (r.LogFmt.line r)).withSize
        (w.LogFile.size + ((r.LogFmt.line r).length : Int))).LogFile.out.valid
        ((w.written w.LogFile.out (r.LogFmt.line r)).withSize
          (w.LogFile.size + ((r.LogFmt.line r).length : Int))).fs := by
      simp only [World.withSize, World.written]
      cases hout : w.LogFile.out with
      | file f =>
        rw [hout] at hv hfr
        exact os.File.valid_of_length hfr.2.2 f hv
      | multi ws =>
        rw [hout] at hv hfr
        exact fun f hf => os.File.valid_of_length hfr.2.2 f (hv f hf)
    obtain ⟨w2, ns, hc, ha, hsz, hns, hsp⟩ := ih _ hv1 (by simp only [World.withSize]; omega)
      (by simpa [World.withSize, World.written] using hM)
      (by
        intro k hk
        have := hno (k + 1) (by simpa using hk)
        simp only [List.take_succ_cons, totalBytes_cons] at this
        simp only [World.withSize, World.written]
        omega)
    refine ⟨w2, (r.LogFmt.Print w.fs w.LogFile.out r).2 :: ns, ?_, ?_, ?_, ?_, ?_⟩
    · simp only [logAllCounts, logRecord, hlog, hc]
    · simp only [logAll, logRecord, hlog, ha]
    · rw [hsz, Print_eq _ _ _ _ hv]
      simp only [World.withSize, List.sum_cons]
      omega
    · rw [Print_eq _ _ _ _ hv, hns]
      simp [lines]
    · rw [hsp]; rfl

/-- C4 at a concrete input: two 40-byte records on `demoWorld`. -/
theorem C4_witness :
    demoWorld.LogFile.out.valid demoWorld.fs ∧ (0 : Int) ≤ demoWorld.LogFile.size ∧
    demoWorld.LogFile.Opts.MaxFileSize ≤ 2 ^ 63 - 1 ∧
    (∀ k, k < [demoRecord, demoRecord].length →
      demoWorld.LogFile.size + totalBytes ([demoRecord, demoRecord].take (k + 1)) <
        demoWorld.LogFile.Opts.MaxFileSize) ∧
    ∃ w1 ns, logAllCounts demoWorld [demoRecord, demoRecord] = .ok (w1, ns) ∧
      logAll demoWorld [demoRecord, demoRecord] = .ok w1 ∧
      w1.LogFile.size = demoWorld.LogFile.size + ns.sum ∧
      ns = (lines [demoRecord, demoRecord]).map (fun l => (l.length : Int)) ∧
      w1.spawned = demoWorld.spawned :=
  ⟨by decide, by decide, by decide, by decide,
    C4_counter_is_sum_of_print_counts [demoRecord, demoRecord] demoWorld (by decide)
      (by decide) (by decide) (by decide)⟩

theorem newRandPoolLoop_frame (k : Nat) :
    ∀ (p : randPool) (s : Sys), (newRandPoolLoop k p s).2.fs = s.fs := by
  induction k with
  | zero => intro p s; rfl
  | succ k ih =>
    intro p s
    unfold newRandPoolLoop
    rcases hn : randName archPrefix s with ⟨name, s1⟩
    have := (randName_frame archPrefix s).1
    rw [hn] at this
    simp only at this ⊢
    rw [ih, this]

theorem openFile_write_reg {fs fs1 : os.FileSys} {name : String} {c t : Bool} {f : os.File}
    (h : os.openFile fs name true c t = .ok (fs1, f)) : ∃ ino, f = .reg ino := by
  unfold os.openFile at h
  simp only at h
  split at h
  · simp at h
  · split at h
    · simp only [Except.ok.injEq, Prod.mk.injEq] at h
      exact ⟨_, h.2.symm⟩
    · split at h
      · simp only [Except.ok.injEq, Prod.mk.injEq] at h
        exact ⟨_, h.2.symm⟩
      · simp at h

theorem NewLog_seed (opts : Option Options) (s s1 : Sys) (l : Log)
    (h : NewLog opts s = .ok (l, s1)) :
    l.size = ((World.active { toSys := s1, LogFile := l }).length : Int) := by
  unfold NewLog at h
  simp only at h
  rcases hf : Log.newFile (opts.getD DefaultOptions) s.fs with e | ⟨fs, file⟩
  · rw [hf] at h; simp at h
  · rw [hf] at h
    obtain ⟨ino, rfl⟩ := openFile_write_reg hf
    simp only [Except.ok.injEq, Prod.mk.injEq] at h
    obtain ⟨rfl, rfl⟩ := h
    simp [World.active, os.File.Size, newRandPool, newRandPoolLoop_frame]

/-- Where every rename succeeds the active file stays below the limit.  `NewLog` seeds the
counter with the real size of the log file; and from a well-formed state (`World.Sane`)
with a positive limit `M` whose counter is the real size of the active file, after every
completed write, with or without rotation, the active file holds fewer than `M` bytes.
The states that `NewLog` leaves need not be well-formed (`blockedSys`). -/
theorem active_file_below_max_while_renames_succeed (w : World) (rs : List ApacheLogRecord) (hs : w.Sane)
    (hseed : w.LogFile.size = (w.active.length : Int))
    (hM : 0 < w.LogFile.Opts.MaxFileSize)
    (hrange : w.LogFile.size + totalBytes rs < 2 ^ 63) (hne : rs ≠ []) :
    (∃ w1, logAll w rs = .ok w1 ∧ (w1.active.length : Int) < w.LogFile.Opts.MaxFileSize) ∧
    (∀ (opts : Option Options) (s s1 : Sys) (l : Log), NewLog opts s = .ok (l, s1) →
      l.size = ((World.active { toSys := s1, LogFile := l }).length : Int)) := by
  constructor
  · obtain ⟨w1, _, _, h2, _, _, _, _, _, hb⟩ :=
      logAll_invariant rs w hs (by rw [hseed]; exact Int.ofNat_nonneg _) hrange
    exact ⟨w1, h2, (hb (by rw [hseed])).2 hne hM⟩
  · exact NewLog_seed

/-- The lemma `active_file_below_max_while_renames_succeed` at a concrete input: three
40-byte records on `demoWorld` (limit 100). -/
theorem active_file_below_max_demoWorld :
    demoWorld.Sane ∧ demoWorld.LogFile.size = (demoWorld.active.length : Int) ∧
    0 < demoWorld.LogFile.Opts.MaxFileSize ∧
    demoWorld.LogFile.size + totalBytes [demoRecord, demoRecord, demoRecord] < 2 ^ 63 ∧
    [demoRecord, demoRecord, demoRecord] ≠ [] ∧
    ∃ w1, logAll demoWorld [demoRecord, demoRecord, demoRecord] = .ok w1 ∧
      (w1.active.length : Int) < demoWorld.LogFile.Opts.MaxFileSize :=
  ⟨by decide, by decide, by decide, by decide, by decide,
    (active_file_below_max_while_renames_succeed demoWorld [demoRecord, demoRecord, demoRecord] (by decide)
      (by decide) (by decide) (by decide) (by decide)).1⟩

end useful

namespace fmt

theorem padNumber_plain (n : Int) :
    padNumber false 0 (decide (n < 0)) (Nat.repr n.natAbs) = strconv.Itoa n := by
  unfold padNumber padLeft strconv.Itoa
  by_cases hn : n < 0 <;> simp [hn]

theorem padNumber_float (x : Float64) :
    padNumber false 0 x.neg (Float64.fmtF6 { x with neg := false }) = Float64.fmtF6 x := by
  unfold padNumber padLeft Float64.fmtF6 Float64.num Float64.den
  cases hx : x.neg <;> simp [String.append_assoc]

end fmt

namespace useful

theorem commonLog_line (r : ApacheLogRecord) :
    CommonLog.line r =
      r.ip ++ " - - [" ++ r.time.Format timeFormat ++ "] \"" ++
        (r.method ++ " " ++ r.uri ++ " " ++ r.protocol) ++ " " ++ strconv.Itoa r.status ++ " " ++
        strconv.Itoa r.responseBytes ++ "\" " ++
        Float64.fmtF6 (time.Duration.Seconds r.elapsedTime) ++ "\n" := by
  simp [LogFmt.line, CommonLog, LogFmt.Format, LogFmt.operands, commonLogFmt,
    ApacheLogRecord.formattedTimeRequest, requestFormat, fmt.Sprintf, fmt.doPrintf,
    fmt.parseVerb, fmt.parseWidth, fmt.printArg, fmt.extra, fmt.padLeft,
    fmt.padNumber_plain, fmt.padNumber_float]
  apply String.ext
  simp [String.singleton, String.data_append]

/-- C6 (what the code does): with `access.log#0000000003_.gz` as the only entry of the
archive directory, `findCur` sets the counter to 0 (the slice `highest[h+1:u-1]` stops one
byte before the last digit), and the first `doRotate` after it names its archive
`access.log#0000000000_.gz` and leaves the counter at 1; no archive of index 4 appears. -/
theorem C6_recovery_restarts_at_zero :
    (findCur recoveryWorld).map (fun w => w.cur) = .ok 0 ∧
    ((findCur recoveryWorld).bind (fun w => doRotate id w "._archive000000001")).map
      (fun w => (w.cur, w.fs.links.map Prod.fst)) =
      .ok (1, ["archives/access.log#0000000000_.gz", "access.log",
        "archives/access.log#0000000003_.gz"]) := by
  decide

/-- C7: when the archive directory can be opened and none of its names ends with `_.gz`
(also when it has no name at all), `findCur` sets the archive counter to 0 and changes
nothing else, whatever the counter was. -/
theorem C7_findCur_without_archives_is_zero (w : World) (fs : os.FileSys) (dir : os.File)
    (hopen : os.Open w.fs w.LogFile.Opts.ArchiveDir = .ok (fs, dir))
    (hnone : ∀ name ∈ os.File.Readdirnames w.fs dir, strings.HasSuffix name "_.gz" = false) :
    findCur w = .ok { w with cur := 0 } := by
  unfold findCur
  rw [hopen]
  simp only
  split
  · rfl
  · rename_i hlen
    have hmem : (sort.Strings (os.File.Readdirnames w.fs dir)).getD
        ((sort.Strings (os.File.Readdirnames w.fs dir)).length - 1) "" ∈
        os.File.Readdirnames w.fs dir := by
      have hl : (sort.Strings (os.File.Readdirnames w.fs dir)).length =
          (os.File.Readdirnames w.fs dir).length := List.length_insertionSort _ _
      have hlt : (sort.Strings (os.File.Readdirnames w.fs dir)).length - 1 <
          (sort.Strings (os.File.Readdirnames w.fs dir)).length := by omega
      rw [List.getD_eq_getElem _ _ hlt]
      exact (List.mem_insertionSort _).mp (List.getElem_mem _)
    rw [hnone _ hmem]
    rfl

/-- C7 at a concrete input: an archive directory that holds only `notes.txt`, with the
counter at 7 before. -/
theorem C7_witness :
    os.Open notesWorld.fs notesWorld.LogFile.Opts.ArchiveDir =
      .ok (notesWorld.fs, .dir "archives") ∧
    (∀ name ∈ os.File.Readdirnames notesWorld.fs (.dir "archives"),
      strings.HasSuffix name "_.gz" = false) ∧
    notesWorld.cur = 7 ∧
    (findCur notesWorld).map (fun w => w.cur) = .ok 0 :=
  ⟨by decide, by decide, by decide, by
    rw [C7_findCur_without_archives_is_zero notesWorld notesWorld.fs (.dir "archives")
      (by decide) (by decide)]
    rfl⟩

/-- C9 (what the code does): with the options of `app.go` (`log/access.log`,
`log/archives`) the archive of index 0 is `log/archives/log/access.log#0000000000_.gz`:
`doRotate` joins the archive directory with the whole log path, not with its base name;
the directory `log/archives/log` does not exist, so `os.Create` fails and `doRotate`
panics. -/
theorem C9_archive_path_keeps_log_directory :
    archiveName appOpts 0 = "log/archives/log/access.log#0000000000_.gz" ∧
    filepath.Join [appOpts.ArchiveDir, filepath.Base appOpts.LogName] ++ "#0000000000_.gz" =
      "log/archives/access.log#0000000000_.gz" ∧
    (doRotate id appWorld "._archive000000001").map (fun w => w.cur) =
      .error (.errno .ENOENT) := by
  decide

set_option maxRecDepth 8000 in
/-- C10 (what the code does): the `Common` line of a request `GET / HTTP/1.1` with status
200 and 5 response bytes has the status and the byte count inside the quotes, right after
the protocol; the closing quote comes after the byte count. -/
theorem C10_common_line_has_status_inside_quotes :
    getRecord.LogFmt.line getRecord =
      "1.2.3.4 - - [04/Jul/2015 01:05:09] \"GET / HTTP/1.1 200 5\" 0.001500\n" ∧
    getRecord.LogFmt.line getRecord ≠
      "1.2.3.4 - - [04/Jul/2015 01:05:09] \"GET / HTTP/1.1\" 200 5 0.001500\n" := by
  decide

end useful
theorem toDigitsCore_acc (fuel : Nat) :
    ∀ (n : Nat) (ds : List Char),
      Nat.toDigitsCore 10 fuel n ds = Nat.toDigitsCore 10 fuel n [] ++ ds := by
  induction fuel with
  | zero => intro n ds; simp [Nat.toDigitsCore]
  | succ f ih =>
    intro n ds
    simp only [Nat.toDigitsCore]
    split
    · simp
    · rw [ih (n / 10) (Nat.digitChar (n % 10) :: ds), ih (n / 10) [Nat.digitChar (n % 10)]]
      simp

namespace useful

theorem decimalPadded_zero (width : Nat) : decimalPadded width 0 = List.replicate width '0' := by
  induction width with
  | zero => rfl
  | succ k ih =>
    simp only [decimalPadded, Nat.zero_div, Nat.zero_mod, ih]
    rw [show [Nat.digitChar 0] = List.replicate 1 '0' from rfl, ← List.replicate_add]

theorem decimalPadded_length (width n : Nat) : (decimalPadded width n).length = width := by
  induction width generalizing n with
  | zero => rfl
  | succ k ih => simp [decimalPadded, ih]

theorem toDigitsCore_padded (width : Nat) :
    ∀ (fuel n : Nat), n < 10 ^ (width + 1) → n < fuel →
      List.replicate (width + 1 - (Nat.toDigitsCore 10 fuel n []).length) '0' ++
        Nat.toDigitsCore 10 fuel n [] = decimalPadded (width + 1) n := by
  induction width with
  | zero =>
    intro fuel n hn hf
    obtain ⟨f, rfl⟩ : ∃ f, fuel = f + 1 := ⟨fuel - 1, by omega⟩
    have h0 : n / 10 = 0 := by omega
    simp [Nat.toDigitsCore, h0, decimalPadded]
  | succ k ih =>
    intro fuel n hn hf
    obtain ⟨f, rfl⟩ : ∃ f, fuel = f + 1 := ⟨fuel - 1, by omega⟩
    by_cases h0 : n / 10 = 0
    · have hd : decimalPadded (k + 1 + 1) n = decimalPadded (k + 1) (n / 10) ++
          [Nat.digitChar (n % 10)] := rfl
      rw [hd, h0, decimalPadded_zero]
      simp [Nat.toDigitsCore, h0]
    · have hd : decimalPadded (k + 1 + 1) n = decimalPadded (k + 1) (n / 10) ++
          [Nat.digitChar (n % 10)] := rfl
      have hlt : n / 10 < 10 ^ (k + 1) := by
        rw [Nat.div_lt_iff_lt_mul (by norm_num)]
        rw [pow_succ] at hn; exact hn
      have hf2 : n / 10 < f := by omega
      have := ih f (n / 10) hlt hf2
      rw [hd, ← this]
      simp only [Nat.toDigitsCore, h0, if_false]
      rw [toDigitsCore_acc f (n / 10) [Nat.digitChar (n % 10)]]
      simp only [List.length_append, List.length_singleton, List.append_assoc]
      congr 2
      omega

theorem repr_padded (n : Nat) (h : n < 10 ^ 10) :
    fmt.padLeft '0' 10 (Nat.repr n) = String.mk (decimalPadded 10 n) := by
  have := toDigitsCore_padded 9 (n + 1) n h (by omega)
  unfold fmt.padLeft Nat.repr Nat.toDigits
  apply String.ext
  simp only [String.data_append, List.asString, String.length]
  exact this

theorem archiveName_eq (opts : Options) (c : Int) (h0 : 0 ≤ c) (h1 : c < 10 ^ 10) :
    archiveName opts c =
      filepath.Join [opts.ArchiveDir, opts.LogName] ++ "#" ++
        String.mk (decimalPadded 10 c.toNat) ++ "_.gz" := by
  have hneg : ¬ c < 0 := by omega
  have hnat : c.natAbs = c.toNat := by omega
  have hlt : c.toNat < 10 ^ 10 := by omega
  simp [archiveName, fmt.Sprintf, fmt.doPrintf, fmt.parseVerb, fmt.parseWidth, fmt.printArg,
    fmt.extra, fmt.padNumber, hneg, hnat, repr_padded _ hlt]
  apply String.ext
  simp [String.singleton, String.data_append, fmt.padLeft]

theorem digitChar_toNat (d : Nat) (h : d < 10) : (Nat.digitChar d).toNat - 48 = d := by
  interval_cases d <;> rfl

theorem decimalPadded_value (width : Nat) :
    ∀ n : Nat, (decimalPadded width n).foldl (fun acc c => 10 * acc + (c.toNat - 48)) 0 =
      n % 10 ^ width := by
  induction width with
  | zero => intro n; simp [decimalPadded, Nat.mod_one]
  | succ k ih =>
    intro n
    simp only [decimalPadded, List.foldl_append, List.foldl_cons, List.foldl_nil, ih]
    rw [digitChar_toNat _ (Nat.mod_lt _ (by norm_num))]
    rw [Nat.pow_succ, Nat.mul_comm (10 ^ k) 10, Nat.mod_mul]
    omega

theorem decimalPadded_inj (a b : Nat) (ha : a < 10 ^ 10) (hb : b < 10 ^ 10)
    (h : decimalPadded 10 a = decimalPadded 10 b) : a = b := by
  have h1 := decimalPadded_value 10 a
  have h2 := decimalPadded_value 10 b
  rw [h, h2, Nat.mod_eq_of_lt hb, Nat.mod_eq_of_lt ha] at h1
  exact h1.symm

theorem archiveName_inj (opts : Options) (a b : Int) (ha0 : 0 ≤ a) (ha : a < 10 ^ 10)
    (hb0 : 0 ≤ b) (hb : b < 10 ^ 10) (h : archiveName opts a = archiveName opts b) : a = b := by
  rw [archiveName_eq opts a ha0 ha, archiveName_eq opts b hb0 hb] at h
  have hd := congrArg String.data h
  simp only [String.data_append, List.append_assoc] at hd
  have h1 := List.append_cancel_left hd
  have h2 := List.append_cancel_left h1
  have h3 := List.append_cancel_right h2
  have := decimalPadded_inj a.toNat b.toNat (by omega) (by omega) h3
  omega

end useful
theorem lookup_filter_other (k k2 : String) (hk : k ≠ k2) (l : List (String × Nat)) :
    (l.filter (fun e => e.1 != k2)).lookup k = l.lookup k := by
  induction l with
  | nil => rfl
  | cons a t ih =>
    rw [List.filter_cons]
    by_cases h : a.1 = k2
    · have h1 : (a.1 != k2) = false := by rw [h]; simp
      have h2 : (k == a.1) = false := by
        rw [beq_eq_false_iff_ne, h]; exact hk
      rw [h1, List.lookup_cons, h2]; exact ih
    · have h1 : (a.1 != k2) = true := by simp [h]
      rw [h1]
      simp only [if_true]
      rw [List.lookup_cons, List.lookup_cons, ih]

namespace os

theorem Create_links {fs fs1 : FileSys} {name : String} {f : File}
    (h : Create fs name = .ok (fs1, f)) :
    (fs1.links.lookup (filepath.Clean name)).isSome := by
  unfold Create openFile at h
  simp only at h
  split at h
  · simp at h
  · split at h
    · rename_i ino hl
      simp only [Except.ok.injEq, Prod.mk.injEq] at h
      obtain ⟨rfl, _⟩ := h
      simp [hl]
    · split at h
      · simp only [Except.ok.injEq, Prod.mk.injEq] at h
        obtain ⟨rfl, _⟩ := h
        simp
      · simp at h

theorem Open_fs {fs fs1 : FileSys} {name : String} {f : File}
    (h : Open fs name = .ok (fs1, f)) : fs1 = fs := by
  unfold Open openFile at h
  simp only at h
  split at h
  · simp only [Bool.false_eq_true, if_false, Except.ok.injEq, Prod.mk.injEq] at h
    exact h.1.symm
  · split at h
    · simp only [Bool.false_eq_true, if_false, Except.ok.injEq, Prod.mk.injEq] at h
      exact h.1.symm
    · simp at h

theorem Remove_links {fs fs1 : FileSys} {name : String} (h : Remove fs name = .ok fs1) :
    fs1.links = fs.links.filter (fun e => e.1 != filepath.Clean name) := by
  unfold Remove at h
  simp only at h
  split at h
  · cases h
  · simp only [Except.ok.injEq] at h
    subst h; rfl

end os

namespace useful

theorem doRotate_ok {gzip : String → String} {w w1 : World} {name : String}
    (h : doRotate gzip w name = .ok w1) :
    w1.cur = wrap64 (w.cur + 1) ∧ w1.LogFile = w.LogFile ∧
      (filepath.Clean (archiveName w.LogFile.Opts w.cur) ≠ filepath.Clean name →
        (w1.fs.find (archiveName w.LogFile.Opts w.cur)).isSome) := by
  unfold doRotate at h
  simp only at h
  split at h
  · cases h
  · rename_i fs archive hcreate
    split at h
    · cases h
    · rename_i fs2 ino hopen
      split at h
      · cases h
      · rename_i fs3 hrm
        simp only [Except.ok.injEq] at h
        subst h
        refine ⟨rfl, rfl, ?_⟩
        intro hne
        have h1 := os.Create_links hcreate
        have h2 := os.Open_fs hopen
        have h3 := os.Remove_links hrm
        have h4 := (os.File.Write_frame fs2 archive (gzip (fs2.content ino))).2
        subst h2
        simp only [os.FileSys.find, h3, h4]
        rw [lookup_filter_other _ _ hne]
        exact h1
    · cases h

theorem doRotateAll_steps (gzip : String → String) (tmps : List String) :
    ∀ w w1 : World, doRotateAll gzip w tmps = .ok w1 → 0 ≤ w.cur →
      w.cur + tmps.length ≤ 10 ^ 10 →
      w1.cur = w.cur + tmps.length ∧ w1.LogFile = w.LogFile ∧
      ∀ i, i < tmps.length → ∃ wi wj, doRotateAll gzip w (tmps.take i) = .ok wi ∧
        doRotate gzip wi (tmps.getD i "") = .ok wj ∧ wi.LogFile = w.LogFile ∧
        wi.cur = w.cur + i ∧ wj.cur = w.cur + i + 1 := by
  induction tmps with
  | nil =>
    intro w w1 h _ _
    simp only [doRotateAll, Except.ok.injEq] at h
    subst h
    exact ⟨by simp, rfl, fun i hi => absurd hi (by simp)⟩
  | cons t rest ih =>
    intro w w1 h h0 hlt
    simp only [List.length_cons, Nat.cast_add, Nat.cast_one] at hlt
    unfold doRotateAll at h
    rcases hstep : doRotate gzip w t with p | wa
    · rw [hstep] at h; cases h
    rw [hstep] at h
    simp only at h
    obtain ⟨hcur, hlf, _⟩ := doRotate_ok hstep
    rw [wrap64_of_range _ (by omega) (by omega)] at hcur
    obtain ⟨hc1, hl1, hi1⟩ := ih wa w1 h (by omega) (by omega)
    refine ⟨?_, hl1.trans hlf, ?_⟩
    · simp only [List.length_cons, Nat.cast_add, Nat.cast_one]; omega
    · intro i hi
      cases i with
      | zero =>
        exact ⟨w, wa, rfl, hstep, rfl, by simp, by simpa using hcur⟩
      | succ j =>
        obtain ⟨wi, wj, hr, hs, hl, hci, hcj⟩ := hi1 j (by simpa using hi)
        refine ⟨wi, wj, ?_, ?_, hl.trans hlf, ?_, ?_⟩
        · simp only [List.take_succ_cons, doRotateAll, hstep, hr]
        · simpa using hs
        · rw [hci, hcur]; push_cast; omega
        · rw [hcj, hcur]; push_cast; omega

/-- C8: when archival steps run one after another from counter `c ≥ 0`, the `i`-th step
(`i = 0, 1, …`, with `c + i < 10^10`) starts with the counter at `c + i`, names its archive
`<path>#<c+i in ten decimal digits>_.gz`, where `<path>` is the archive directory joined
with the log name, and leaves the counter at `c + i + 1` (the archive exists afterwards
unless the retired file had that very name); the names of different steps differ; and with
the default options and `c = 0` the first archive is `access.log#0000000000_.gz` in the
archive directory. -/
theorem C8_archive_index_counts_up (gzip : String → String) (w w1 : World)
    (tmps : List String) (hrun : doRotateAll gzip w tmps = .ok w1) (h0 : 0 ≤ w.cur)
    (hlt : w.cur + tmps.length ≤ 10 ^ 10) :
    w1.cur = w.cur + tmps.length ∧
    (∀ i, i < tmps.length → ∃ wi wj, doRotateAll gzip w (tmps.take i) = .ok wi ∧
      doRotate gzip wi (tmps.getD i "") = .ok wj ∧
      wi.cur = w.cur + i ∧ wj.cur = w.cur + i + 1 ∧
      archiveName wi.LogFile.Opts wi.cur =
        filepath.Join [w.LogFile.Opts.ArchiveDir, w.LogFile.Opts.LogName] ++ "#" ++
          String.mk (decimalPadded 10 (w.cur.toNat + i)) ++ "_.gz" ∧
      (filepath.Clean (archiveName wi.LogFile.Opts wi.cur) ≠ filepath.Clean (tmps.getD i "") →
        (wj.fs.find (archiveName wi.LogFile.Opts wi.cur)).isSome)) ∧
    (∀ i j, i < j → j < tmps.length →
      archiveName w.LogFile.Opts (w.cur + i) ≠ archiveName w.LogFile.Opts (w.cur + j)) ∧
    archiveName DefaultOptions 0 = "archives/access.log#0000000000_.gz" ∧
    filepath.Base (archiveName DefaultOptions 0) = "access.log#0000000000_.gz" := by
  obtain ⟨hc, _, hsteps⟩ := doRotateAll_steps gzip tmps w w1 hrun h0 hlt
  refine ⟨hc, ?_, ?_, by decide, by decide⟩
  · intro i hi
    obtain ⟨wi, wj, hr, hs, hl, hci, hcj⟩ := hsteps i hi
    have hi2 : (i : Int) < tmps.length := by exact_mod_cast hi
    refine ⟨wi, wj, hr, hs, hci, hcj, ?_, (doRotate_ok hs).2.2⟩
    rw [hl, hci, archiveName_eq _ _ (by omega) (by omega)]
    have : (w.cur + (i : Int)).toNat = w.cur.toNat + i := by omega
    rw [this]
  · intro i j hij hj heq
    have hj2 : (j : Int) < tmps.length := by exact_mod_cast hj
    have hi2 : (i : Int) < j := by exact_mod_cast hij
    have := archiveName_inj _ _ _ (by omega) (by omega) (by omega) (by omega) heq
    omega

set_option maxRecDepth 8000 in
/-- C8 at a concrete input: two archival steps from counter 0 in `archiveWorld`. -/
theorem C8_witness :
    ∃ w1, doRotateAll id archiveWorld ["._archive000000001", "._archive000000002"] = .ok w1 ∧
      (0 : Int) ≤ archiveWorld.cur ∧
      archiveWorld.cur + (["._archive000000001", "._archive000000002"].length : Int) ≤ 10 ^ 10 ∧
      w1.cur = 2 ∧
      w1.fs.links.map Prod.fst = ["archives/access.log#0000000001_.gz",
        "archives/access.log#0000000000_.gz", "access.log"] := by
  rcases h : doRotateAll id archiveWorld ["._archive000000001", "._archive000000002"] with p | w1
  · have hok : (doRotateAll id archiveWorld
        ["._archive000000001", "._archive000000002"]).toOption.isSome = true := by decide
    rw [h] at hok
    cases hok
  · have hl : ((doRotateAll id archiveWorld
        ["._archive000000001", "._archive000000002"]).toOption.map
          (fun w => w.fs.links.map Prod.fst)) = some ["archives/access.log#0000000001_.gz",
        "archives/access.log#0000000000_.gz", "access.log"] := by decide
    rw [h] at hl
    refine ⟨w1, rfl, by decide, by decide, ?_, by simpa [Except.toOption] using hl⟩
    have := (C8_archive_index_counts_up id archiveWorld w1 _ h (by decide) (by decide)).1
    simpa [archiveWorld] using this

set_option maxRecDepth 20000 in
/-- `NewLog` on a file system that holds only the working directory and `archives` gives a
well-formed state: counter 0, a pool of 25 names, the first of them `._archive555695684`. -/
theorem NewLog_fresh_Sane :
    (NewLog (some demoOpts)
        { fs := { dirs := [".", "archives"] },
          now := fun _ => 1446638400000012345 }).toOption.map
      (fun r => (decide (World.Sane { toSys := r.2, LogFile := r.1 }), r.1.size,
        r.1.pool.c.length, r.1.pool.c.head?)) =
      some (true, 0, 25, some "._archive555695684") := by
  decide

end useful

/-! ## The five formats and the time layout -/

namespace useful

theorem vhost_line (r : ApacheLogRecord) :
    CommonLogWithVHost.line r =
      r.ip ++ " " ++ r.time.Format timeFormat ++ " - - [" ++
        (r.method ++ " " ++ r.uri ++ " " ++ r.protocol) ++ "] \"" ++
        fmt.badVerb 's' (.int r.status) ++ " " ++ strconv.Itoa r.responseBytes ++ " " ++
        fmt.badVerb 'd' (.float64 (time.Duration.Seconds r.elapsedTime)) ++
        "\" %!f(MISSING)\n" := by
  simp [LogFmt.line, CommonLogWithVHost, LogFmt.Format, LogFmt.operands, commonLogWithVHostFmt,
    ApacheLogRecord.formattedTimeRequest, requestFormat, fmt.Sprintf, fmt.doPrintf,
    fmt.parseVerb, fmt.parseWidth, fmt.printArg, fmt.extra, fmt.padLeft,
    fmt.padNumber_plain, fmt.padNumber_float]
  apply String.ext
  simp [String.singleton, String.data_append]

theorem ncsa_line (r : ApacheLogRecord) :
    NCSALog.line r = CommonLog.line r ++ " \"" ++ r.referer ++ "\" \"" ++ r.agent ++ "\"" := by
  rw [commonLog_line]
  simp [LogFmt.line, NCSALog, LogFmt.Format, LogFmt.operands, ncsaLogFmt,
    ApacheLogRecord.formattedTimeRequest, requestFormat, fmt.Sprintf, fmt.doPrintf,
    fmt.parseVerb, fmt.parseWidth, fmt.printArg, fmt.extra, fmt.padLeft,
    fmt.padNumber_plain, fmt.padNumber_float]
  apply String.ext
  simp [String.singleton, String.data_append]

theorem referer_line (r : ApacheLogRecord) :
    RefererLog.line r = r.referer ++ " -> " ++ r.uri := by
  simp [LogFmt.line, RefererLog, LogFmt.Format, LogFmt.operands, refererLogFmt,
    fmt.Sprintf, fmt.doPrintf,
    fmt.parseVerb, fmt.parseWidth, fmt.printArg, fmt.extra, fmt.padLeft]
  apply String.ext
  simp [String.singleton, String.data_append]

theorem agent_line (r : ApacheLogRecord) : AgentLog.line r = r.agent := by
  simp [LogFmt.line, AgentLog, LogFmt.Format, LogFmt.operands, agentLogFmt,
    fmt.Sprintf, fmt.doPrintf,
    fmt.parseVerb, fmt.parseWidth, fmt.printArg, fmt.extra, fmt.padLeft]

set_option maxRecDepth 8000 in
/-- C11 (what the code does): `commonLogWithVHostFmt` has seven verbs, but
`commonLogWithVHost.Print` passes the six operands of `Common` (the record has no virtual
host).  So for every record the address fills the verb of the virtual host and every later
operand moves one verb to the left: the time stands where the address should, the request
line inside the brackets, the status under `%s`, the seconds under `%d`, and the last verb
has no operand.  The line of the example request is not the `Common` line behind any
prefix. -/
theorem C11_vhost_line_misplaces_every_operand :
    (∀ r : ApacheLogRecord,
      CommonLogWithVHost.line r =
        r.ip ++ " " ++ r.time.Format timeFormat ++ " - - [" ++
          (r.method ++ " " ++ r.uri ++ " " ++ r.protocol) ++ "] \"" ++
          fmt.badVerb 's' (.int r.status) ++ " " ++ strconv.Itoa r.responseBytes ++ " " ++
          fmt.badVerb 'd' (.float64 (time.Duration.Seconds r.elapsedTime)) ++
          "\" %!f(MISSING)\n") ∧
    CommonLogWithVHost.line getRecord =
      "1.2.3.4 04/Jul/2015 01:05:09 - - [GET / HTTP/1.1] \"%!s(int=200) 5 %!d(float64=0.0015)\" %!f(MISSING)\n" ∧
    ¬ ∃ vhost : String,
      CommonLogWithVHost.line getRecord = vhost ++ " " ++ CommonLog.line getRecord := by
  refine ⟨vhost_line, by decide, ?_⟩
  rintro ⟨vhost, h⟩
  have hs : (CommonLog.line getRecord).data <:+ (CommonLogWithVHost.line getRecord).data := by
    rw [h]
    exact ⟨(vhost ++ " ").data, by simp [String.data_append]⟩
  exact absurd hs (by decide)

set_option maxRecDepth 8000 in
/-- C12 (what the code does): only `Common` and `CommonWithVHost` end their entry with a
newline.  For every record the `Agent` entry is the user agent and nothing more, the
`Referer` entry is `referer -> uri` and nothing more, and the `NCSA` entry is the `Common`
line, newline included, followed by a blank and the quoted referer and user agent with no
newline after them.  For the example request (no field holds a newline) the `NCSA` entry
has its only newline before the referer, and the other two have none. -/
theorem C12_entries_are_not_newline_terminated :
    (∀ r : ApacheLogRecord, AgentLog.line r = r.agent) ∧
    (∀ r : ApacheLogRecord, RefererLog.line r = r.referer ++ " -> " ++ r.uri) ∧
    (∀ r : ApacheLogRecord,
      NCSALog.line r = CommonLog.line r ++ " \"" ++ r.referer ++ "\" \"" ++ r.agent ++ "\"") ∧
    NCSALog.line getRecord =
      "1.2.3.4 - - [04/Jul/2015 01:05:09] \"GET / HTTP/1.1 200 5\" 0.001500\n \"http://example.com/\" \"curl/7.43.0\"" ∧
    RefererLog.line getRecord = "http://example.com/ -> /" ∧
    AgentLog.line getRecord = "curl/7.43.0" ∧
    strings.HasSuffix (NCSALog.line getRecord) "\n" = false ∧
    strings.HasSuffix (RefererLog.line getRecord) "\n" = false ∧
    strings.HasSuffix (AgentLog.line getRecord) "\n" = false := by
  refine ⟨agent_line, referer_line, ncsa_line, ?_, ?_, ?_, ?_, ?_, ?_⟩ <;> decide

set_option maxRecDepth 8000 in
/-- C13 (what the code does): `timeFormat` is `02/Jan/2006 03:04:05`, and `03` is the hour
of the 12-hour clock.  So for every timestamp, the timestamp twelve hours later renders the
same; 13:05:09 and 01:05:09 of 4 July 2015 both render as `04/Jul/2015 01:05:09`, and
midnight renders with the hour `12`. -/
theorem C13_hour_is_on_the_twelve_hour_clock :
    (∀ t : time.Time, ({ t with Hour := t.Hour + 12 } : time.Time).Format timeFormat =
      t.Format timeFormat) ∧
    (⟨2015, 7, 4, 13, 5, 9⟩ : time.Time).Format timeFormat = "04/Jul/2015 01:05:09" ∧
    (⟨2015, 7, 4, 1, 5, 9⟩ : time.Time).Format timeFormat = "04/Jul/2015 01:05:09" ∧
    (⟨2015, 7, 4, 0, 5, 9⟩ : time.Time).Format timeFormat = "04/Jul/2015 12:05:09" := by
  refine ⟨fun t => ?_, by decide, by decide, by decide⟩
  have hc : time.chunks timeFormat.data =
      [.stdZeroDay, .lit '/', .stdMonth, .lit '/', .stdLongYear, .lit ' ', .stdZeroHour12,
        .lit ':', .stdZeroMinute, .lit ':', .stdZeroSecond] := by decide
  unfold time.Time.Format
  rw [hc]
  simp [time.formatChunk]

end useful

/-! ## The capture wrapper and the handler -/

namespace strings

theorem isPrefixOf_singleton_drop (s : List Char) (c : Char) (h : c ∉ s) (k : Nat) :
    [c].isPrefixOf (s.drop k) = false := by
  cases hd : s.drop k with
  | nil => rfl
  | cons x xs =>
    have hx : x ∈ s := List.mem_of_mem_drop (by rw [hd]; exact List.mem_cons_self x xs)
    have hne : c ≠ x := fun e => h (e ▸ hx)
    simp [List.isPrefixOf, hne]

theorem lastIndexBelow_none (s : List Char) (c : Char) (h : c ∉ s) (k : Nat) :
    lastIndexBelow s [c] k = -1 := by
  induction k with
  | zero => rfl
  | succ k ih => simp [lastIndexBelow, isPrefixOf_singleton_drop s c h k, ih]

theorem lastIndexBelow_found (host port : List Char) (c : Char) (h : c ∉ port) (j : Nat) :
    lastIndexBelow (host ++ c :: port) [c] (host.length + 1 + j) = (host.length : Int) := by
  induction j with
  | zero => simp [lastIndexBelow, List.isPrefixOf]
  | succ j ih =>
    have hd : (host ++ c :: port).drop (host.length + 1 + j) = port.drop j := by
      rw [Nat.add_assoc, ← List.drop_drop, List.drop_left, Nat.add_comm 1 j,
        List.drop_succ_cons]
    have : host.length + 1 + (j + 1) = (host.length + 1 + j) + 1 := by omega
    rw [this, lastIndexBelow, hd, isPrefixOf_singleton_drop port c h j]
    simpa using ih

theorem lastIndexBelow_range (s sep : List Char) (k : Nat) :
    -1 ≤ lastIndexBelow s sep k ∧ lastIndexBelow s sep k < (k : Int) := by
  induction k with
  | zero => simp [lastIndexBelow]
  | succ k ih =>
    unfold lastIndexBelow
    split
    · constructor <;> omega
    · constructor <;> omega

end strings

namespace useful

theorem clientIP_port (host port : String) (h : ':' ∉ port.data) :
    clientIP (host ++ ":" ++ port) = .ok host := by
  have hd : (host ++ ":" ++ port).data = host.data ++ ':' :: port.data := by
    simp [String.data_append]
  have hn : (host ++ ":" ++ port).length + 1 - ":".length = host.length + 1 + port.length := by
    have h1 : ":".length = 1 := rfl
    rw [h1, String.length_append, String.length_append]
    have h2 : ":".length = 1 := rfl
    omega
  have hl : strings.LastIndex (host ++ ":" ++ port) ":" = (host.length : Int) := by
    unfold strings.LastIndex
    rw [hd, hn]
    exact strings.lastIndexBelow_found host.data port.data ':' h port.length
  have hne : (host.length : Int) ≠ -1 := by omega
  have hle : host.length ≤ (host ++ ":" ++ port).length := by
    rw [String.length_append, String.length_append]
    omega
  unfold clientIP
  simp only [hl, hne, ne_eq, not_false_eq_true, if_true, strings.slice]
  rw [if_pos ⟨by omega, by omega, by exact_mod_cast hle⟩]
  simp only [Int.toNat_ofNat, Int.toNat_zero, List.drop_zero, hd]
  have ht : (host.data ++ ':' :: port.data).take host.length = host.data := by
    show (host.data ++ ':' :: port.data).take host.data.length = host.data
    exact List.take_left _ _
  rw [ht]

theorem clientIP_plain (addr : String) (h : ':' ∉ addr.data) : clientIP addr = .ok addr := by
  have hl : strings.LastIndex addr ":" = -1 :=
    strings.lastIndexBelow_none addr.data ':' h _
  unfold clientIP
  simp only [hl, ne_eq, not_true_eq_false, if_false]

theorem clientIP_ok (addr : String) : ∃ ip, clientIP addr = .ok ip := by
  have hr := strings.lastIndexBelow_range addr.data ":".data (addr.length + 1 - ":".length)
  have hlen : ((addr.length + 1 - ":".length : Nat) : Int) = addr.length := by
    have : ":".length = 1 := rfl
    rw [this]
    simp
  unfold clientIP
  by_cases hc : strings.LastIndex addr ":" = -1
  · exact ⟨addr, by simp [hc]⟩
  · have h0 : 0 ≤ strings.LastIndex addr ":" := by
      unfold strings.LastIndex at hc ⊢
      omega
    have h1 : strings.LastIndex addr ":" ≤ addr.length := by
      unfold strings.LastIndex
      omega
    simp [hc, strings.slice, h0, h1]

end useful

namespace useful

theorem serve_ip (record : ApacheLogRecord) (calls : List Call) :
    (record.serve calls).ip = record.ip := by
  induction calls generalizing record with
  | nil => rfl
  | cons c rest ih =>
    cases c with
    | Write p => rw [ApacheLogRecord.serve, ih]; rfl
    | WriteHeader status => rw [ApacheLogRecord.serve, ih]; rfl

theorem serve_status (record : ApacheLogRecord) (calls : List Call) :
    (record.serve calls).status = ((statuses calls).getLast?).getD record.status := by
  induction calls generalizing record with
  | nil => rfl
  | cons c rest ih =>
    cases c with
    | Write p => rw [ApacheLogRecord.serve, ih, statuses]; rfl
    | WriteHeader status =>
      rw [ApacheLogRecord.serve, ih, statuses]
      cases hs : statuses rest with
      | nil => rfl
      | cons x xs =>
        rw [List.getLast?_cons_cons, List.getLast?_eq_getLast (x :: xs) (List.cons_ne_nil x xs)]
        rfl

theorem record_ok (h : Handler) (l : Log) (rw : http.ResponseWriter) (r : http.Request)
    (finishTime : time.Time) (elapsed : Int) :
    ∃ record ip, h.record l rw r finishTime elapsed = .ok record ∧
      clientIP r.RemoteAddr = .ok ip ∧ record.ip = ip ∧
      record.status = ((statuses h.handler).getLast?).getD http.StatusOK ∧
      record.time = finishTime ∧ record.elapsedTime = elapsed := by
  obtain ⟨ip, hip⟩ := clientIP_ok r.RemoteAddr
  unfold Handler.record
  rw [hip]
  exact ⟨_, ip, rfl, rfl, serve_ip _ _, serve_status _ _, rfl, rfl⟩

/-- C14 (counterexample): a handler that calls `WriteHeader(404)` and then
`WriteHeader(500)` leaves the status 500 in the record, the code of the last call, while
the writer of the server sent the header with 404. -/
theorem C14_second_WriteHeader_overwrites_status :
    ((Handler.record { handler := [.WriteHeader 404, .WriteHeader 500] } demoWorld.LogFile {}
        { RemoteAddr := "1.2.3.4:5678" } ⟨2015, 7, 4, 13, 5, 9⟩ 1500000).map
      (fun record => (record.status, record.ResponseWriter.status))) = .ok (500, some 404) := by
  decide

/-- C14 (amended): every `WriteHeader` call overwrites the status of the record.  For
every record and every sequence of `WriteHeader` calls made on it, the status afterwards is
the code of the last call (the status before, when the sequence is empty).  And for every
handler, writer and request, `ServeHTTP` builds its record without a panic, with the status
`http.StatusOK` (200) when the handler made no `WriteHeader` call and otherwise the code of
its last `WriteHeader` call. -/
theorem C14_status_is_that_of_last_WriteHeader (h : Handler) (l : Log)
    (rw : http.ResponseWriter) (r : http.Request) (finishTime : time.Time) (elapsed : Int)
    (a : ApacheLogRecord) (codes : List Int) :
    (a.serve (codes.map Call.WriteHeader)).status = (codes.getLast?).getD a.status ∧
    ∃ record, h.record l rw r finishTime elapsed = .ok record ∧
      record.status = ((statuses h.handler).getLast?).getD 200 := by
  obtain ⟨record, ip, h1, _, _, h2, _⟩ := record_ok h l rw r finishTime elapsed
  refine ⟨?_, record, h1, h2⟩
  rw [serve_status]
  congr 2
  induction codes with
  | nil => rfl
  | cons c cs ih => rw [List.map_cons, statuses, ih]

/-- C14 at a concrete input: a handler that calls `WriteHeader(404)`, writes a byte and
calls `WriteHeader(500)`. -/
theorem C14_witness :
    (getRecord.serve ([404, 500].map Call.WriteHeader)).status = 500 ∧
    ∃ record,
      Handler.record { handler := [.WriteHeader 404, .Write "x", .WriteHeader 500] }
        demoWorld.LogFile {} { RemoteAddr := "1.2.3.4:5678" } ⟨2015, 7, 4, 13, 5, 9⟩ 1500000 =
        .ok record ∧ record.status = 500 :=
  C14_status_is_that_of_last_WriteHeader
    { handler := [.WriteHeader 404, .Write "x", .WriteHeader 500] } demoWorld.LogFile {}
    { RemoteAddr := "1.2.3.4:5678" } ⟨2015, 7, 4, 13, 5, 9⟩ 1500000 getRecord [404, 500]

/-- C15: for a remote address `host:port` whose port holds no colon, the `ip` of the record
that `ServeHTTP` builds is `host`; for a remote address with no colon it is the address
itself. -/
theorem C15_client_ip_is_address_without_port (h : Handler) (l : Log)
    (rw : http.ResponseWriter) (r : http.Request) (finishTime : time.Time) (elapsed : Int) :
    (∀ host port : String, ':' ∉ port.data → r.RemoteAddr = host ++ ":" ++ port →
      (h.record l rw r finishTime elapsed).map (fun record => record.ip) = .ok host) ∧
    (':' ∉ r.RemoteAddr.data →
      (h.record l rw r finishTime elapsed).map (fun record => record.ip) =
        .ok r.RemoteAddr) := by
  obtain ⟨record, ip, h1, h2, h3, _⟩ := record_ok h l rw r finishTime elapsed
  rw [h1]
  constructor
  · intro host port hp ha
    rw [ha, clientIP_port host port hp] at h2
    cases h2
    exact congrArg Except.ok h3
  · intro hp
    rw [clientIP_plain _ hp] at h2
    cases h2
    exact congrArg Except.ok h3

/-- C15 at a concrete input: the remote addresses `1.2.3.4:5678` and `@`. -/
theorem C15_witness :
    (Handler.record { handler := [.Write "hello"] } demoWorld.LogFile {}
        { RemoteAddr := "1.2.3.4:5678" } ⟨2015, 7, 4, 13, 5, 9⟩ 1500000).map
      (fun record => record.ip) = .ok "1.2.3.4" ∧
    (Handler.record { handler := [.Write "hello"] } demoWorld.LogFile {}
        { RemoteAddr := "@" } ⟨2015, 7, 4, 13, 5, 9⟩ 1500000).map
      (fun record => record.ip) = .ok "@" :=
  ⟨(C15_client_ip_is_address_without_port _ _ _ _ _ _).1 "1.2.3.4" "5678" (by decide) rfl,
    (C15_client_ip_is_address_without_port _ _ _ _ _ _).2 (by decide)⟩

/-- C18: `Hijack` is a total function of the record.  When the writer of the record has a
`Hijack` method, the result is what that method returns; when it has none, the result is a
nil connection, a nil buffer and the error `ErrUnHijackable`. -/
theorem C18_Hijack_delegates_or_reports (a : ApacheLogRecord) :
    (∀ hj : http.Hijacked, a.ResponseWriter.hijacker = some hj → a.Hijack = hj) ∧
    (a.ResponseWriter.hijacker = none →
      a.Hijack = { rwc := none, buf := none, err := some ErrUnHijackable }) := by
  constructor
  · intro hj h
    simp [ApacheLogRecord.Hijack, h]
  · intro h
    simp [ApacheLogRecord.Hijack, h]

/-- C18 at a concrete input: a writer whose `Hijack` returns connection 7 and buffer 8, and
a writer without a `Hijack` method. -/
theorem C18_witness :
    ApacheLogRecord.Hijack
        { getRecord with ResponseWriter := { hijacker := some { rwc := some 7, buf := some 8 } } } =
      { rwc := some 7, buf := some 8, err := none } ∧
    getRecord.Hijack = { rwc := none, buf := none, err := some ErrUnHijackable } :=
  ⟨(C18_Hijack_delegates_or_reports _).1 _ rfl, (C18_Hijack_delegates_or_reports _).2 rfl⟩

end useful

/-! ## Failures during rotation and archival -/

namespace useful

set_option maxRecDepth 8000 in
/-- C16 (what the code does): `Rotate` drops the result of `os.Rename`.  In a state whose
log file was unlinked the rename fails with `ENOENT`, and `Rotate` still returns without a
panic: it has opened a replacement file (a new `access.log`, inode 1), set the byte counter
to 0, put the temporary name back into the pool and started the archival of
`._archive000000001`, a file that does not exist; that archival then creates an empty
archive and panics when it opens the temporary file. -/
theorem C16_Rotate_continues_after_failed_rename :
    os.Rename unlinkedWorld.fs unlinkedWorld.LogFile.Opts.LogName "._archive000000001" =
      .error .ENOENT ∧
    (unlinkedWorld.LogFile.pool.get unlinkedWorld.toSys).1 = "._archive000000001" ∧
    (Rotate unlinkedWorld).map (fun w => (w.LogFile.file, w.LogFile.size, w.spawned)) =
      .ok (.reg 1, 0, ["._archive000000001"]) ∧
    (Rotate unlinkedWorld).map (fun w => (w.fs.links, w.LogFile.pool.c)) =
      .ok ([("access.log", 1)], ["._archive000000002", "._archive000000001"]) ∧
    ((Rotate unlinkedWorld).bind (fun w => doRotate id w "._archive000000001")).map
        (fun w => w.cur) = .error (.errno .ENOENT) := by
  decide

end useful

theorem lookup_filter_one (k : String) (l : List (String × Nat)) :
    (l.filter (fun e => e.1 != k)).lookup k = none := by
  induction l with
  | nil => rfl
  | cons a t ih =>
    rw [List.filter_cons]
    by_cases h : a.1 = k
    · have : (a.1 != k) = false := by rw [h]; simp
      rw [this]; exact ih
    · have h1 : (a.1 != k) = true := by simp [h]
      have h2 : (k == a.1) = false := by
        rw [beq_eq_false_iff_ne]; exact fun e => h e.symm
      rw [h1]
      simp only [if_true]
      rw [List.lookup_cons, h2]; exact ih

namespace os

theorem File.Write_append (fs : FileSys) (f : File) (p q : String) :
    (File.Write (File.Write fs f p).1 f q).1 = (File.Write fs f (p ++ q)).1 := by
  cases f with
  | Stdout => simp [File.Write, String.append_assoc]
  | Stderr => simp [File.Write, String.append_assoc]
  | dir d => simp [File.Write]
  | reg ino =>
    by_cases h : ino < fs.inodes.length
    · simp [File.Write, h, FileSys.content, List.getD_eq_getElem?_getD, String.append_assoc]
    · simp [File.Write, h]

theorem Remove_Write (fs : FileSys) (f : File) (p name : String) :
    Remove (File.Write fs f p).1 name =
      (Remove fs name).map (fun fs1 => (File.Write fs1 f p).1) := by
  have hl := (File.Write_frame fs f p).2
  unfold Remove
  simp only [hl]
  cases fs.links.lookup (filepath.Clean name) with
  | none => rfl
  | some i =>
    cases f with
    | Stdout => rfl
    | Stderr => rfl
    | dir d => rfl
    | reg ino =>
      by_cases h : ino < fs.inodes.length
      · simp [File.Write, h, Except.map, FileSys.content]
      · simp [File.Write, h, Except.map]

theorem Open_reg {fs fs1 : FileSys} {name : String} {ino : Nat}
    (h : Open fs name = .ok (fs1, .reg ino)) :
    fs.links.lookup (filepath.Clean name) = some ino := by
  unfold Open openFile at h
  simp only at h
  split at h
  · simp at h
  · split at h
    · rename_i i hl
      simp only [Bool.false_eq_true, if_false, Except.ok.injEq, Prod.mk.injEq,
        File.reg.injEq] at h
      rw [hl, h.2]
    · simp at h

theorem Create_empty {fs fs1 : FileSys} {name : String} {f : File}
    (h : Create fs name = .ok (fs1, f)) : ∃ a, f = .reg a ∧ fs1.content a = "" := by
  unfold Create openFile at h
  simp only at h
  split at h
  · simp at h
  · split at h
    · rename_i ino hl
      simp only [if_true, Except.ok.injEq, Prod.mk.injEq] at h
      obtain ⟨rfl, rfl⟩ := h
      refine ⟨ino, rfl, ?_⟩
      by_cases hi : ino < fs.inodes.length
      · exact content_set_same fs ino hi ""
      · have hn : (fs.inodes.set ino "")[ino]? = none := by
          rw [List.getElem?_eq_none_iff, List.length_set]; omega
        simp [FileSys.content, List.getD_eq_getElem?_getD, hn]
    · split at h
      · simp only [Except.ok.injEq, Prod.mk.injEq] at h
        obtain ⟨rfl, rfl⟩ := h
        exact ⟨fs.inodes.length, rfl, by simp [FileSys.content, List.getD_eq_getElem?_getD]⟩
      · simp at h

theorem File.Write_reg_content_of (fs fs0 : FileSys) (ino : Nat)
    (h : ino < fs.inodes.length) (h0 : fs0.inodes = fs.inodes) (p : String) :
    (File.Write fs0 (.reg ino) p).1.content ino = fs.content ino ++ p := by
  rw [File.Write_reg_content fs0 ino (h0 ▸ h) p]
  simp [FileSys.content, h0]

end os

namespace useful

/-- On a device that reports no error the general run of `doRotate` is the plain one: the
two parts of the compressed stream, written before and after the removal, make up the
whole stream. -/
theorem doRotateIn_no_error (f : Faults) (gzip : String → String) (w : World)
    (randName : String) (hc : f.copy = none) (hr : f.remove = none)
    (hz : f.gzwClose = none) :
    doRotateIn f gzip w randName = doRotate gzip w randName := by
  unfold doRotateIn doRotate
  simp only
  rcases os.Create w.fs (archiveName w.LogFile.Opts w.cur) with e | ⟨fs, archive⟩
  · rfl
  · simp only
    rcases os.Open fs randName with e | ⟨fs2, oldLog⟩
    · rfl
    · have hlevel : compress.gzip.NewWriterLevel compress.gzip.BestCompression = none := by
        decide
      simp only [hlevel]
      cases oldLog with
      | Stdout => rfl
      | Stderr => rfl
      | dir d => rfl
      | reg ino =>
        simp only [copyToGzip, hc, hr, deferred, hz]
        rw [os.Remove_Write, os.Remove_Write]
        cases os.Remove fs2 randName with
        | error e => rfl
        | ok fs3 =>
          simp only [Except.map]
          rw [os.File.Write_append]
          have : String.mk (List.take f.written (gzip (fs2.content ino)).data) ++
              String.mk (List.drop f.written (gzip (fs2.content ino)).data) =
              gzip (fs2.content ino) := by
            apply String.ext
            simp
          rw [this]

end useful

namespace useful

set_option maxRecDepth 8000 in
/-- C17 (counterexample): with the options of `app.go` the archive cannot be created (its
directory `log/archives/log` does not exist), and `doRotate` ends in a panic with
`ENOENT`; it also panics, after it created the archive, when the temporary file is
missing. -/
theorem C17_doRotate_panics_when_archive_cannot_be_created :
    (doRotate id appWorld "._archive000000001").map (fun w => w.cur) =
      .error (.errno .ENOENT) ∧
    (doRotate id archiveWorld "._archive000000009").map (fun w => w.cur) =
      .error (.errno .ENOENT) := by
  decide

/-- C17 (amended): archival is not best-effort.  For every state, temporary name and
behaviour of the device: if creating the archive fails with `e`, `doRotate` panics with
`e`; if opening the temporary file fails with `e`, it panics with `e`; if the temporary
name opens as a directory, so that `io.Copy` fails, it panics with `EISDIR`; if the device
fails `io.Copy` with `e`, it panics with `e`; if `os.Remove` fails with `e`, it panics
with `e`; `gzip.NewWriterLevel` has no error at `BestCompression`.  In every other run,
whatever the deferred `gzw.Close()`, `oldLog.Close()` and `archive.Close()` return,
`doRotate` returns normally with the index advanced and the temporary file removed; the
archive then holds the whole compressed stream if `gzw.Close()` had no error, and only
the bytes written during `io.Copy` if it had one. -/
theorem C17_doRotate_panics_on_checked_failures (f : Faults) (gzip : String → String)
    (w : World) (randName : String) :
    (∀ e, os.Create w.fs (archiveName w.LogFile.Opts w.cur) = .error e →
      doRotateIn f gzip w randName = .error (.errno e)) ∧
    (∀ e fs archive, os.Create w.fs (archiveName w.LogFile.Opts w.cur) = .ok (fs, archive) →
      os.Open fs randName = .error e → doRotateIn f gzip w randName = .error (.errno e)) ∧
    (∀ fs archive fs2 p, os.Create w.fs (archiveName w.LogFile.Opts w.cur) = .ok (fs, archive) →
      os.Open fs randName = .ok (fs2, .dir p) →
      doRotateIn f gzip w randName = .error (.errno .EISDIR)) ∧
    (∀ e fs archive fs2 ino,
      os.Create w.fs (archiveName w.LogFile.Opts w.cur) = .ok (fs, archive) →
      os.Open fs randName = .ok (fs2, .reg ino) → f.copy = some e →
      doRotateIn f gzip w randName = .error (.errno e)) ∧
    (∀ e fs archive fs2 ino,
      os.Create w.fs (archiveName w.LogFile.Opts w.cur) = .ok (fs, archive) →
      os.Open fs randName = .ok (fs2, .reg ino) → f.copy = none → f.remove = some e →
      doRotateIn f gzip w randName = .error (.errno e)) ∧
    compress.gzip.NewWriterLevel compress.gzip.BestCompression = none ∧
    (∀ fs a fs2 ino,
      os.Create w.fs (archiveName w.LogFile.Opts w.cur) = .ok (fs, .reg a) →
      os.Open fs randName = .ok (fs2, .reg ino) → f.copy = none → f.remove = none →
      ∃ w1, doRotateIn f gzip w randName = .ok w1 ∧ w1.cur = wrap64 (w.cur + 1) ∧
        w1.fs.find randName = none ∧
        (a < fs.inodes.length →
          w1.fs.content a =
            if f.gzwClose = none then gzip (fs.content ino)
            else String.mk ((gzip (fs.content ino)).data.take f.written))) := by
  have hlevel : compress.gzip.NewWriterLevel compress.gzip.BestCompression = none := by
    decide
  refine ⟨fun e h => ?_, fun e fs archive h1 h2 => ?_, fun fs archive fs2 p h1 h2 => ?_,
    fun e fs archive fs2 ino h1 h2 h3 => ?_, fun e fs archive fs2 ino h1 h2 h3 h4 => ?_,
    hlevel, fun fs a fs2 ino h1 h2 h3 h4 => ?_⟩
  · simp only [doRotateIn, h]
  · simp only [doRotateIn, h1, h2]
  · simp only [doRotateIn, h1, h2, hlevel, copyToGzip]
  · simp only [doRotateIn, h1, h2, hlevel, copyToGzip, h3]
  · simp only [doRotateIn, h1, h2, hlevel, copyToGzip, h3, h4]
  · have hfs := os.Open_fs h2
    subst hfs
    have hlook := os.Open_reg h2
    obtain ⟨a2, ha2, hempty⟩ := os.Create_empty h1
    have haa : a2 = a := (os.File.reg.inj ha2).symm
    subst haa
    have hrm : ∀ fs0 : os.FileSys, fs0.links = fs2.links →
        os.Remove fs0 randName =
          .ok { fs0 with links := fs0.links.filter (fun e => e.1 != filepath.Clean randName) } := by
      intro fs0 h0
      simp only [os.Remove, h0, hlook]
    have hw1 := os.File.Write_frame fs2 (.reg a2)
      (String.mk ((gzip (fs2.content ino)).data.take f.written))
    simp only [doRotateIn, h1, h2, hlevel, copyToGzip, h3, h4, hrm _ hw1.2]
    refine ⟨_, rfl, rfl, ?_, ?_⟩
    · cases hz : f.gzwClose with
      | none =>
        simp only [deferred, hz, os.FileSys.find, (os.File.Write_frame _ _ _).2]
        exact lookup_filter_one _ _
      | some e =>
        simp only [deferred, hz, os.FileSys.find, (os.File.Write_frame _ _ _).2]
        exact lookup_filter_one _ _
    · intro hlt
      cases hz : f.gzwClose with
      | none =>
        simp only [deferred, hz, if_true]
        refine (os.File.Write_reg_content_of
          (os.File.Write fs2 (.reg a2)
            (String.mk ((gzip (fs2.content ino)).data.take f.written))).1 _ a2
          (by rw [os.File.Write_inodes_length]; exact hlt) (by rfl) _).trans ?_
        rw [os.File.Write_reg_content fs2 a2 hlt, hempty]
        apply String.ext
        simp
      | some e =>
        simp only [deferred, hz]
        show (os.File.Write fs2 (.reg a2)
          (String.mk ((gzip (fs2.content ino)).data.take f.written))).1.content a2 = _
        rw [os.File.Write_reg_content fs2 a2 hlt, hempty]
        apply String.ext
        simp

set_option maxRecDepth 8000 in
/-- C17 at concrete inputs: the archive directory is missing (`appWorld`); the temporary
file is missing; the temporary name is a directory; the device fails the copy; the
removal is refused; and a run in which `gzw.Close()` fails after three bytes of the stream
reached the archive and `archive.Close()` fails too: `doRotate` returns, the temporary
file is gone and the archive holds three bytes. -/
theorem C17_witness :
    doRotateIn {} id appWorld "._archive000000001" = .error (.errno .ENOENT) ∧
    doRotateIn {} id archiveWorld "._archive000000009" = .error (.errno .ENOENT) ∧
    doRotateIn {} id archiveWorld "archives" = .error (.errno .EISDIR) ∧
    doRotateIn { copy := some .EDQUOT } id archiveWorld "._archive000000001" =
      .error (.errno .EDQUOT) ∧
    doRotateIn { remove := some .EACCES } id archiveWorld "._archive000000001" =
      .error (.errno .EACCES) ∧
    ∃ w1, doRotateIn { written := 3, gzwClose := some .ENOSPC, archiveClose := some .EDQUOT } id
        archiveWorld "._archive000000001" = .ok w1 ∧
      w1.cur = 1 ∧ w1.fs.find "._archive000000001" = none ∧
      (3 < 4 → w1.fs.content 3 = "fir") :=
  ⟨(C17_doRotate_panics_on_checked_failures {} id appWorld "._archive000000001").1 .ENOENT
      (by decide),
    (C17_doRotate_panics_on_checked_failures {} id archiveWorld "._archive000000009").2.1
      .ENOENT
      { dirs := [".", "archives"],
        links := [("archives/access.log#0000000000_.gz", 3), ("access.log", 0),
          ("._archive000000001", 1), ("._archive000000002", 2)],
        inodes := ["", "first lines", "next lines", ""] }
      (.reg 3) (by decide) (by decide),
    (C17_doRotate_panics_on_checked_failures {} id archiveWorld "archives").2.2.1
      { dirs := [".", "archives"],
        links := [("archives/access.log#0000000000_.gz", 3), ("access.log", 0),
          ("._archive000000001", 1), ("._archive000000002", 2)],
        inodes := ["", "first lines", "next lines", ""] }
      (.reg 3)
      { dirs := [".", "archives"],
        links := [("archives/access.log#0000000000_.gz", 3), ("access.log", 0),
          ("._archive000000001", 1), ("._archive000000002", 2)],
        inodes := ["", "first lines", "next lines", ""] }
      "archives" (by decide) (by decide),
    (C17_doRotate_panics_on_checked_failures { copy := some .EDQUOT } id archiveWorld
      "._archive000000001").2.2.2.1 .EDQUOT
      { dirs := [".", "archives"],
        links := [("archives/access.log#0000000000_.gz", 3), ("access.log", 0),
          ("._archive000000001", 1), ("._archive000000002", 2)],
        inodes := ["", "first lines", "next lines", ""] }
      (.reg 3)
      { dirs := [".", "archives"],
        links := [("archives/access.log#0000000000_.gz", 3), ("access.log", 0),
          ("._archive000000001", 1), ("._archive000000002", 2)],
        inodes := ["", "first lines", "next lines", ""] }
      1 (by decide) (by decide) rfl,
    (C17_doRotate_panics_on_checked_failures { remove := some .EACCES } id archiveWorld
      "._archive000000001").2.2.2.2.1 .EACCES
      { dirs := [".", "archives"],
        links := [("archives/access.log#0000000000_.gz", 3), ("access.log", 0),
          ("._archive000000001", 1), ("._archive000000002", 2)],
        inodes := ["", "first lines", "next lines", ""] }
      (.reg 3)
      { dirs := [".", "archives"],
        links := [("archives/access.log#0000000000_.gz", 3), ("access.log", 0),
          ("._archive000000001", 1), ("._archive000000002", 2)],
        inodes := ["", "first lines", "next lines", ""] }
      1 (by decide) (by decide) rfl rfl,
    (C17_doRotate_panics_on_checked_failures
      { written := 3, gzwClose := some .ENOSPC, archiveClose := some .EDQUOT } id archiveWorld
      "._archive000000001").2.2.2.2.2.2
      { dirs := [".", "archives"],
        links := [("archives/access.log#0000000000_.gz", 3), ("access.log", 0),
          ("._archive000000001", 1), ("._archive000000002", 2)],
        inodes := ["", "first lines", "next lines", ""] }
      3
      { dirs := [".", "archives"],
        links := [("archives/access.log#0000000000_.gz", 3), ("access.log", 0),
          ("._archive000000001", 1), ("._archive000000002", 2)],
        inodes := ["", "first lines", "next lines", ""] }
      1 (by decide) (by decide) rfl rfl⟩

end useful

/-! ## The pool of temporary names -/

namespace useful

theorem PoolRun.step_made (st st1 : PoolRun) (op : PoolOp) (h : st.step op = some st1) :
    ∃ l, st1.made = st.made ++ l := by
  cases op with
  | get =>
    simp only [PoolRun.step, Option.some.injEq] at h
    subst h
    by_cases hc : st.pool.c.isEmpty
    · exact ⟨[(st.pool.get st.sys).1], by simp only [hc, if_true]⟩
    · exact ⟨[], by simp [hc]⟩
  | put name =>
    simp only [PoolRun.step] at h
    split at h
    · cases h
      exact ⟨[], by simp⟩
    · cases h

theorem PoolRun.run_made (st st1 : PoolRun) (ops : List PoolOp) (h : st.run ops = some st1) :
    ∃ l, st1.made = st.made ++ l := by
  induction ops generalizing st with
  | nil =>
    simp only [PoolRun.run, Option.some.injEq] at h
    subst h
    exact ⟨[], by simp⟩
  | cons op rest ih =>
    simp only [PoolRun.run] at h
    cases hs : st.step op with
    | none => rw [hs] at h; cases h
    | some st2 =>
      rw [hs] at h
      obtain ⟨l1, h1⟩ := PoolRun.step_made st st2 op hs
      obtain ⟨l2, h2⟩ := ih st2 h
      exact ⟨l1 ++ l2, by rw [h2, h1, List.append_assoc]⟩

theorem PoolRun.step_Inv (st st1 : PoolRun) (op : PoolOp) (hi : st.Inv)
    (h : st.step op = some st1) (hd : st1.made.Nodup) : st1.Inv := by
  obtain ⟨hn, hsub⟩ := hi
  cases op with
  | get =>
    simp only [PoolRun.step, Option.some.injEq] at h
    subst h
    cases hc : st.pool.c with
    | nil =>
      have hp : (st.pool.get st.sys).2.1.c = [] := by simp [randPool.get, hc]
      rw [hc] at hn hsub
      simp only [hc, List.isEmpty_nil, if_true] at hd
      have hnew : (st.pool.get st.sys).1 ∉ st.made :=
        fun hm => (List.nodup_append.1 hd).2.2 hm (List.mem_singleton_self _)
      constructor
      · show ((st.pool.get st.sys).2.1.c ++ (st.pool.get st.sys).1 :: st.held).Nodup
        rw [hp, List.nil_append]
        exact List.nodup_cons.2 ⟨fun hm => hnew (hsub _ (by simpa using hm)), by simpa using hn⟩
      · intro x hx
        change x ∈ (st.pool.get st.sys).2.1.c ++ (st.pool.get st.sys).1 :: st.held at hx
        rw [hp, List.nil_append, List.mem_cons] at hx
        simp only [hc, List.isEmpty_nil, if_true, List.mem_append, List.mem_singleton]
        rcases hx with hx | hx
        · exact Or.inr hx
        · exact Or.inl (hsub x (by simpa using hx))
    | cons name rest =>
      have hp : (st.pool.get st.sys).2.1.c = rest := by simp [randPool.get, hc]
      have hname : (st.pool.get st.sys).1 = name := by simp [randPool.get, hc]
      rw [hc] at hn hsub
      constructor
      · show ((st.pool.get st.sys).2.1.c ++ (st.pool.get st.sys).1 :: st.held).Nodup
        rw [hp, hname]
        exact (List.perm_middle.nodup_iff).2 (by simpa using hn)
      · intro x hx
        change x ∈ (st.pool.get st.sys).2.1.c ++ (st.pool.get st.sys).1 :: st.held at hx
        rw [hp, hname, List.mem_append, List.mem_cons] at hx
        simp only [hc, List.isEmpty_cons, Bool.false_eq_true, if_false]
        apply hsub
        simp only [List.cons_append, List.mem_cons, List.mem_append]
        tauto
  | put name =>
    simp only [PoolRun.step] at h
    split at h
    · rename_i hmem
      cases h
      have hperm : st.held.Perm (name :: st.held.erase name) := List.perm_cons_erase hmem
      by_cases hlt : st.pool.c.length < st.pool.cap
      · constructor
        · simp only [randPool.put, hlt, if_true, List.append_assoc, List.singleton_append]
          exact ((List.Perm.append_left _ hperm).nodup_iff).1 hn
        · intro x hx
          simp only [randPool.put, hlt, if_true, List.append_assoc, List.singleton_append] at hx
          exact hsub x (((List.Perm.append_left _ hperm).mem_iff).2 hx)
      · constructor
        · simp only [randPool.put, hlt, if_false]
          exact hn.sublist (List.Sublist.append_left (List.erase_sublist _ _) _)
        · intro x hx
          simp only [randPool.put, hlt, if_false] at hx
          exact hsub x ((List.Sublist.append_left (List.erase_sublist _ _) _).subset hx)
    · cases h

theorem PoolRun.run_Inv (st st1 : PoolRun) (ops : List PoolOp) (hi : st.Inv)
    (h : st.run ops = some st1) (hd : st1.made.Nodup) : st1.Inv := by
  induction ops generalizing st with
  | nil =>
    simp only [PoolRun.run, Option.some.injEq] at h
    subst h
    exact hi
  | cons op rest ih =>
    simp only [PoolRun.run] at h
    cases hs : st.step op with
    | none => rw [hs] at h; cases h
    | some st2 =>
      rw [hs] at h
      obtain ⟨l, hl⟩ := PoolRun.run_made st2 st1 rest h
      have hd2 : st2.made.Nodup := by
        rw [hl] at hd
        exact hd.of_append_left
      exact ih st2 (PoolRun.step_Inv st st2 op hi hs hd2) h

set_option maxRecDepth 20000 in
/-- C19 (counterexample): with a clock whose readings agree in their low 32 bits on the
state that the generator sends to 0, every name is `._archive000000000`.  The pool of
`newRandPool(1)` hands this name out on the first `get` and again on the second, which
makes its name anew; the pool of `newRandPool(2)` holds the name twice and hands it out
twice.  No `put` happens in between. -/
theorem C19_same_name_handed_out_twice :
    ((PoolRun.start 1 stuckClock).run [.get, .get]).map (fun st => st.held) =
      some ["._archive000000000", "._archive000000000"] ∧
    (PoolRun.start 2 stuckClock).pool.c = ["._archive000000000", "._archive000000000"] ∧
    ((PoolRun.start 2 stuckClock).run [.get, .get]).map (fun st => st.held) =
      some ["._archive000000000", "._archive000000000"] := by
  decide

/-- C19 (amended): provided the names that `randName` made for the pool (those pooled by
`newRandPool` and those made by `get` on an empty pool) are pairwise distinct, no name is
handed out twice at the same time.  For every pool built by `newRandPool` and every
sequence of `get` and `put` calls in which `put` only returns a name that is held, the
names held at the end are pairwise distinct and none of them is in the pool. -/
theorem C19_no_name_held_twice (n : Nat) (s : Sys) (ops : List PoolOp) (st : PoolRun)
    (hrun : (PoolRun.start n s).run ops = some st) (hmade : st.made.Nodup) :
    st.held.Nodup ∧ ∀ x ∈ st.held, x ∉ st.pool.c := by
  obtain ⟨l, hl⟩ := PoolRun.run_made _ st ops hrun
  have h0 : (PoolRun.start n s).Inv := by
    constructor
    · rw [hl] at hmade
      simpa [PoolRun.start] using hmade.of_append_left
    · intro x hx
      simpa [PoolRun.start] using hx
  have hinv := PoolRun.run_Inv _ st ops h0 hrun hmade
  refine ⟨hinv.1.of_append_right, fun x hx hp => ?_⟩
  exact (List.nodup_append.1 hinv.1).2.2 hp hx

set_option maxRecDepth 20000 in
/-- C19 at a concrete input: a pool of two names, three `get` calls (the third makes a
name), the first name put back and handed out again. -/
theorem C19_witness :
    ∃ st, (PoolRun.start 2 freshSys).run
        [.get, .get, .get, .put "._archive555695684", .get] = some st ∧
      st.made = ["._archive555695684", "._archive129014995", "._archive542191126"] ∧
      st.made.Nodup ∧ st.held.Nodup ∧ ∀ x ∈ st.held, x ∉ st.pool.c := by
  rcases h : (PoolRun.start 2 freshSys).run
      [.get, .get, .get, .put "._archive555695684", .get] with _ | st
  · have hs : ((PoolRun.start 2 freshSys).run
        [.get, .get, .get, .put "._archive555695684", .get]).isSome = true := by decide
    rw [h] at hs
    cases hs
  · have hm : ((PoolRun.start 2 freshSys).run
        [.get, .get, .get, .put "._archive555695684", .get]).map (fun st => st.made) =
        some ["._archive555695684", "._archive129014995", "._archive542191126"] := by decide
    rw [h] at hm
    have hm1 : st.made = ["._archive555695684", "._archive129014995", "._archive542191126"] :=
      Option.some.inj hm
    have hmade : st.made.Nodup := by
      rw [hm1]
      decide
    exact ⟨st, rfl, hm1, hmade, C19_no_name_held_twice 2 freshSys _ st h hmade⟩

end useful

/-! ## The shutdown hooks -/

namespace cleanup

open reflect

theorem argvLoop_slice (f : Func) (dddType : Option Typ) (i : Nat) (args : List Plain)
    (argv : List Value) (h : argvLoop f dddType i [.slice args] = .ok argv) :
    argv = [.of (.slice args)] := by
  simp only [argvLoop, ValueOf, Value.IsValid, Bool.not_true, Bool.false_and,
    Bool.false_eq_true, if_false, Value.Type] at h
  split at h
  · cases h
  · split at h
    · cases h
    · cases h
      rfl

theorem call_slice (fn : Fn) (args : List Plain) (name : String) (argv : List Value)
    (h : call fn [.slice args] = .called name argv) : argv = [.of (.slice args)] := by
  unfold call at h
  split at h
  · cases h
  · cases h
  · rename_i f
    simp only at h
    split at h
    · cases h
    · split at h
      · cases h
      · split at h
        · rename_i e he
          subst h
          simp only [argvLoop, ValueOf, Value.IsValid, Bool.not_true, Bool.false_and,
            Bool.false_eq_true, if_false, Value.Type] at he
          split at he
          · cases he
          · split at he
            · cases he
            · cases he
        · rename_i argv1 he
          cases h
          exact argvLoop_slice _ _ _ _ _ he

theorem RunLoop_argv (r : Registry) (entries : List (String × Fn)) (c : String × List Value)
    (h : c ∈ (RunLoop r entries).1) : ∃ args, c.2 = [.of (.slice args)] := by
  induction entries with
  | nil => simp [RunLoop] at h
  | cons e rest ih =>
    obtain ⟨key, val⟩ := e
    simp only [RunLoop] at h
    split at h
    · simp at h
    · exact ih h
    · rename_i name argv hc
      rcases List.mem_cons.1 h with h1 | h1
      · exact ⟨_, by rw [h1]; exact call_slice _ _ _ _ hc⟩
      · exact ih h1

/-- C20 (what the code does): `Run` passes the slice `args` to `call` as one operand
(`call(val, args)`, not `call(val, args...)`), so `call` always sees one argument, the
`[]interface{}` of the registered arguments.  For the two functions that `app.go`
registers, both of no parameters, `call` returns "wrong number of args: got 1 want 0",
`Run` drops the error and calls neither; a `func(int)` registered with one `int` is not
called either; and whatever `Run` does call, for every registry, gets the slice as its
only argument.  With the registered arguments as operands `call` does reach the call of
`Close`. -/
theorem C20_Run_calls_no_function_of_app :
    ((Register {} "glog" glogFlush []).bind (fun r => Register r "useful" logClose [])) =
      some appRegistry ∧
    Run appRegistry = ([], false) ∧
    call logClose [.slice []] = .failed (.wrongNumber 1 0) ∧
    call logClose [] = .called "useful.LogFile.Close" [] ∧
    Run exitRegistry = ([], false) ∧
    call (.func { name := "exit", ins := [.int] }) [.plain (.int 3)] =
      .called "exit" [.of (.plain (.int 3))] ∧
    ∀ (r : Registry) (c : String × List Value), c ∈ (Run r).1 →
      ∃ args, c.2 = [.of (.slice args)] := by
  refine ⟨by decide, by decide, by decide, by decide, by decide, by decide, ?_⟩
  intro r c h
  exact RunLoop_argv r r.funcMap c h

end cleanup

/-! ## Temporary names: synthesis, suffixes and the bound of the pool -/

namespace useful

theorem IsExist_Stat (fs : os.FileSys) (name : String) :
    os.IsExist (os.Stat fs name) = false := by
  unfold os.Stat os.IsExist
  by_cases h : (fs.dirs.contains (filepath.Clean name) ||
      (List.lookup (filepath.Clean name) fs.links).isSome) = true
  · simp only [h, if_true]
    rfl
  · simp only [h, if_false]
    rfl

theorem randName_first (pre : String) (s : Sys) :
    randName pre s = (pre ++ (nextSuffix s).1, (nextSuffix s).2) := by
  show randNameLoop pre (9999 + 1) 0 "" s = _
  rw [randNameLoop]
  simp only [IsExist_Stat, Bool.false_eq_true, if_false]

theorem decimalPadded_lead (w : Nat) :
    ∀ (a x : Nat), a < 10 → x < 10 ^ w →
      decimalPadded (w + 1) (10 ^ w * a + x) = Nat.digitChar a :: decimalPadded w x := by
  induction w with
  | zero =>
    intro a x ha hx
    have hx0 : x = 0 := by simpa using hx
    subst hx0
    simp [decimalPadded, Nat.mod_eq_of_lt ha]
  | succ k ih =>
    intro a x ha hx
    have hd : decimalPadded (k + 1 + 1) (10 ^ (k + 1) * a + x) =
        decimalPadded (k + 1) ((10 ^ (k + 1) * a + x) / 10) ++
          [Nat.digitChar ((10 ^ (k + 1) * a + x) % 10)] := rfl
    have hdiv : (10 ^ (k + 1) * a + x) / 10 = 10 ^ k * a + x / 10 := by
      rw [pow_succ, Nat.mul_comm (10 ^ k) 10, Nat.mul_assoc, Nat.mul_add_div (by norm_num)]
    have hmod : (10 ^ (k + 1) * a + x) % 10 = x % 10 := by
      rw [pow_succ, Nat.mul_comm (10 ^ k) 10, Nat.mul_assoc, Nat.mul_add_mod]
    have hx10 : x / 10 < 10 ^ k := by
      rw [Nat.div_lt_iff_lt_mul (by norm_num)]
      rw [pow_succ] at hx
      exact hx
    rw [hd, hdiv, hmod, ih a (x / 10) ha hx10]
    rfl

theorem decimalPadded_digit (w : Nat) :
    ∀ (n : Nat) (c : Char), c ∈ decimalPadded w n → c.isDigit = true := by
  induction w with
  | zero => intro n c h; simp [decimalPadded] at h
  | succ k ih =>
    intro n c h
    simp only [decimalPadded, List.mem_append, List.mem_singleton] at h
    rcases h with h | h
    · exact ih _ _ h
    · subst h
      have hlt : n % 10 < 10 := Nat.mod_lt _ (by norm_num)
      generalize n % 10 = d at hlt
      interval_cases d <;> rfl

theorem repr_lead (x : Nat) (hx : x < 10 ^ 9) :
    (Nat.repr (10 ^ 9 * 1 + x)).data = '1' :: decimalPadded 9 x := by
  have hn : 10 ^ 9 * 1 + x < 10 ^ (9 + 1) := by
    have : (10 : Nat) ^ (9 + 1) = 10 ^ 9 * 10 := pow_succ 10 9
    omega
  have h := toDigitsCore_padded 9 (10 ^ 9 * 1 + x + 1) (10 ^ 9 * 1 + x) hn (by omega)
  rw [decimalPadded_lead 9 1 x (by norm_num) hx] at h
  have hlen : (Nat.toDigitsCore 10 (10 ^ 9 * 1 + x + 1) (10 ^ 9 * 1 + x) []).length = 9 + 1 := by
    have hl := congrArg List.length h
    simp only [List.length_append, List.length_replicate, List.length_cons,
      decimalPadded_length] at hl
    by_contra hne
    have hpos : 0 < 9 + 1 -
        (Nat.toDigitsCore 10 (10 ^ 9 * 1 + x + 1) (10 ^ 9 * 1 + x) []).length := by omega
    obtain ⟨m, hm⟩ : ∃ m, 9 + 1 -
        (Nat.toDigitsCore 10 (10 ^ 9 * 1 + x + 1) (10 ^ 9 * 1 + x) []).length = m + 1 :=
      ⟨_, (Nat.succ_pred_eq_of_pos hpos).symm⟩
    rw [hm, List.replicate_succ, List.cons_append] at h
    have := (List.cons.inj h).1
    exact absurd this (by decide)
  rw [hlen] at h
  simpa [Nat.repr, Nat.toDigits] using h

theorem suffixOf_eq (r : Nat) : suffixOf r = String.mk (decimalPadded 9 (r % 10 ^ 9)) := by
  have hx : r % 10 ^ 9 < 10 ^ 9 := Nat.mod_lt _ (by norm_num)
  have h9 : (1000000000 : Nat) = 10 ^ 9 := by norm_num
  unfold suffixOf strconv.Itoa
  rw [h9]
  generalize r % 10 ^ 9 = x at hx
  have hmod : (10 ^ 9 + x) % 2 ^ 32 = 10 ^ 9 * 1 + x := by
    rw [Nat.mul_one]
    exact Nat.mod_eq_of_lt (by
      have : (10 : Nat) ^ 9 + 10 ^ 9 < 2 ^ 32 := by norm_num
      omega)
  rw [hmod]
  have hneg : ¬ (((10 ^ 9 * 1 + x : Nat) : Int) < 0) := by omega
  rw [if_neg hneg, Int.natAbs_ofNat, repr_lead x hx]
  rfl

theorem nextSuffix_rand (s : Sys) :
    (nextSuffix s).2.rand =
      ((if s.rand = 0 then uint32 (s.now s.reseeds) else s.rand) * 1664525 + 1013904223) %
        2 ^ 32 := by
  have h1 : (nextSuffix s).2.rand = lcg (seeded s).1 := rfl
  have h2 : (seeded s).1 = if s.rand = 0 then uint32 (s.now s.reseeds) else s.rand := by
    unfold seeded
    split <;> rfl
  rw [h1, h2, lcg, Nat.add_comm]

theorem put_full (p : randPool) (name : String) (h : p.cap ≤ p.c.length) : p.put name = p := by
  unfold randPool.put
  rw [if_neg (by omega)]

theorem put_room (p : randPool) (name : String) (h : p.c.length < p.cap) :
    (p.put name).c = p.c ++ [name] ∧ (p.put name).cap = p.cap := by
  unfold randPool.put
  rw [if_pos h]
  exact ⟨rfl, rfl⟩

theorem put_bound (p : randPool) (name : String) (h : p.c.length ≤ p.cap) :
    (p.put name).c.length ≤ (p.put name).cap ∧ (p.put name).cap = p.cap := by
  by_cases hlt : p.c.length < p.cap
  · obtain ⟨h1, h2⟩ := put_room p name hlt
    rw [h1, h2, List.length_append, List.length_singleton]
    exact ⟨hlt, rfl⟩
  · rw [put_full p name (by omega)]
    exact ⟨h, rfl⟩

theorem get_bound (p : randPool) (s : Sys) (h : p.c.length ≤ p.cap) :
    (p.get s).2.1.c.length ≤ (p.get s).2.1.cap ∧ (p.get s).2.1.cap = p.cap := by
  unfold randPool.get
  cases hc : p.c with
  | nil => simp [hc] at h ⊢
  | cons name rest =>
    rw [hc] at h
    simp only [List.length_cons] at h
    exact ⟨by show rest.length ≤ p.cap; omega, rfl⟩

theorem calls_bound (ops : List PoolOp) :
    ∀ (p : randPool) (s : Sys), p.c.length ≤ p.cap →
      (p.calls s ops).1.c.length ≤ p.cap ∧ (p.calls s ops).1.cap = p.cap := by
  induction ops with
  | nil => intro p s h; exact ⟨h, rfl⟩
  | cons op rest ih =>
    intro p s h
    have hstep : (p.call s op).1.c.length ≤ (p.call s op).1.cap ∧ (p.call s op).1.cap = p.cap := by
      cases op with
      | get => exact get_bound p s h
      | put name => exact put_bound p name h
    have := ih (p.call s op).1 (p.call s op).2 hstep.1
    rw [hstep.2] at this
    exact this

theorem newRandPoolLoop_length (k : Nat) :
    ∀ (p : randPool) (s : Sys), p.c.length + k ≤ p.cap →
      (newRandPoolLoop k p s).1.c.length = p.c.length + k ∧
      (newRandPoolLoop k p s).1.cap = p.cap := by
  induction k with
  | zero => intro p s _; exact ⟨rfl, rfl⟩
  | succ k ih =>
    intro p s h
    obtain ⟨h1, h2⟩ := put_room p (randName archPrefix s).1 (by omega)
    have := ih (p.put (randName archPrefix s).1) (randName archPrefix s).2 (by
      rw [h1, h2, List.length_append, List.length_singleton]; omega)
    rw [h1, h2, List.length_append, List.length_singleton] at this
    have hunf : newRandPoolLoop (k + 1) p s =
        newRandPoolLoop k (p.put (randName archPrefix s).1) (randName archPrefix s).2 := rfl
    rw [hunf]
    exact ⟨by omega, this.2⟩

theorem newRandPool_length (n : Nat) (s : Sys) :
    (newRandPool n s).1.c.length = n ∧ (newRandPool n s).1.cap = n := by
  have := newRandPoolLoop_length n { c := [], cap := n } s (by simp)
  simpa [newRandPool] using this

set_option maxRecDepth 20000 in
/-- C26 (what the code does): `randName` tests `os.IsExist(err)` on the error of
`os.Stat`, and that test is false for every file system and every name (the error is nil
for a name that exists and "not exist" otherwise).  So the loop never goes round again:
for every state `randName` returns the first candidate, whether a file of that name exists
or not.  In a state where `._archive555695684` exists, that is the name returned. -/
theorem C26_randName_returns_first_candidate :
    (∀ (fs : os.FileSys) (name : String), os.IsExist (os.Stat fs name) = false) ∧
    (∀ (pre : String) (s : Sys),
      randName pre s = (pre ++ (nextSuffix s).1, (nextSuffix s).2)) ∧
    os.Stat clashSys.fs "._archive555695684" = none ∧
    clashSys.fs.read "._archive555695684" = some "kept" ∧
    (randName archPrefix clashSys).1 = "._archive555695684" ∧
    (randName archPrefix clashSys).2.reseeds = 1 := by
  refine ⟨IsExist_Stat, randName_first, by decide, by decide, by decide, by decide⟩

/-- C27 (counterexample): from the generator state 0 with a clock reading of 5,
`nextSuffix` leaves the state at 5 * 1664525 + 1013904223 = 1022226848, not at
0 * 1664525 + 1013904223: a state of 0 is replaced by the reading of the clock first. -/
theorem C27_zero_state_is_reseeded_first :
    zeroSeedSys.rand = 0 ∧
    (nextSuffix zeroSeedSys).2.rand = 1022226848 ∧
    (nextSuffix zeroSeedSys).2.rand ≠ (zeroSeedSys.rand * 1664525 + 1013904223) % 2 ^ 32 := by
  decide

/-- C27 (amended): for every state of the process, `nextSuffix` starts from the generator
state, or from the low 32 bits of the clock reading when the generator state is 0, and
advances it to `r = start * 1664525 + 1013904223` modulo 2^32.  It returns exactly 9
decimal digits, the decimal expansion of `r mod 10^9` with zeros in front; the sum
`10^9 + r mod 10^9` is below 2^32; and the name `randName` makes is `._archive` followed
by these 9 digits. -/
theorem C27_nextSuffix_is_nine_digits (s : Sys) :
    (nextSuffix s).2.rand =
      ((if s.rand = 0 then uint32 (s.now s.reseeds) else s.rand) * 1664525 + 1013904223) %
        2 ^ 32 ∧
    (nextSuffix s).1 = String.mk (decimalPadded 9 ((nextSuffix s).2.rand % 10 ^ 9)) ∧
    (nextSuffix s).1.length = 9 ∧
    (∀ c ∈ (nextSuffix s).1.data, c.isDigit = true) ∧
    10 ^ 9 + (nextSuffix s).2.rand % 10 ^ 9 < 2 ^ 32 ∧
    (randName archPrefix s).1 = "._archive" ++ (nextSuffix s).1 := by
  have h1 : (nextSuffix s).1 = String.mk (decimalPadded 9 ((nextSuffix s).2.rand % 10 ^ 9)) :=
    suffixOf_eq _
  refine ⟨nextSuffix_rand s, h1, ?_, ?_, ?_, ?_⟩
  · rw [h1]
    exact decimalPadded_length 9 _
  · rw [h1]
    exact fun c hc => decimalPadded_digit 9 _ c hc
  · have : (nextSuffix s).2.rand % 10 ^ 9 < 10 ^ 9 := Nat.mod_lt _ (by norm_num)
    have h2 : (10 : Nat) ^ 9 + 10 ^ 9 < 2 ^ 32 := by norm_num
    omega
  · rw [randName_first]
    rfl

set_option maxRecDepth 20000 in
/-- C27 at a concrete input: the generator state 1 gives the state 1015568748 and the
suffix `015568748`. -/
theorem C27_witness :
    (nextSuffix { rand := 1 }).2.rand = 1015568748 ∧
    (nextSuffix { rand := 1 }).1 = "015568748" ∧
    (randName archPrefix { rand := 1 }).1 = "._archive015568748" := by
  have h := C27_nextSuffix_is_nine_digits { rand := 1 }
  refine ⟨by decide, by decide, ?_⟩
  rw [h.2.2.2.2.2]
  decide

/-- C28: `newRandPool(n)` holds exactly `n` names and has the capacity `n`; after every
sequence of `get` and `put` calls on it the pool holds at most `n` names; `put` on a pool
that holds as many names as its capacity leaves the pool as it is, and `put` on a pool
that holds fewer adds the name at the end. -/
theorem C28_pool_is_bounded (n : Nat) (s : Sys) (ops : List PoolOp) (p : randPool)
    (name : String) :
    (newRandPool n s).1.c.length = n ∧ (newRandPool n s).1.cap = n ∧
    ((newRandPool n s).1.calls (newRandPool n s).2 ops).1.c.length ≤ n ∧
    (p.c.length = p.cap → p.put name = p) ∧
    (p.c.length < p.cap → (p.put name).c = p.c ++ [name] ∧ (p.put name).cap = p.cap) := by
  obtain ⟨h1, h2⟩ := newRandPool_length n s
  refine ⟨h1, h2, ?_, fun h => put_full p name (by omega), put_room p name⟩
  have := (calls_bound ops (newRandPool n s).1 (newRandPool n s).2 (by omega)).1
  omega

set_option maxRecDepth 20000 in
/-- C28 at a concrete input: a pool of two names; taking one, putting it back and putting
a third name leaves two names. -/
theorem C28_witness :
    (newRandPool 2 freshSys).1.c = ["._archive555695684", "._archive129014995"] ∧
    (((newRandPool 2 freshSys).1.calls (newRandPool 2 freshSys).2
      [.get, .put "._archive555695684", .put "x"]).1.c.length ≤ 2) ∧
    randPool.put { c := ["a", "b"], cap := 2 } "x" = { c := ["a", "b"], cap := 2 } ∧
    (randPool.put { c := ["a"], cap := 2 } "x").c = ["a", "x"] :=
  ⟨by decide,
    (C28_pool_is_bounded 2 freshSys [.get, .put "._archive555695684", .put "x"]
      { c := ["a", "b"], cap := 2 } "x").2.2.1,
    (C28_pool_is_bounded 2 freshSys [] { c := ["a", "b"], cap := 2 } "x").2.2.2.1 rfl,
    ((C28_pool_is_bounded 2 freshSys [] { c := ["a"], cap := 2 } "x").2.2.2.2
      (by decide)).1⟩

end useful

/-! ## Recovery of the archive counter and the order of archive names -/

namespace strings

theorem LastIndex_char (host port : String) (c : Char) (h : c ∉ port.data) :
    LastIndex (host ++ String.singleton c ++ port) (String.singleton c) = (host.length : Int) := by
  have hd : (host ++ String.singleton c ++ port).data = host.data ++ c :: port.data := by
    simp [String.data_append, String.singleton]
  have hn : (host ++ String.singleton c ++ port).length + 1 - (String.singleton c).length =
      host.length + 1 + port.length := by
    have h1 : (String.singleton c).length = 1 := rfl
    rw [h1, String.length_append, String.length_append, h1]
    omega
  unfold LastIndex
  rw [hd, hn]
  exact lastIndexBelow_found host.data port.data c h port.length

theorem slice_digits (p d : String) (hd : d ≠ "") (h : '#' ∉ d.data) :
    slice (p ++ "#" ++ d ++ "_.gz") (LastIndex (p ++ "#" ++ d ++ "_.gz") "#" + 1)
      (LastIndex (p ++ "#" ++ d ++ "_.gz") "_" - 1) = some (String.mk d.data.dropLast) := by
  have e1 : p ++ "#" ++ d ++ "_.gz" = p ++ String.singleton '#' ++ (d ++ "_.gz") := by
    rw [String.append_assoc]
    rfl
  have e2 : p ++ "#" ++ d ++ "_.gz" = (p ++ "#" ++ d) ++ String.singleton '_' ++ ".gz" := by
    rw [String.append_assoc (p ++ "#" ++ d)]
    rfl
  have h1 : LastIndex (p ++ "#" ++ d ++ "_.gz") "#" = (p.length : Int) := by
    rw [e1]
    exact LastIndex_char p (d ++ "_.gz") '#' (by
      simp only [String.data_append, List.mem_append, not_or]
      exact ⟨h, by decide⟩)
  have h2 : LastIndex (p ++ "#" ++ d ++ "_.gz") "_" = ((p ++ "#" ++ d).length : Int) := by
    rw [e2]
    exact LastIndex_char (p ++ "#" ++ d) ".gz" '_' (by decide)
  have hlen : (p ++ "#" ++ d).length = p.length + 1 + d.length := by
    rw [String.length_append, String.length_append]
    rfl
  have hdpos : 0 < d.length := by
    rcases d with ⟨l⟩
    cases l with
    | nil => exact absurd rfl hd
    | cons x xs => simp [String.length]
  have htot : (p ++ "#" ++ d ++ "_.gz").length = p.length + 1 + d.length + 4 := by
    rw [String.length_append, hlen]
    rfl
  rw [h1, h2, hlen]
  unfold slice
  rw [if_pos ⟨by omega, by omega, by rw [htot]; omega⟩]
  have ha : ((p.length + 1 + d.length : Nat) : Int) - 1 = ((p.length + d.length : Nat) : Int) := by
    omega
  have hb : (p.length : Int) + 1 = ((p.length + 1 : Nat) : Int) := by omega
  rw [ha, hb, Int.toNat_ofNat, Int.toNat_ofNat]
  have hdata : (p ++ "#" ++ d ++ "_.gz").data = (p.data ++ ['#']) ++ (d.data ++ "_.gz".data) := by
    simp [String.data_append]
  have hpl : (p.data ++ ['#']).length = p.length + 1 := by
    rw [List.length_append]
    rfl
  have hsplit : p.length + d.length = (p.data ++ ['#']).length + (d.length - 1) := by
    rw [hpl]
    omega
  rw [hdata, hsplit, List.take_append, ← hpl, List.drop_left, List.take_append_eq_append_take]
  have hz : d.length - 1 - d.data.length = 0 := by
    show d.data.length - 1 - d.data.length = 0
    omega
  rw [hz, List.take_zero, List.append_nil, List.dropLast_eq_take]
  rfl

end strings

namespace useful

set_option maxRecDepth 8000 in
/-- C24 (what the code does): `findCur` parses `highest[h+1:u-1]`, the text between the last
`#` and the last `_` without its last byte.  For every name `p#d_.gz` with a non-empty `d`
that holds no `#`, that slice is `d` without its last digit.  With
`access.log#0000000012_.gz` in the archive directory `findCur` sets the counter to 1, not
to 12; with `access.log#7_.gz` the slice is empty and `findCur` panics on the error of
`ParseInt`. -/
theorem C24_findCur_drops_last_digit :
    (∀ p d : String, d ≠ "" → '#' ∉ d.data →
      strings.slice (p ++ "#" ++ d ++ "_.gz")
        (strings.LastIndex (p ++ "#" ++ d ++ "_.gz") "#" + 1)
        (strings.LastIndex (p ++ "#" ++ d ++ "_.gz") "_" - 1) =
      some (String.mk d.data.dropLast)) ∧
    (findCur twelveWorld).map (fun w => w.cur) = .ok 1 ∧
    (findCur sevenWorld).map (fun w => w.cur) = .error .numError := by
  refine ⟨strings.slice_digits, by decide, by decide⟩

end useful

namespace sort

theorem lex_cons (r : Char → Char → Prop) (x y : Char) (l₁ l₂ : List Char) :
    List.Lex r (x :: l₁) (y :: l₂) ↔ r x y ∨ (x = y ∧ List.Lex r l₁ l₂) := by
  constructor
  · intro h
    cases h with
    | cons h => exact Or.inr ⟨rfl, h⟩
    | rel h => exact Or.inl h
  · rintro (h | ⟨rfl, h⟩)
    · exact List.Lex.rel h
    · exact List.Lex.cons h

theorem lex_append (r : Char → Char → Prop) (t u : List Char) :
    ∀ a b : List Char, a.length = b.length →
      (List.Lex r (a ++ t) (b ++ u) ↔ List.Lex r a b ∨ (a = b ∧ List.Lex r t u)) := by
  intro a
  induction a with
  | nil =>
    intro b hb
    have : b = [] := List.length_eq_zero.1 hb.symm
    subst this
    constructor
    · intro h; exact Or.inr ⟨rfl, h⟩
    · rintro (h | ⟨_, h⟩)
      · cases h
      · exact h
  | cons x a ih =>
    intro b hb
    cases b with
    | nil => cases hb
    | cons y b =>
      have hl : a.length = b.length := by simpa using hb
      rw [List.cons_append, List.cons_append, lex_cons, lex_cons, ih b hl]
      constructor
      · rintro (h | ⟨rfl, h | ⟨rfl, h⟩⟩)
        · exact Or.inl (Or.inl h)
        · exact Or.inl (Or.inr ⟨rfl, h⟩)
        · exact Or.inr ⟨rfl, h⟩
      · rintro ((h | ⟨rfl, h⟩) | ⟨he, h⟩)
        · exact Or.inl h
        · exact Or.inr ⟨rfl, Or.inl h⟩
        · obtain ⟨rfl, rfl⟩ := List.cons.inj he
          exact Or.inr ⟨rfl, Or.inr ⟨rfl, h⟩⟩

theorem lt_irrefl_chars (l : List Char) : ¬ List.Lex (fun x y : Char => x < y) l l := by
  intro h
  have : l < l := h
  exact lt_irrefl l this

theorem digitChar_lt (a b : Nat) (ha : a < 10) (hb : b < 10) :
    Nat.digitChar a < Nat.digitChar b ↔ a < b := by
  interval_cases a <;> interval_cases b <;> decide

end sort

namespace useful

theorem decimalPadded_inj_width (w a b : Nat) (ha : a < 10 ^ w) (hb : b < 10 ^ w)
    (h : decimalPadded w a = decimalPadded w b) : a = b := by
  have h1 := decimalPadded_value w a
  have h2 := decimalPadded_value w b
  rw [h, h2, Nat.mod_eq_of_lt hb, Nat.mod_eq_of_lt ha] at h1
  exact h1.symm

theorem decimalPadded_lt (w : Nat) :
    ∀ a b : Nat, a < 10 ^ w → b < 10 ^ w →
      (decimalPadded w a < decimalPadded w b ↔ a < b) := by
  induction w with
  | zero =>
    intro a b ha hb
    have ha0 : a = 0 := by simpa using ha
    have hb0 : b = 0 := by simpa using hb
    subst ha0 hb0
    simp [decimalPadded]
  | succ k ih =>
    intro a b ha hb
    have ha10 : a / 10 < 10 ^ k := by
      rw [Nat.div_lt_iff_lt_mul (by norm_num)]
      rw [pow_succ] at ha
      exact ha
    have hb10 : b / 10 < 10 ^ k := by
      rw [Nat.div_lt_iff_lt_mul (by norm_num)]
      rw [pow_succ] at hb
      exact hb
    show List.Lex (fun x y : Char => x < y) (decimalPadded k (a / 10) ++ [Nat.digitChar (a % 10)])
      (decimalPadded k (b / 10) ++ [Nat.digitChar (b % 10)]) ↔ a < b
    rw [sort.lex_append _ _ _ _ _ (by rw [decimalPadded_length, decimalPadded_length]),
      sort.lex_cons]
    have ih1 : List.Lex (fun x y : Char => x < y) (decimalPadded k (a / 10))
        (decimalPadded k (b / 10)) ↔ a / 10 < b / 10 := ih _ _ ha10 hb10
    have hdig := sort.digitChar_lt (a % 10) (b % 10) (Nat.mod_lt _ (by norm_num))
      (Nat.mod_lt _ (by norm_num))
    rw [ih1, hdig]
    constructor
    · rintro (h | ⟨he, h | ⟨_, h⟩⟩)
      · omega
      · have := decimalPadded_inj_width k _ _ ha10 hb10 he
        omega
      · cases h
    · intro h
      by_cases hq : a / 10 < b / 10
      · exact Or.inl hq
      · have he : a / 10 = b / 10 := by omega
        exact Or.inr ⟨by rw [he], Or.inl (by omega)⟩

theorem name_lt (p : String) (i j : Nat) (hi : i < 10 ^ 10) (hj : j < 10 ^ 10) :
    (p ++ "#" ++ String.mk (decimalPadded 10 i) ++ "_.gz").data <
      (p ++ "#" ++ String.mk (decimalPadded 10 j) ++ "_.gz").data ↔ i < j := by
  have hd : ∀ n, (p ++ "#" ++ String.mk (decimalPadded 10 n) ++ "_.gz").data =
      (p ++ "#").data ++ (decimalPadded 10 n ++ "_.gz".data) := by
    intro n
    simp [String.data_append]
  rw [hd i, hd j]
  show List.Lex (fun x y : Char => x < y) _ _ ↔ _
  rw [sort.lex_append _ _ _ _ _ rfl, sort.lex_append _ _ _ _ _
    (by rw [decimalPadded_length, decimalPadded_length])]
  have h1 := decimalPadded_lt 10 i j hi hj
  constructor
  · rintro (h | ⟨_, h | ⟨_, h⟩⟩)
    · exact absurd h (sort.lt_irrefl_chars _)
    · exact h1.1 h
    · exact absurd h (sort.lt_irrefl_chars _)
  · intro h
    exact Or.inr ⟨rfl, Or.inl (h1.2 h)⟩

end useful

namespace sort

theorem Strings_last (names : List String) (hne : names ≠ []) :
    ∃ x ∈ names,
      (Strings names).getD ((Strings names).length - 1) "" = x ∧
      ∀ y ∈ names, y.data ≤ x.data := by
  haveI : IsTotal String (fun x y : String => x.data ≤ y.data) :=
    ⟨fun a b => le_total a.data b.data⟩
  haveI : IsTrans String (fun x y : String => x.data ≤ y.data) :=
    ⟨fun a b c hab hbc => le_trans hab hbc⟩
  have hperm : (Strings names).Perm names := List.perm_insertionSort _ names
  have hsorted : (Strings names).Sorted (fun x y : String => x.data ≤ y.data) :=
    List.sorted_insertionSort _ names
  have hL : Strings names ≠ [] := fun h => hne (by
    have := hperm.length_eq
    rw [h] at this
    exact List.length_eq_zero.1 this.symm)
  refine ⟨(Strings names).getLast hL, hperm.subset (List.getLast_mem hL), ?_, ?_⟩
  · have hlt : (Strings names).length - 1 < (Strings names).length :=
      Nat.sub_lt (List.length_pos.2 hL) Nat.one_pos
    rw [List.getD_eq_getElem _ _ hlt, List.getLast_eq_getElem]
  · intro y hy
    have hyL : y ∈ Strings names := hperm.symm.subset hy
    rw [← List.dropLast_append_getLast hL] at hyL hsorted
    rcases List.mem_append.1 hyL with h | h
    · exact (List.pairwise_append.1 hsorted).2.2 y h _ (List.mem_singleton_self _)
    · rw [List.mem_singleton.1 h]

end sort

namespace useful

/-- C25: for one log path and indices `i`, `j` from 0 to below 10^10, the archive name for
`i` is before the archive name for `j` in the byte-wise lexicographic order exactly when
`i < j`.  So for a non-empty list of such indices, the last name of the sorted list of
their archive names, the one `findCur` takes as `highest`, is the archive name of the
greatest index. -/
theorem C25_archive_names_sort_by_index (opts : Options) (i j : Int) (hi0 : 0 ≤ i)
    (hi : i < 10 ^ 10) (hj0 : 0 ≤ j) (hj : j < 10 ^ 10) (idx : List Int) (hne : idx ≠ [])
    (hidx : ∀ k ∈ idx, 0 ≤ k ∧ k < 10 ^ 10) :
    ((archiveName opts i).data < (archiveName opts j).data ↔ i < j) ∧
    ∃ m ∈ idx, (∀ k ∈ idx, k ≤ m) ∧
      (sort.Strings (idx.map (archiveName opts))).getD
        ((sort.Strings (idx.map (archiveName opts))).length - 1) "" = archiveName opts m := by
  have key : ∀ a b : Int, 0 ≤ a → a < 10 ^ 10 → 0 ≤ b → b < 10 ^ 10 →
      ((archiveName opts a).data < (archiveName opts b).data ↔ a < b) := by
    intro a b ha0 ha hb0 hb
    rw [archiveName_eq opts a ha0 ha, archiveName_eq opts b hb0 hb,
      name_lt _ a.toNat b.toNat (by omega) (by omega)]
    omega
  refine ⟨key i j hi0 hi hj0 hj, ?_⟩
  obtain ⟨x, hx, hlast, hmax⟩ := sort.Strings_last (idx.map (archiveName opts))
    (fun h => hne (List.map_eq_nil_iff.1 h))
  obtain ⟨m, hm, rfl⟩ := List.mem_map.1 hx
  refine ⟨m, hm, fun k hk => ?_, hlast⟩
  have hle := hmax (archiveName opts k) (List.mem_map_of_mem _ hk)
  have hnot : ¬ (archiveName opts m).data < (archiveName opts k).data := not_lt.2 hle
  rw [key m k (hidx m hm).1 (hidx m hm).2 (hidx k hk).1 (hidx k hk).2] at hnot
  omega

set_option maxRecDepth 20000 in
/-- C25 at a concrete input: the indices 9 and 10, and the listing of the indices 10, 2
and 9. -/
theorem C25_witness :
    ((archiveName DefaultOptions 9).data < (archiveName DefaultOptions 10).data ↔
      (9 : Int) < 10) ∧
    ∃ m ∈ [(10 : Int), 2, 9], (∀ k ∈ [(10 : Int), 2, 9], k ≤ m) ∧
      (sort.Strings ([(10 : Int), 2, 9].map (archiveName DefaultOptions))).getD
        ((sort.Strings ([(10 : Int), 2, 9].map (archiveName DefaultOptions))).length - 1) "" =
        archiveName DefaultOptions m :=
  C25_archive_names_sort_by_index DefaultOptions 9 10 (by decide) (by decide) (by decide)
    (by decide) [10, 2, 9] (by decide) (by decide)

end useful

/-! ## Login input and decimal formatting -/

namespace utf8

theorem countLoop_le (fuel : Nat) : ∀ l : List Char, countLoop fuel l ≤ fuel := by
  induction fuel with
  | zero => intro l; simp [countLoop]
  | succ f ih =>
    intro l
    cases l with
    | nil => simp [countLoop]
    | cons c rest =>
      rw [countLoop]
      exact Nat.succ_le_succ (ih _)

theorem RuneCount_eq_zero (s : String) : RuneCountInString s = 0 ↔ s = "" := by
  rcases s with ⟨l⟩
  cases l with
  | nil => exact ⟨fun _ => rfl, fun _ => rfl⟩
  | cons c rest =>
    constructor
    · intro h
      have : countLoop (rest.length + 1) (c :: rest) = 0 := h
      rw [countLoop] at this
      omega
    · intro h
      exact absurd (congrArg String.data h) (by simp)

theorem width_ascii (c : Char) (rest : List Char) (h : c.toNat < 128) :
    width (c :: rest) = 1 := by
  have hl : lead c.toNat = none := by
    unfold lead
    rw [if_neg (by omega), if_neg (by omega), if_neg (by omega), if_neg (by omega),
      if_neg (by omega), if_neg (by omega), if_neg (by omega)]
  rw [width, hl]

theorem countLoop_ascii (fuel : Nat) :
    ∀ l : List Char, l.length ≤ fuel → (∀ c ∈ l, c.toNat < 128) → countLoop fuel l = l.length := by
  induction fuel with
  | zero =>
    intro l hl _
    have : l = [] := List.length_eq_zero.1 (by omega)
    subst this
    rfl
  | succ f ih =>
    intro l hl hascii
    cases l with
    | nil => rfl
    | cons c rest =>
      rw [countLoop, width_ascii c rest (hascii c (List.mem_cons_self _ _))]
      have : (c :: rest).drop 1 = rest := rfl
      rw [this, ih rest (by simpa using hl) (fun x hx => hascii x (List.mem_cons_of_mem _ hx))]
      rfl

end utf8

namespace auth

/-- C23 (counterexample): for the empty id the first result of `validLoginInput` is false,
and for the id `eric` it is true. -/
theorem C23_first_result_is_false_for_empty_id :
    validLoginInput "" = (false, false) ∧ validLoginInput "eric" = (true, true) := by
  decide

/-- C23 (amended): for every string `id`, the first result of `validLoginInput` is true
exactly when `id` is not empty, and the second is true exactly when `id` has between 1 and
255 runes; the number of runes is at most the number of bytes, and equal to it when every
byte is ASCII. -/
theorem C23_first_result_is_true_for_nonempty_id (id : String) :
    ((validLoginInput id).1 = true ↔ id ≠ "") ∧
    ((validLoginInput id).2 = true ↔
      1 ≤ utf8.RuneCountInString id ∧ utf8.RuneCountInString id ≤ 255) ∧
    utf8.RuneCountInString id ≤ id.length ∧
    ((∀ c ∈ id.data, c.toNat < 128) → utf8.RuneCountInString id = id.length) := by
  refine ⟨?_, ?_, utf8.countLoop_le _ _, fun h => utf8.countLoop_ascii _ _ (le_refl _) h⟩
  · have h := utf8.RuneCount_eq_zero id
    constructor
    · intro h1 h2
      have h3 := h.2 h2
      simp [validLoginInput, h3] at h1
    · intro h1
      have h3 : utf8.RuneCountInString id ≠ 0 := fun h0 => h1 (h.1 h0)
      simp [validLoginInput, h3]
  · simp [validLoginInput]
    omega

/-- C23 at a concrete input: the id `eric`. -/
theorem C23_witness :
    (validLoginInput "eric").1 = true ∧ (validLoginInput "eric").2 = true ∧
    utf8.RuneCountInString "eric" = 4 :=
  ⟨(C23_first_result_is_true_for_nonempty_id "eric").1.2 (by decide),
    (C23_first_result_is_true_for_nonempty_id "eric").2.1.2 (by decide),
    (C23_first_result_is_true_for_nonempty_id "eric").2.2.2 (by decide)⟩

end auth

theorem toDigitsCore_fuel (f1 : Nat) :
    ∀ (f2 n : Nat), n < f1 → n < f2 →
      Nat.toDigitsCore 10 f1 n [] = Nat.toDigitsCore 10 f2 n [] := by
  induction f1 with
  | zero => intro f2 n h; omega
  | succ a ih =>
    intro f2 n h1 h2
    obtain ⟨b, rfl⟩ : ∃ b, f2 = b + 1 := ⟨f2 - 1, by omega⟩
    simp only [Nat.toDigitsCore]
    by_cases h0 : n / 10 = 0
    · simp [h0]
    · simp only [h0, if_false]
      rw [toDigitsCore_acc a, toDigitsCore_acc b, ih b (n / 10) (by omega) (by omega)]

theorem repr_small (m : Nat) (h : m < 10) : (Nat.repr m).data = [Nat.digitChar m] := by
  have h0 : m / 10 = 0 := by omega
  have hm : m % 10 = m := by omega
  show (Nat.toDigitsCore 10 (m + 1) m []).asString.data = _
  simp only [Nat.toDigitsCore, h0, hm, if_true]
  rfl

theorem repr_step (m : Nat) (h : 10 ≤ m) :
    (Nat.repr m).data = (Nat.repr (m / 10)).data ++ [Nat.digitChar (m % 10)] := by
  have h0 : m / 10 ≠ 0 := by omega
  have e1 : Nat.toDigitsCore 10 (m + 1) m [] =
      Nat.toDigitsCore 10 m (m / 10) [] ++ [Nat.digitChar (m % 10)] := by
    simp only [Nat.toDigitsCore, h0, if_false]
    exact toDigitsCore_acc _ _ _
  have e2 := toDigitsCore_fuel m (m / 10 + 1) (m / 10) (by omega) (by omega)
  show (Nat.toDigitsCore 10 (m + 1) m []).asString.data = _
  rw [e1, e2]
  rfl

namespace helpers

theorem digits01_get (j : Nat) (h : j < 100) :
    digits01.data.get? j = some (Nat.digitChar (j % 10)) := by
  interval_cases j <;> rfl

theorem digits10_get (j : Nat) (h : j < 100) :
    digits10.data.get? j = some (Nat.digitChar (j / 10)) := by
  interval_cases j <;> rfl

theorem digits_get (j : Nat) (h : j < 10) : digits.data.get? j = some (Nat.digitChar j) := by
  interval_cases j <;> rfl

theorem setAt_drop (a : List Char) (i : Nat) (c : Char) (h : i < a.length) :
    ∃ b, setAt a i c = some b ∧ b.length = a.length ∧ b.drop i = c :: a.drop (i + 1) := by
  refine ⟨a.set i c, by simp [setAt, h], by simp, ?_⟩
  have hl : i < (a.set i c).length := by simpa using h
  rw [List.drop_eq_getElem_cons hl, List.getElem_set_self, List.drop_set_of_lt _ _ (Nat.lt_succ_self i)]

end helpers

namespace helpers

theorem formatLoop_spec (fuel : Nat) :
    ∀ (k u i : Nat) (a : List Char), k ≤ fuel → u < 100 ^ (k + 1) → 2 * k + 3 ≤ i →
      i ≤ a.length →
      ∃ u1 i1 a1, formatLoop fuel u i a = some (u1, i1, a1) ∧ u1 < 100 ∧ 3 ≤ i1 ∧
        i1 ≤ a1.length ∧
        (Nat.repr u).data ++ a.drop i = (Nat.repr u1).data ++ a1.drop i1 := by
  induction fuel with
  | zero =>
    intro k u i a hk hu hi hia
    have hk0 : k = 0 := by omega
    subst hk0
    have hu' : u < 100 := by simpa using hu
    exact ⟨u, i, a, by simp [formatLoop, Nat.not_le.2 hu'], hu', by omega, hia, rfl⟩
  | succ f ih =>
    intro k u i a hk hu hi hia
    by_cases h100 : u ≥ 100
    · have hk1 : 1 ≤ k := by
        by_contra hk0
        have : k = 0 := by omega
        subst this
        simp at hu
        omega
      have hq : u / 100 < 100 ^ (k - 1 + 1) := by
        have e : k - 1 + 1 = k := by omega
        rw [e, Nat.div_lt_iff_lt_mul (by norm_num)]
        rw [pow_succ] at hu
        exact hu
      have hj : u - u / 100 * 100 < 100 := by omega
      obtain ⟨b1, hb1, hl1, hd1⟩ := setAt_drop a (i - 2 + 1) (Nat.digitChar ((u - u / 100 * 100) % 10))
        (by omega)
      obtain ⟨b2, hb2, hl2, hd2⟩ := setAt_drop b1 (i - 2 + 0) (Nat.digitChar ((u - u / 100 * 100) / 10))
        (by omega)
      obtain ⟨u1, i1, a1, hloop, hu1, hi1, hia1, hrepr⟩ :=
        ih (k - 1) (u / 100) (i - 2) b2 (by omega) hq (by omega) (by omega)
      refine ⟨u1, i1, a1, ?_, hu1, hi1, hia1, ?_⟩
      · rw [formatLoop]
        simp only [h100, if_true, show ¬ i < 2 by omega, if_false, digits01_get _ hj,
          digits10_get _ hj, hb1, hb2]
        exact hloop
      · have hd2' : b2.drop (i - 2) = Nat.digitChar ((u - u / 100 * 100) / 10) ::
            b1.drop (i - 2 + 1) := hd2
        have e2 : i - 2 + 1 + 1 = i := by omega
        rw [← hrepr, hd2', hd1, e2, repr_step u (by omega), repr_step (u / 10) (by omega)]
        have e3 : u / 10 / 10 = u / 100 := by omega
        have e4 : (u - u / 100 * 100) / 10 = u / 10 % 10 := by omega
        have e5 : (u - u / 100 * 100) % 10 = u % 10 := by omega
        rw [e3, e4, e5]
        simp
    · have hu' : u < 100 := by omega
      exact ⟨u, i, a, by rw [formatLoop]; simp [h100], hu', by omega, hia, rfl⟩

theorem FormatInt_Itoa (n : Int) (h0 : -2 ^ 63 ≤ n) (h1 : n < 2 ^ 63) :
    FormatInt n = some (strconv.Itoa n) := by
  have hu : (if n < 0 then (2 ^ 64 - (n % 2 ^ 64).toNat) % 2 ^ 64 else (n % 2 ^ 64).toNat) =
      n.natAbs := by
    split <;> omega
  have hlt : n.natAbs < 100 ^ (10 + 1) := by
    have : (2 : Nat) ^ 64 < 100 ^ (10 + 1) := by norm_num
    omega
  obtain ⟨u1, i1, a1, hloop, hu1, hi1, hia1, hrepr⟩ :=
    formatLoop_spec 64 10 n.natAbs (64 + 1) (List.replicate (64 + 1) (Char.ofNat 0))
      (by omega) hlt (by omega) (by simp)
  have hdrop : (List.replicate (64 + 1) (Char.ofNat 0)).drop (64 + 1) = [] := by simp
  rw [hdrop, List.append_nil] at hrepr
  unfold FormatInt
  simp only [hu, List.length_replicate, hloop]
  have hstage : ∃ u2 i2 a2,
      (if u1 ≥ 10 then
        if i1 < 1 then none
        else
          match digits.data.get? (u1 - u1 / 10 * 10) with
          | none => none
          | some c => Option.map (fun a => (u1 / 10, i1 - 1, a)) (setAt a1 (i1 - 1) c)
      else some (u1, i1, a1)) = some (u2, i2, a2) ∧ u2 < 10 ∧ 2 ≤ i2 ∧ i2 ≤ a2.length ∧
        (Nat.repr n.natAbs).data = (Nat.repr u2).data ++ a2.drop i2 := by
    by_cases h10 : u1 ≥ 10
    · obtain ⟨b, hb, hl, hd⟩ := setAt_drop a1 (i1 - 1) (Nat.digitChar (u1 - u1 / 10 * 10))
        (by omega)
      refine ⟨u1 / 10, i1 - 1, b, ?_, by omega, by omega, by omega, ?_⟩
      · simp only [h10, if_true, show ¬ i1 < 1 by omega, if_false,
          digits_get _ (show u1 - u1 / 10 * 10 < 10 by omega), hb, Option.map_some']
      · have e : i1 - 1 + 1 = i1 := by omega
        have e2 : u1 - u1 / 10 * 10 = u1 % 10 := by omega
        rw [hrepr, hd, e, repr_step u1 h10, e2]
        simp
    · exact ⟨u1, i1, a1, by simp only [h10, if_false], by omega, by omega, hia1, hrepr⟩
  obtain ⟨u2, i2, a2, hst, hu2, hi2, hia2, hrepr2⟩ := hstage
  rw [hst]
  obtain ⟨b, hb, hl, hd⟩ := setAt_drop a2 (i2 - 1) (Nat.digitChar u2) (by omega)
  have e : i2 - 1 + 1 = i2 := by omega
  rw [e] at hd
  simp only [show ¬ i2 < 1 by omega, if_false, digits_get _ hu2, hb]
  have hdig : b.drop (i2 - 1) = (Nat.repr n.natAbs).data := by
    rw [hd, hrepr2, repr_small u2 hu2]
    rfl
  by_cases hneg : n < 0
  · obtain ⟨b3, hb3, hl3, hd3⟩ := setAt_drop b (i2 - 1 - 1) '-' (by omega)
    have e3 : i2 - 1 - 1 + 1 = i2 - 1 := by omega
    rw [e3, hdig] at hd3
    simp only [hneg, decide_True, if_true, show ¬ i2 - 1 < 1 by omega, if_false, hb3,
      Option.map_some', hd3, strconv.Itoa]
    rfl
  · simp only [hneg, decide_False, Bool.false_eq_true, if_false, hdig, strconv.Itoa]

end helpers

namespace strconv

theorem parseDigits_append (xs ys : List Char) :
    ∀ acc : Nat, parseDigits (xs ++ ys) acc = (parseDigits xs acc).bind (parseDigits ys) := by
  induction xs with
  | nil => intro acc; rfl
  | cons c cs ih =>
    intro acc
    simp only [List.cons_append, parseDigits]
    cases digitVal c with
    | none => rfl
    | some d => exact ih _

theorem digitVal_digitChar (d : Nat) (h : d < 10) : digitVal (Nat.digitChar d) = some d := by
  interval_cases d <;> rfl

theorem parseDigits_repr (m : Nat) : parseDigits (Nat.repr m).data 0 = some m := by
  induction m using Nat.strong_induction_on with
  | _ m ih =>
    by_cases h : m < 10
    · rw [repr_small m h]
      simp [parseDigits, digitVal_digitChar m h]
    · rw [repr_step m (by omega), parseDigits_append, ih (m / 10) (by omega)]
      simp only [Option.some_bind, parseDigits, digitVal_digitChar _ (Nat.mod_lt m (by norm_num))]
      congr 1
      omega

theorem repr_chars (m : Nat) : ∀ c ∈ (Nat.repr m).data, ∃ d, d < 10 ∧ c = Nat.digitChar d := by
  induction m using Nat.strong_induction_on with
  | _ m ih =>
    intro c hc
    by_cases h : m < 10
    · rw [repr_small m h] at hc
      exact ⟨m, h, List.mem_singleton.1 hc⟩
    · rw [repr_step m (by omega)] at hc
      rcases List.mem_append.1 hc with h1 | h1
      · exact ih (m / 10) (by omega) c h1
      · exact ⟨m % 10, Nat.mod_lt m (by norm_num), List.mem_singleton.1 h1⟩

theorem repr_ne_nil (m : Nat) : (Nat.repr m).data ≠ [] := by
  by_cases h : m < 10
  · rw [repr_small m h]
    exact List.cons_ne_nil _ _
  · rw [repr_step m (by omega)]
    simp

theorem digitChar_plain (d : Nat) (h : d < 10) :
    Nat.digitChar d ≠ '-' ∧ Nat.digitChar d ≠ '+' ∧ Nat.digitChar d ≠ ',' ∧
      Nat.digitChar d ≠ Char.ofNat 0 := by
  interval_cases d <;> decide

theorem ParseInt_Itoa (n : Int) (h0 : -2 ^ 63 ≤ n) (h1 : n < 2 ^ 63) :
    ParseInt (Itoa n) = some n := by
  by_cases hneg : n < 0
  · have hd : (Itoa n).data = '-' :: (Nat.repr n.natAbs).data := by
      simp [Itoa, hneg, String.data_append]
    unfold ParseInt
    simp only [hd, parseDigits_repr, List.isEmpty_eq_true, repr_ne_nil, if_false]
    have hle : n.natAbs ≤ 2 ^ 63 := by omega
    simp only [hle, if_true]
    congr 1
    omega
  · have hd : (Itoa n).data = (Nat.repr n.natAbs).data := by
      simp [Itoa, hneg]
    unfold ParseInt
    rw [hd]
    cases hr : (Nat.repr n.natAbs).data with
    | nil => exact absurd hr (repr_ne_nil _)
    | cons c cs =>
      obtain ⟨d, hd10, hcd⟩ := repr_chars n.natAbs c (by rw [hr]; exact List.mem_cons_self _ _)
      obtain ⟨hm, hp, _, _⟩ := digitChar_plain d hd10
      rw [← hcd] at hm hp
      have hpd := parseDigits_repr n.natAbs
      rw [hr] at hpd
      have hlt : n.natAbs < 2 ^ 63 := by omega
      split
      · rename_i ds heq
        exact absurd (List.cons.inj heq).1 hm
      · rename_i ds heq
        exact absurd (List.cons.inj heq).1 hp
      · simp only [hpd, List.isEmpty_cons, Bool.false_eq_true, if_false, hlt, if_true]
        congr 1
        omega

theorem Itoa_chars (n : Int) :
    ∀ c ∈ (Itoa n).data, c ≠ ',' ∧ c ≠ Char.ofNat 0 := by
  intro c hc
  have hrepr : ∀ c ∈ (Nat.repr n.natAbs).data, c ≠ ',' ∧ c ≠ Char.ofNat 0 := by
    intro c hc
    obtain ⟨d, hd10, hcd⟩ := repr_chars n.natAbs c hc
    rw [hcd]
    exact (digitChar_plain d hd10).2.2
  unfold Itoa at hc
  split at hc
  · rw [String.data_append] at hc
    rcases List.mem_append.1 hc with h | h
    · have : c = '-' := by simpa using h
      rw [this]
      decide
    · exact hrepr c h
  · exact hrepr c hc

end strconv

namespace helpers

/-- C29: for every `int64` value `n`, the minimum -2^63 included, `FormatInt(n)` returns
without a panic, and its result is the decimal representation of `n`: a `-` exactly when
`n < 0`, then the decimal digits of `|n|` as `Nat.repr` gives them (no zero in front, `0`
for 0).  `strconv.ParseInt` reads the result back as `n`. -/
theorem C29_FormatInt_is_canonical_decimal (n : Int) (h0 : -2 ^ 63 ≤ n) (h1 : n < 2 ^ 63) :
    FormatInt n = some ((if n < 0 then "-" else "") ++ Nat.repr n.natAbs) ∧
    (FormatInt n).bind strconv.ParseInt = some n := by
  have h := FormatInt_Itoa n h0 h1
  constructor
  · rw [h]
    unfold strconv.Itoa
    split <;> simp
  · rw [h]
    exact strconv.ParseInt_Itoa n h0 h1

set_option maxRecDepth 20000 in
/-- C29 at a concrete input: the minimum value -2^63. -/
theorem C29_witness :
    FormatInt (-9223372036854775808) = some "-9223372036854775808" ∧
    (FormatInt (-9223372036854775808)).bind strconv.ParseInt = some (-9223372036854775808) := by
  have h := C29_FormatInt_is_canonical_decimal (-9223372036854775808) (by decide) (by decide)
  refine ⟨?_, h.2⟩
  rw [h.1]
  decide

end helpers

/-! ## The JSON text of a session -/

namespace auth

theorem fresh_length (size : Nat) (w : List Char) (h : w.length ≤ size) :
    (Cursor.fresh size w).buf.length = size := by
  simp only [Cursor.fresh, List.length_append, List.length_replicate]
  omega

theorem byte_fresh (size : Nat) (w : List Char) (c : Char) (h : w.length < size) :
    (Cursor.fresh size w).byte c = some (Cursor.fresh size (w ++ [c])) := by
  have hl := fresh_length size w (by omega)
  have hn : (Cursor.fresh size w).n = w.length := rfl
  obtain ⟨k, hk⟩ : ∃ k, size - w.length = k + 1 := ⟨size - w.length - 1, by omega⟩
  have hk2 : size - (w ++ [c]).length = k := by
    rw [List.length_append, List.length_singleton]
    omega
  unfold Cursor.byte Cursor.set
  rw [hn, hl, if_pos h]
  simp only [Option.map_some', Cursor.fresh, hk, hk2, List.replicate_succ, Option.some.injEq,
    Cursor.mk.injEq, List.length_append, List.length_singleton, and_true]
  rw [List.set_append_right _ _ (le_refl _), Nat.sub_self, List.set_cons_zero,
    List.append_assoc]
  have hk3 : size - (w.length + 1) = k := by omega
  rw [hk3]
  rfl

theorem set_fresh (size : Nat) (w : List Char) (c : Char) (h : w.length < size) :
    ((Cursor.fresh size w).set c).map (fun k => k.buf) =
      some (w ++ [c] ++ List.replicate (size - w.length - 1) (Char.ofNat 0)) := by
  have h1 := byte_fresh size w c h
  unfold Cursor.byte at h1
  cases hs : (Cursor.fresh size w).set c with
  | none => rw [hs] at h1; cases h1
  | some k =>
    rw [hs] at h1
    simp only [Option.map_some', Option.some.injEq] at h1 ⊢
    have := congrArg Cursor.buf h1
    simp only [Cursor.fresh] at this
    rw [this, List.length_append, List.length_singleton, Nat.sub_add_eq]

theorem set_full (size : Nat) (w : List Char) (c : Char) (h : w.length = size) :
    (Cursor.fresh size w).set c = none := by
  have hl := fresh_length size w (by omega)
  have hn : (Cursor.fresh size w).n = w.length := rfl
  unfold Cursor.set
  rw [hn, hl, if_neg (by omega)]

theorem copy_fresh (size : Nat) (w src : List Char) (hw : w.length ≤ size) :
    (Cursor.fresh size w).copy src =
      some (Cursor.fresh size (w ++ src.take (size - w.length))) := by
  have hl := fresh_length size w hw
  have hn : (Cursor.fresh size w).n = w.length := rfl
  unfold Cursor.copy
  rw [hn, hl, if_pos hw]
  have hm : (src.take (size - w.length)).length = min src.length (size - w.length) := by
    rw [List.length_take, Nat.min_comm]
  simp only [Option.some.injEq]
  have hbuf : (Cursor.fresh size w).buf = w ++ List.replicate (size - w.length) (Char.ofNat 0) :=
    rfl
  rw [hbuf]
  simp only [Cursor.fresh, Cursor.mk.injEq, List.length_append, hm, and_true]
  rw [List.take_left' rfl, List.drop_append_eq_append_drop, List.drop_of_length_le (by omega),
    List.nil_append, List.drop_replicate, Nat.add_sub_cancel_left]
  by_cases hs : src.length ≤ size - w.length
  · rw [Nat.min_eq_left hs, List.take_of_length_le (le_refl _), List.take_of_length_le hs,
      Nat.sub_add_eq]
  · rw [Nat.min_eq_right (by omega), Nat.sub_add_eq]

end auth

namespace auth

theorem runAll_append (xs ys : List Stmt) :
    ∀ k : Cursor, runAll (xs ++ ys) k = (runAll xs k).bind (runAll ys) := by
  induction xs with
  | nil => intro k; rfl
  | cons st rest ih =>
    intro k
    simp only [List.cons_append, runAll]
    cases st.run k with
    | none => rfl
    | some k1 => exact ih k1

theorem runAll_fits (size : Nat) (stmts : List Stmt) :
    ∀ w : List Char,
      stmts.all (fun st => match st with | .set _ => false | _ => true) = true →
      w.length + (stmts.map Stmt.text).flatten.length ≤ size →
      runAll stmts (Cursor.fresh size w) =
        some (Cursor.fresh size (w ++ (stmts.map Stmt.text).flatten)) := by
  induction stmts with
  | nil => intro w _ _; simp [runAll]
  | cons st rest ih =>
    intro w hall hlen
    simp only [List.all_cons, Bool.and_eq_true] at hall
    simp only [List.map_cons, List.flatten_cons, List.length_append] at hlen
    cases st with
    | byte c =>
      have hl : w.length < size := by
        simp only [Stmt.text, List.length_singleton] at hlen
        omega
      simp only [runAll, Stmt.run, byte_fresh size w c hl]
      rw [ih (w ++ [c]) hall.2 (by
        simp only [Stmt.text, List.length_singleton, List.length_append] at hlen ⊢
        omega)]
      simp [Stmt.text]
    | copy src =>
      simp only [Stmt.text] at hlen
      simp only [runAll, Stmt.run, copy_fresh size w src (by omega)]
      rw [List.take_of_length_le (by omega)]
      rw [ih (w ++ src) hall.2 (by
        simp only [List.length_append]
        omega)]
      simp [Stmt.text]
    | set c => simp at hall

theorem statements_split (s : ServerSession) (d : String) :
    statements s d = (statements s d).take 37 ++ [.copy d.data, .set '\x7d'] := rfl

theorem statements_head (s : ServerSession) (d : String) :
    (((statements s d).take 37).map Stmt.text).flatten = s.head := rfl

theorem head_length (s : ServerSession) :
    s.head.length = 65 + s.AuthToken.length + s.CSRFToken.length + s.Email.length +
      s.School.length := by
  show _ = 65 + s.AuthToken.data.length + s.CSRFToken.data.length + s.Email.data.length +
      s.School.data.length
  simp only [ServerSession.head, List.flatten_cons, List.flatten_nil, List.length_append,
    List.length_cons, List.length_nil]
  omega

theorem runAll_statements (s : ServerSession) (d : String) (size : Nat)
    (hsize : s.head.length ≤ size) :
    (runAll (statements s d) (Cursor.fresh size [])).map (fun k => k.buf) =
      if s.head.length + d.length < size then
        some (s.head ++ d.data ++ ['\x7d'] ++
          List.replicate (size - (s.head.length + d.length) - 1) (Char.ofNat 0))
      else none := by
  rw [statements_split, runAll_append,
    runAll_fits size ((statements s d).take 37) [] rfl
      (by rw [statements_head]; simpa using hsize), statements_head]
  simp only [List.nil_append, Option.some_bind, runAll, Stmt.run,
    copy_fresh size s.head d.data hsize]
  by_cases hfit : s.head.length + d.length < size
  · have ht : d.data.take (size - s.head.length) = d.data :=
      List.take_of_length_le (by show d.data.length ≤ _; have : d.length = d.data.length := rfl; omega)
    rw [ht, if_pos hfit]
    have hl : (s.head ++ d.data).length < size := by
      rw [List.length_append]
      exact hfit
    have := set_fresh size (s.head ++ d.data) '\x7d' hl
    cases hs : (Cursor.fresh size (s.head ++ d.data)).set '\x7d' with
    | none => rw [hs] at this; cases this
    | some k =>
      rw [hs] at this
      simp only [Option.map_some', Option.some.injEq] at this ⊢
      rw [this, List.length_append]
      rfl
  · rw [if_neg hfit]
    have hfull : (s.head ++ d.data.take (size - s.head.length)).length = size := by
      rw [List.length_append, List.length_take]
      have : d.length = d.data.length := rfl
      omega
    rw [set_full size _ '\x7d' hfull]
    rfl

end auth

namespace bytes

theorem find_takeWhile (z : Char) (b : List Char) :
    (match find b z with
      | some i => b.take i
      | none => b) = b.takeWhile (fun c => c != z) := by
  induction b with
  | nil => rfl
  | cons x xs ih =>
    by_cases hx : x = z
    · simp [find, hx]
    · have hne : (x != z) = true := by simpa using hx
      rw [List.takeWhile_cons, if_pos hne, ← ih]
      simp only [find, hx, if_false]
      cases find xs z with
      | none => rfl
      | some i => rfl

theorem takeWhile_padding (z : Char) (t : List Char) (r : Nat) :
    (t ++ List.replicate r z).takeWhile (fun c => c != z) = t.takeWhile (fun c => c != z) := by
  induction t with
  | nil =>
    cases r with
    | zero => rfl
    | succ k => simp [List.replicate_succ]
  | cons x xs ih =>
    simp only [List.cons_append, List.takeWhile_cons, ih]

theorem takeWhile_all (z : Char) (t : List Char) (h : z ∉ t) :
    t.takeWhile (fun c => c != z) = t := by
  induction t with
  | nil => rfl
  | cons x xs ih =>
    have hx : x ≠ z := fun e => h (e ▸ List.mem_cons_self _ _)
    have hne : (x != z) = true := by simpa using hx
    rw [List.takeWhile_cons, if_pos hne, ih (fun hm => h (List.mem_cons_of_mem _ hm))]

end bytes

namespace auth

theorem MarshalJSON_eq (s : ServerSession) (h0 : -2 ^ 63 ≤ s.Date) (h1 : s.Date < 2 ^ 63) :
    s.MarshalJSON =
      if (strconv.Itoa s.Date).length ≤ helpers.NumWidth s.Date + 1 then
        .ok (String.mk (s.text.data.takeWhile (fun c => c != Char.ofNat 0)))
      else .error .ErrCantMarshal := by
  have hsize : 2 + 18 + 5 + 4 + 1 + auth.length + csrf.length + email.length + school.length +
      date.length + s.AuthToken.length + s.CSRFToken.length + s.Email.length +
      s.School.length + helpers.NumWidth s.Date = s.head.length + 2 + helpers.NumWidth s.Date := by
    rw [head_length]
    have e1 : auth.length = 10 := rfl
    have e2 : csrf.length = 10 := rfl
    have e3 : email.length = 5 := rfl
    have e4 : school.length = 6 := rfl
    have e5 : date.length = 6 := rfl
    rw [e1, e2, e3, e4, e5]
    omega
  have hfresh : ∀ n : Nat, ({ buf := List.replicate n (Char.ofNat 0), n := 0 } : Cursor) =
      Cursor.fresh n [] := by
    intro n
    simp [Cursor.fresh]
  unfold ServerSession.MarshalJSON
  simp only [hsize, fill, helpers.FormatInt_Itoa s.Date h0 h1, hfresh]
  rw [runAll_statements s (strconv.Itoa s.Date) (s.head.length + 2 + helpers.NumWidth s.Date)
    (by omega)]
  by_cases hfit : (strconv.Itoa s.Date).length ≤ helpers.NumWidth s.Date + 1
  · rw [if_pos (by omega), if_pos hfit]
    simp only []
    have hcut := bytes.find_takeWhile (Char.ofNat 0)
      (s.head ++ (strconv.Itoa s.Date).data ++ ['\x7d'] ++
        List.replicate (s.head.length + 2 + helpers.NumWidth s.Date -
          (s.head.length + (strconv.Itoa s.Date).length) - 1) (Char.ofNat 0))
    rw [bytes.takeWhile_padding] at hcut
    unfold bytes.IndexByte
    cases hf : bytes.find (s.head ++ (strconv.Itoa s.Date).data ++ ['\x7d'] ++
        List.replicate (s.head.length + 2 + helpers.NumWidth s.Date -
          (s.head.length + (strconv.Itoa s.Date).length) - 1) (Char.ofNat 0)) (Char.ofNat 0) with
    | none =>
      rw [hf] at hcut
      simp only [ne_eq, not_true_eq_false, if_false]
      exact congrArg (fun l => Except.ok (String.mk l)) hcut
    | some i =>
      rw [hf] at hcut
      have hne : ((i : Nat) : Int) ≠ -1 := by omega
      simp only [ne_eq, hne, not_false_eq_true, if_true, Int.toNat_ofNat]
      exact congrArg (fun l => Except.ok (String.mk l)) hcut
  · rw [if_neg (by omega), if_neg hfit]

end auth

namespace bytes

theorem Split_none (sep : Char) (x : List Char) (h : sep ∉ x) : Split x sep = [x] := by
  induction x with
  | nil => rfl
  | cons c cs ih =>
    have hc : c ≠ sep := fun e => h (e ▸ List.mem_cons_self _ _)
    rw [Split, if_neg hc, ih (fun hm => h (List.mem_cons_of_mem _ hm))]

theorem Split_append (sep : Char) (x rest : List Char) (h : sep ∉ x) :
    Split (x ++ sep :: rest) sep = x :: Split rest sep := by
  induction x with
  | nil => simp [Split]
  | cons c cs ih =>
    have hc : c ≠ sep := fun e => h (e ▸ List.mem_cons_self _ _)
    rw [List.cons_append, Split, if_neg hc, ih (fun hm => h (List.mem_cons_of_mem _ hm))]

end bytes

namespace strings

theorem slice_mid (pre mid : List Char) (c : Char) :
    slice (String.mk (pre ++ mid ++ [c])) (pre.length : Int)
      (((pre ++ mid ++ [c]).length : Int) - 1) = some (String.mk mid) := by
  have hlen : (pre ++ mid ++ [c]).length = pre.length + mid.length + 1 := by
    rw [List.length_append, List.length_append, List.length_singleton]
  have hsl : (String.mk (pre ++ mid ++ [c])).length = pre.length + mid.length + 1 := hlen
  unfold slice
  rw [hlen, hsl, if_pos ⟨by omega, by omega, by omega⟩]
  have e1 : (((pre.length + mid.length + 1 : Nat) : Int) - 1).toNat = pre.length + mid.length := by
    omega
  rw [e1, Int.toNat_ofNat]
  have e2 : (pre ++ mid ++ [c]).take (pre.length + mid.length) = pre ++ mid := by
    rw [← List.length_append]
    exact List.take_left _ _
  show some (String.mk (((pre ++ mid ++ [c]).take (pre.length + mid.length)).drop pre.length)) = _
  rw [e2, List.drop_left]

end strings

namespace auth

theorem text_parts (s : ServerSession) :
    s.text.data =
      ("\x7b\"auth_token\":\"".data ++ s.AuthToken.data ++ ['"']) ++ ',' ::
      (("\"csrf_token\":\"".data ++ s.CSRFToken.data ++ ['"']) ++ ',' ::
      (("\"email\":\"".data ++ s.Email.data ++ ['"']) ++ ',' ::
      (("\"school\":\"".data ++ s.School.data ++ ['"']) ++ ',' ::
      ("\"expiry\":".data ++ (strconv.Itoa s.Date).data ++ ['\x7d'])))) := by
  simp [ServerSession.text, ServerSession.head]

theorem part_mid (parts : List (List Char)) (k : Nat) (pre mid : List Char) (c : Char)
    (h : parts.get? k = some (pre ++ mid ++ [c])) :
    part parts k pre.length = some (String.mk mid) := by
  unfold part
  rw [h]
  exact strings.slice_mid pre mid c

theorem Unmarshal_text (t s : ServerSession) (h0 : -2 ^ 63 ≤ s.Date) (h1 : s.Date < 2 ^ 63)
    (hA : ',' ∉ s.AuthToken.data) (hC : ',' ∉ s.CSRFToken.data) (hE : ',' ∉ s.Email.data)
    (hS : ',' ∉ s.School.data) :
    t.UnmarshalJSON s.text =
      .ok { t with AuthToken := s.AuthToken, CSRFToken := s.CSRFToken, Email := s.Email,
                   School := s.School, Date := s.Date } := by
  have hD : ',' ∉ (strconv.Itoa s.Date).data := fun hm => (strconv.Itoa_chars s.Date _ hm).1 rfl
  have hsplit : bytes.Split s.text.data ',' =
      [ "\x7b\"auth_token\":\"".data ++ s.AuthToken.data ++ ['"'],
        "\"csrf_token\":\"".data ++ s.CSRFToken.data ++ ['"'],
        "\"email\":\"".data ++ s.Email.data ++ ['"'],
        "\"school\":\"".data ++ s.School.data ++ ['"'],
        "\"expiry\":".data ++ (strconv.Itoa s.Date).data ++ ['\x7d'] ] := by
    rw [text_parts,
      bytes.Split_append _ _ _ (by
        simp only [List.mem_append, not_or]
        exact ⟨⟨by decide, hA⟩, by decide⟩),
      bytes.Split_append _ _ _ (by
        simp only [List.mem_append, not_or]
        exact ⟨⟨by decide, hC⟩, by decide⟩),
      bytes.Split_append _ _ _ (by
        simp only [List.mem_append, not_or]
        exact ⟨⟨by decide, hE⟩, by decide⟩),
      bytes.Split_append _ _ _ (by
        simp only [List.mem_append, not_or]
        exact ⟨⟨by decide, hS⟩, by decide⟩),
      bytes.Split_none _ _ (by
        simp only [List.mem_append, not_or]
        exact ⟨⟨by decide, hD⟩, by decide⟩)]
  have p0 := part_mid (bytes.Split s.text.data ',') 0 "\x7b\"auth_token\":\"".data
    s.AuthToken.data '"' (by rw [hsplit]; rfl)
  have p1 := part_mid (bytes.Split s.text.data ',') 1 "\"csrf_token\":\"".data
    s.CSRFToken.data '"' (by rw [hsplit]; rfl)
  have p2 := part_mid (bytes.Split s.text.data ',') 2 "\"email\":\"".data
    s.Email.data '"' (by rw [hsplit]; rfl)
  have p3 := part_mid (bytes.Split s.text.data ',') 3 "\"school\":\"".data
    s.School.data '"' (by rw [hsplit]; rfl)
  have p4 := part_mid (bytes.Split s.text.data ',') 4 "\"expiry\":".data
    (strconv.Itoa s.Date).data '\x7d' (by rw [hsplit]; rfl)
  have hg0 : (bytes.Split s.text.data ',').get? 0 =
      some ("\x7b\"auth_token\":\"".data ++ s.AuthToken.data ++ ['"']) := by
    rw [hsplit]
    rfl
  have hlen0 : ("\x7b\"auth_token\":\"".data ++ s.AuthToken.data ++ ['"']).length ≠ 0 := by
    simp
  unfold ServerSession.UnmarshalJSON
  simp only [hg0, hlen0, if_false]
  have q0 : part (bytes.Split s.text.data ',') 0 (2 + auth.length + 3) =
      some (String.mk s.AuthToken.data) := p0
  have q1 : part (bytes.Split s.text.data ',') 1 (1 + csrf.length + 3) =
      some (String.mk s.CSRFToken.data) := p1
  have q2 : part (bytes.Split s.text.data ',') 2 (1 + email.length + 3) =
      some (String.mk s.Email.data) := p2
  have q3 : part (bytes.Split s.text.data ',') 3 (1 + school.length + 3) =
      some (String.mk s.School.data) := p3
  have q4 : part (bytes.Split s.text.data ',') 4 (1 + date.length + 2) =
      some (String.mk (strconv.Itoa s.Date).data) := p4
  simp only [q0, q1, q2, q3, q4, strconv.ParseInt_Itoa s.Date h0 h1]

end auth

namespace auth

theorem Unmarshal_one_part (t : ServerSession) (b : String) (hb : b ≠ "")
    (hc : ',' ∉ b.data) : t.UnmarshalJSON b = .error .panicked := by
  have hsplit : bytes.Split b.data ',' = [b.data] := bytes.Split_none _ _ hc
  have hlen : b.data.length ≠ 0 := by
    intro h
    apply hb
    rcases b with ⟨l⟩
    have : l = [] := List.length_eq_zero.1 h
    subst this
    rfl
  have h1 : ∀ lo, part [b.data] 1 lo = none := fun _ => rfl
  unfold ServerSession.UnmarshalJSON
  simp only [hsplit, List.get?_cons_zero, hlen, if_false, h1]
  cases part [b.data] 0 (2 + auth.length + 3) <;> rfl

set_option maxRecDepth 20000 in
/-- C21 (what the code does): `UnmarshalJSON` does not undo `MarshalJSON`.  For a session
whose school is `PNW, Seattle`, `MarshalJSON` succeeds, and `UnmarshalJSON` on its result
panics: the comma makes six parts, and the fifth is too short for the slice taken from it
without a bounds check.  For the school `x,yyyyyyyyy12345` `UnmarshalJSON` returns a nil
error with the school cut to nothing and the date 12345 instead of that of the session. -/
theorem C21_comma_in_value_breaks_round_trip :
    commaSession.MarshalJSON = .ok commaSession.text ∧
    commaSession.MarshalJSON.bind (fun b => ServerSession.UnmarshalJSON {} b) =
      .error .panicked ∧
    silentSession.MarshalJSON = .ok silentSession.text ∧
    (silentSession.MarshalJSON.bind (fun b => ServerSession.UnmarshalJSON {} b)).map
      (fun r => (r.School, r.Date)) = .ok ("", 12345) ∧
    (silentSession.School, silentSession.Date) = ("x,yyyyyyyyy12345", 1433284583204993508) := by
  decide

/-- Where the round trip does hold: for every session whose date is an `int64`, whose
`AuthToken`, `CSRFToken`, `Email` and `School` hold no comma and no null byte, and for which
`MarshalJSON` succeeds, the result of `MarshalJSON` is the JSON text of the session, and
`UnmarshalJSON` on it returns a nil error and sets `AuthToken`, `CSRFToken`, `Email`,
`School` and `Date` to those of the session. -/
theorem round_trip_of_plain_values (s t : ServerSession) (buf : String)
    (h0 : -2 ^ 63 ≤ s.Date) (h1 : s.Date < 2 ^ 63)
    (hA : ∀ c ∈ s.AuthToken.data, c ≠ ',' ∧ c ≠ Char.ofNat 0)
    (hC : ∀ c ∈ s.CSRFToken.data, c ≠ ',' ∧ c ≠ Char.ofNat 0)
    (hE : ∀ c ∈ s.Email.data, c ≠ ',' ∧ c ≠ Char.ofNat 0)
    (hS : ∀ c ∈ s.School.data, c ≠ ',' ∧ c ≠ Char.ofNat 0)
    (hm : s.MarshalJSON = .ok buf) :
    buf = s.text ∧
    ∃ r, t.UnmarshalJSON buf = .ok r ∧ r.AuthToken = s.AuthToken ∧
      r.CSRFToken = s.CSRFToken ∧ r.Email = s.Email ∧ r.School = s.School ∧
      r.Date = s.Date ∧ r.ID = t.ID := by
  have hnul : Char.ofNat 0 ∉ s.text.data := by
    rw [text_parts]
    simp only [List.mem_append, List.mem_cons, not_or]
    have hD : Char.ofNat 0 ∉ (strconv.Itoa s.Date).data :=
      fun hm => (strconv.Itoa_chars s.Date _ hm).2 rfl
    refine ⟨⟨⟨by decide, fun hm => (hA _ hm).2 rfl⟩, by decide⟩, by decide,
      ⟨⟨by decide, fun hm => (hC _ hm).2 rfl⟩, by decide⟩, by decide,
      ⟨⟨by decide, fun hm => (hE _ hm).2 rfl⟩, by decide⟩, by decide,
      ⟨⟨by decide, fun hm => (hS _ hm).2 rfl⟩, by decide⟩, by decide,
      ⟨by decide, hD⟩, by decide⟩
  have hbuf : buf = s.text := by
    rw [MarshalJSON_eq s h0 h1] at hm
    split at hm
    · rw [bytes.takeWhile_all _ _ hnul] at hm
      exact (Except.ok.inj hm).symm
    · cases hm
  refine ⟨hbuf, { t with AuthToken := s.AuthToken, CSRFToken := s.CSRFToken, Email := s.Email,
                         School := s.School, Date := s.Date }, ?_, rfl, rfl, rfl, rfl, rfl, rfl⟩
  rw [hbuf]
  exact Unmarshal_text t s h0 h1 (fun hm => (hA _ hm).1 rfl) (fun hm => (hC _ hm).1 rfl)
    (fun hm => (hE _ hm).1 rfl) (fun hm => (hS _ hm).1 rfl)

set_option maxRecDepth 20000 in
/-- The round trip at a concrete input: the session `testSession`, unmarshalled into an
empty session. -/
theorem round_trip_testSession :
    testSession.MarshalJSON = .ok testSession.text ∧
    ∃ r, ServerSession.UnmarshalJSON {} testSession.text = .ok r ∧
      r.AuthToken = testSession.AuthToken ∧ r.CSRFToken = testSession.CSRFToken ∧
      r.Email = testSession.Email ∧ r.School = testSession.School ∧
      r.Date = testSession.Date ∧ r.ID = "" :=
  ⟨by decide,
    (round_trip_of_plain_values testSession {} testSession.text (by decide) (by decide)
      (by decide) (by decide) (by decide) (by decide) (by decide)).2⟩

set_option maxRecDepth 20000 in
/-- C22 (what the code does): `NumWidth` counts the divisions by 10 that bring its argument
to 10 or below, so it is short of the number of digits: `NumWidth(100)` is 1.  For every
session with an `int64` date, `MarshalJSON` returns `ErrCantMarshal` exactly when the
decimal text of the date is longer than `NumWidth(Date) + 1` bytes: the buffer ends before
the closing brace, the write panics and the deferred function turns the panic into the
error.  `testSession` with the date 100, or with the date -10, is such a session; with its
own date `MarshalJSON` succeeds. -/
theorem C22_MarshalJSON_fails_when_date_is_wider :
    (∀ s : ServerSession, -2 ^ 63 ≤ s.Date → s.Date < 2 ^ 63 →
      (s.MarshalJSON = .error .ErrCantMarshal ↔
        helpers.NumWidth s.Date + 1 < (strconv.Itoa s.Date).length)) ∧
    helpers.NumWidth 100 = 1 ∧ helpers.FormatInt 100 = some "100" ∧
    ServerSession.MarshalJSON { testSession with Date := 100 } = .error .ErrCantMarshal ∧
    ServerSession.MarshalJSON { testSession with Date := -10 } = .error .ErrCantMarshal ∧
    testSession.MarshalJSON = .ok testSession.text := by
  refine ⟨fun s h0 h1 => ?_, by decide, by decide, by decide, by decide, by decide⟩
  rw [MarshalJSON_eq s h0 h1]
  split
  · constructor
    · intro h
      cases h
    · intro h
      omega
  · exact ⟨fun _ => by omega, fun _ => rfl⟩

set_option maxRecDepth 20000 in
/-- C30 (what the code does): `UnmarshalJSON` tests only whether the first part is empty.
For every non-empty input without a comma it panics: the slice of the first part, or the
index `parts[1]`, is out of range, and nothing recovers the panic.  So it does for `x`,
for an object of two keys and for five parts that are too short; on the empty input it
returns `ErrCantUnmarshal`. -/
theorem C30_UnmarshalJSON_panics_on_short_input :
    (∀ (t : ServerSession) (b : String), b ≠ "" → ',' ∉ b.data →
      t.UnmarshalJSON b = .error .panicked) ∧
    ServerSession.UnmarshalJSON {} "x" = .error .panicked ∧
    ServerSession.UnmarshalJSON {} "\x7b\"auth_token\":\"a\",\"csrf_token\":\"b\"\x7d" =
      .error .panicked ∧
    ServerSession.UnmarshalJSON {} "a,b,c,d,e" = .error .panicked ∧
    ServerSession.UnmarshalJSON {} "" = .error .ErrCantUnmarshal := by
  refine ⟨Unmarshal_one_part, by decide, by decide, by decide, by decide⟩

end auth

namespace useful

set_option maxRecDepth 100000 in
/-- C3 (what the code does): writes are kept only while every rename succeeds and no
temporary name is reused before its archival.  (a) On `blockedSys` the state `Init` leaves
has an empty log, a counter of 0 and the limit 100, and the rename to the first pool name
fails with `EISDIR`; `Rotate` drops that error, so after three 40-byte writes one archival
was started, yet no file was retired (the name handed to archival is no regular file), the
active file holds the 120 bytes, and that archival panics.  (b) From a state `Init` leaves
on `freshSys` with a limit of one byte, twenty-six one-byte writes rotate twenty-six times;
with no archival finished in between, the twenty-sixth rename replaces the file the first
rotation retired: the retired files followed by the active file hold `Z`, then `B` to `Z`,
not `A` to `Z`, and archival of all of them ends in a panic on the missing file, whereas
after twenty-five writes all lines are still there. -/
theorem C3_failed_rename_or_reused_name_loses_writes :
    (Init none (some demoOpts) blockedSys).map
      (fun w => (w.active, w.LogFile.size, w.LogFile.Opts.MaxFileSize)) = .ok ("", 0, 100) ∧
    (Init none (some demoOpts) blockedSys).map
      (fun w => os.Rename w.fs w.LogFile.Opts.LogName (w.LogFile.pool.get w.toSys).1) =
        .ok (.error .EISDIR) ∧
    ((Init none (some demoOpts) blockedSys).bind
      (fun w => logAll w [demoRecord, demoRecord, demoRecord])).map
      (fun w => (w.active.length, w.spawned, w.retired)) =
        .ok (120, ["._archive555695684"], [""]) ∧
    ((Init none (some demoOpts) blockedSys).bind
      (fun w => logAll w [demoRecord, demoRecord, demoRecord])).map
      (fun w => (w.fs.read "._archive555695684",
        (doRotateAll id w w.spawned).map (fun w => w.cur))) =
        .ok (none, .error (.errno .EISDIR)) ∧
    ((Init none (some tinyOpts) freshSys).bind (fun w => logAll w letterRecords)).map
      (fun w => (String.join w.retired ++ w.active, w.spawned.length)) =
        .ok ("ZBCDEFGHIJKLMNOPQRSTUVWXYZ", 26) ∧
    (Init none (some tinyOpts) freshSys).map (fun w => w.active) = .ok "" ∧
    String.join (lines letterRecords) = "ABCDEFGHIJKLMNOPQRSTUVWXYZ" ∧
    ((Init none (some tinyOpts) freshSys).bind (fun w => logAll w letterRecords)).map
      (fun w => (w.spawned.head?, w.spawned.getLast?,
        (doRotateAll id w w.spawned).map (fun w => w.cur))) =
        .ok (some "._archive555695684", some "._archive555695684",
          .error (.errno .ENOENT)) ∧
    ((Init none (some tinyOpts) freshSys).bind
      (fun w => logAll w (letterRecords.take 25))).map
      (fun w => String.join w.retired ++ w.active) = .ok "ABCDEFGHIJKLMNOPQRSTUVWXY" := by
  decide

set_option maxRecDepth 100000 in
/-- C5 (what the code does): the active file is bounded only while every rename succeeds.
On `blockedSys`, `NewLog` seeds the counter with the real size of the log file (0, limit
100) and the first pool name is a directory, so the rename in `Rotate` fails and its error
is dropped: the third 40-byte write rotates, `Rotate` reopens the same file and resets the
counter, and the write completes with 120 bytes in the active file and a counter of 40;
after the fourth write the file holds 160 bytes. -/
theorem C5_active_file_exceeds_max_after_failed_rename :
    (NewLog (some demoOpts) blockedSys).map
      (fun p => (p.1.size, os.File.Size p.2.fs p.1.file, p.1.Opts.MaxFileSize)) =
        .ok (0, some 0, 100) ∧
    ((Init none (some demoOpts) blockedSys).bind
      (fun w => logAll w [demoRecord, demoRecord])).map
      (fun w => (w.active.length, w.LogFile.size, w.spawned)) = .ok (80, 80, []) ∧
    ((Init none (some demoOpts) blockedSys).bind
      (fun w => logAll w [demoRecord, demoRecord, demoRecord])).map
      (fun w => (w.active.length, w.LogFile.size, w.spawned)) =
        .ok (120, 40, ["._archive555695684"]) ∧
    ((Init none (some demoOpts) blockedSys).bind
      (fun w => logAll w [demoRecord, demoRecord, demoRecord, demoRecord])).map
      (fun w => (w.active.length, w.LogFile.size, w.LogFile.Opts.MaxFileSize)) =
        .ok (160, 80, 100) := by
  decide

end useful
